import Mathlib

/-!
# Chunk section mesh builder (`chunkbuilder.go`), metadata and NBT readers

A shallow embedding of the per-section builder of `chunkbuilder.go`:
the flood fill of `buildCullBits` / `floodFill` that computes the face
visibility bitmask, and the per-voxel loop of `chunkSection.build`; of
`readMetadata` / `writeMetadata` of `protocol/metadata.go`; and of
`Compound.Deserialize` of `encoding/nbt/nbt.go`.

Go `int` values are `Int`; the bitmasks (`uint8`, `uint64`) are `Nat` with an
explicit reduction modulo the width at every non-constant shift.  Recursion of
`floodFill` is bounded by a fuel argument: `none` means that the fuel ran out,
and the theorems show that the fuel used by `buildCullBits` always suffices.
-/

namespace Steven

/-! ## Directions (package `type/direction`) -/

/-- Modelled from the spec: the package `type/direction` is not part of the
sources at hand.  The six outer faces of a section, numbered `0..5` so that
`from*6 + to` ranges over the 36 entries of the bitmask. -/
inductive Direction where
  | Up | Down | North | South | West | East
  deriving DecidableEq, Repr

namespace Direction

/-- Modelled from the spec: the numeric value of a `direction.Type` constant
(the constants are declared in the order of `Values`). -/
def toNat : Direction → Nat
  | Up => 0
  | Down => 1
  | North => 2
  | South => 3
  | West => 4
  | East => 5

/-- Modelled from the spec: `direction.Values`, the list of the six faces. -/
def Values : List Direction := [Up, Down, North, South, West, East]

/-- Modelled from the spec: `d.Offset()`, the unit step towards face `d`
(x=0 West, x=15 East, y=0 Down, y=15 Up, z=0 North, z=15 South). -/
def Offset : Direction → Int × Int × Int
  | Up => (0, 1, 0)
  | Down => (0, -1, 0)
  | North => (0, 0, -1)
  | South => (0, 0, 1)
  | West => (-1, 0, 0)
  | East => (1, 0, 0)

end Direction

/-! ## Blocks and snapshots -/

/-- The Go struct `chunkVertex`: `int16` fields are integers, `uint16` and
`byte` fields are naturals. -/
structure chunkVertex where
  X : Int
  Y : Int
  Z : Int
  TX : Nat
  TY : Nat
  TW : Nat
  TH : Nat
  TOffsetX : Int
  TOffsetY : Int
  R : Nat
  G : Nat
  B : Nat
  BlockLight : Nat
  SkyLight : Nat
  deriving DecidableEq, Repr

/-- Modelled from the spec: the block interface is not part of the sources at
hand.  A block state as far as the builder queries it: `Is(BlockAir)`,
`IsTranslucent()`, `ShouldCullAgainst()`, whether it is a `*blockLiquid`, and
`Models()`, the list of model variants (an entry is `none` where
`selectModel` yields nil; a variant is named by a number). -/
structure Block where
  isAir : Bool
  IsTranslucent : Bool
  ShouldCullAgainst : Bool
  isLiquid : Bool
  Models : List (Option Nat)
  deriving DecidableEq, Repr

/-- The Go struct `position`. -/
structure position where
  X : Int
  Y : Int
  Z : Int
  deriving DecidableEq, Repr

/-- A block snapshot made relative to the section: `bs.block(x, y, z)`. -/
structure blocksSnapshot where
  block : Int → Int → Int → Block

/-! ## The flood fill -/

/-- The face bits of a voxel, lines 184-200 of `floodFill`. -/
def touchedFaces (x y z : Int) : Nat :=
  let touched := 0
  let touched :=
    if x = 0 then touched ||| (1 <<< Direction.West.toNat)
    else if x = 15 then touched ||| (1 <<< Direction.East.toNat)
    else touched
  let touched :=
    if y = 0 then touched ||| (1 <<< Direction.Down.toNat)
    else if y = 15 then touched ||| (1 <<< Direction.Up.toNat)
    else touched
  let touched :=
    if z = 0 then touched ||| (1 <<< Direction.North.toNat)
    else if z = 15 then touched ||| (1 <<< Direction.South.toNat)
    else touched
  touched

/-- The Go function `floodFill`.  The visited map is threaded through and
returned with the touched bits; recursion depth is bounded by the fuel. -/
def floodFill (bs : blocksSnapshot) :
    Nat → Finset position → Int → Int → Int → Option (Finset position × Nat)
  | 0, _, _, _, _ => none
  | fuel + 1, visited, x, y, z =>
    let pos : position := ⟨x, y, z⟩
    if pos ∈ visited ∨ x < 0 ∨ x > 15 ∨ y < 0 ∨ y > 15 ∨ z < 0 ∨ z > 15 then
      some (visited, 0)
    else
      let visited := insert pos visited
      if (bs.block x y z).ShouldCullAgainst then
        some (visited, 0)
      else
        Direction.Values.foldlM
          (fun (st : Finset position × Nat) d =>
            match floodFill bs fuel st.1 (x + d.Offset.1) (y + d.Offset.2.1)
                (z + d.Offset.2.2) with
            | none => none
            | some (visited, t) => some (visited, st.2 ||| t))
          (visited, touchedFaces x y z)

/-- The closure `set` of `buildCullBits`: `bits |= 1 << (from*6 + to)` on a
`uint64`. -/
def setBit (bits : Nat) (dFrom dTo : Direction) : Nat :=
  bits ||| ((1 <<< (dFrom.toNat * 6 + dTo.toNat)) % 2 ^ 64)

/-- The test `touched&(1<<d) != 0` on a `uint8`. -/
def isTouched (touched : Nat) (d : Direction) : Bool :=
  touched &&& ((1 <<< d.toNat) % 2 ^ 8) != 0

/-- Lines 153-161 of `buildCullBits`: every pair of touched faces is marked. -/
def markTouched (touched bits : Nat) : Nat :=
  Direction.Values.foldl
    (fun bits d =>
      if isTouched touched d then
        Direction.Values.foldl
          (fun bits d2 => if isTouched touched d2 then setBit bits d d2 else bits) bits
      else bits)
    bits

/-- The body of the innermost loop of `buildCullBits`, lines 143-161. -/
def cullStep (bs : blocksSnapshot) (fuel : Nat) (st : Finset position × Nat)
    (x y z : Int) : Option (Finset position × Nat) :=
  if (⟨x, y, z⟩ : position) ∈ st.1 then some st
  else
    match floodFill bs fuel st.1 x y z with
    | none => none
    | some (visited, touched) =>
      if touched = 0 then some (visited, st.2)
      else some (visited, markTouched touched st.2)

/-- The three loops of `buildCullBits` (y outer, z middle, x inner), run with
the given fuel for every fill. -/
def cullLoop (bs : blocksSnapshot) (fuel : Nat) (st : Finset position × Nat) :
    Option (Finset position × Nat) :=
  (List.range 16).foldlM (fun st (y : Nat) =>
    (List.range 16).foldlM (fun st (z : Nat) =>
      (List.range 16).foldlM (fun st (x : Nat) =>
        cullStep bs fuel st (x : Int) (y : Int) (z : Int)) st) st) st

/-- The Go function `buildCullBits`.  A fill visits at most the 4096 voxels of
the section, so 4097 levels of recursion are enough. -/
def buildCullBits (bs : blocksSnapshot) : Option Nat :=
  (cullLoop bs 4097 (∅, 0)).map Prod.snd

/-! ## The per-voxel loop of `build` -/

/-- Modelled from the spec: the package `render/builder` is not part of the
sources at hand.  `Buffer.UnsignedByte` appends one byte to the data of the
byte-oriented buffer. -/
def UnsignedByte (b : List Nat) (v : Nat) : List Nat :=
  b ++ [v % 256]

/-- Modelled from the spec: `Buffer.UnsignedShort` appends the two bytes of a
16-bit field (low byte first; the spec leaves the byte order to the buffer). -/
def UnsignedShort (b : List Nat) (v : Nat) : List Nat :=
  b ++ [v % 256, v / 256 % 256]

/-- Modelled from the spec: `Buffer.Short` appends the two bytes of the two's
complement pattern of a signed 16-bit field. -/
def Short (b : List Nat) (v : Int) : List Nat :=
  UnsignedShort b (v % 65536).toNat

/-- The Go function `buildVertex`. -/
def buildVertex (b : List Nat) (v : chunkVertex) : List Nat :=
  let b := Short b v.X
  let b := Short b v.Y
  let b := Short b v.Z
  let b := UnsignedShort b v.TX
  let b := UnsignedShort b v.TY
  let b := UnsignedShort b v.TW
  let b := UnsignedShort b v.TH
  let b := Short b v.TOffsetX
  let b := Short b v.TOffsetY
  let b := UnsignedByte b v.R
  let b := UnsignedByte b v.G
  let b := UnsignedByte b v.B
  let b := UnsignedByte b v.BlockLight
  let b := UnsignedByte b v.SkyLight
  b

/-- The collaborators of `build` that live outside `chunkbuilder.go`: the
generator of `math/rand` and the surface generators of liquids and model
variants.  A generator state is a `G`; `NewSource` seeds it, `next` is the
state after one value has been drawn, `intValue` is the value `r.Int()`
returns and `intnValue r n` the value `r.Intn(n)` returns for `n > 0`.
Every call of `r.Int()` or `r.Intn(n)` counts as one draw and moves the
generator by one `next`: the spec's "one pseudo-random draw".  The retries
that the library's `Intn` may make inside one call are not represented. -/
structure Env where
  G : Type
  NewSource : Int → G
  next : G → G
  intValue : G → Nat
  intnValue : G → Nat → Nat
  renderLiquid : Block → blocksSnapshot → Int → Int → Int → List chunkVertex
  Render : Nat → Int → Int → Int → blocksSnapshot → List chunkVertex

/-- The call `r.Int()`: one value is drawn. -/
def Env.rInt (E : Env) (r : E.G) : Nat × E.G :=
  (E.intValue r, E.next r)

/-- The call `r.Intn(n)`: it panics (`none`) when `n <= 0`, and otherwise one
value is drawn. -/
def Env.rIntn (E : Env) (r : E.G) (n : Nat) : Option (Nat × E.G) :=
  if n = 0 then none else some (E.intnValue r n, E.next r)

/-- Modelled from the spec: `selectModel(index)`, the variant at `index` of
the variant list, nil when there is none. -/
def selectModel (models : List (Option Nat)) (index : Nat) : Option Nat :=
  (models.get? index).join

/-- A Go `int` (64 bits) after wrap-around. -/
def wrap64 (v : Int) : Int :=
  (v + 2 ^ 63) % 2 ^ 64 - 2 ^ 63

/-- The seed of the section, `int64(cs.chunk.X) | (int64(cs.chunk.Z) << 32)`. -/
def sectionSeed (chunkX chunkZ : Int) : Int :=
  Int.lor (wrap64 chunkX) (wrap64 (wrap64 chunkZ * 2 ^ 32))

/-- The Go struct `render.ObjectInfo`, a Translucency Record. -/
structure ObjectInfo where
  X : Int
  Y : Int
  Z : Int
  Offset : Int
  Count : Int
  deriving DecidableEq, Repr

/-- The variables of the goroutine of `build`: the two buffers `bO` and `bT`,
the generator `r` and `tInfo`.  Three fields are bookkeeping that the Go code
does not have: `draws` counts the values drawn from `r`, `trace` lists the
voxels visited and `picks` the variant index drawn for each modeled voxel. -/
structure buildState (E : Env) where
  bO : List Nat
  bT : List Nat
  r : E.G
  tInfo : List ObjectInfo
  draws : Nat
  trace : List position
  picks : List (position × Nat)

/-- The state at line 51 of `build`, before the loops. -/
def buildState.init (E : Env) (chunkX chunkZ : Int) : buildState E :=
  { bO := [], bT := [], r := E.NewSource (sectionSeed chunkX chunkZ), tInfo := [],
    draws := 0, trace := [], picks := [] }

/-- Lines 80-89 and 101-110 of `build`: the Translucency Record of a voxel. -/
def recordTranslucent (bl : Block) (chunkX sectionY chunkZ x y z : Int) (offset count : Int)
    (tInfo : List ObjectInfo) : List ObjectInfo :=
  if bl.IsTranslucent ∧ count > 0 then
    tInfo ++ [{ X := wrap64 (wrap64 (chunkX * 16) + x), Y := wrap64 (wrap64 (sectionY * 16) + y),
                Z := wrap64 (wrap64 (chunkZ * 16) + z), Offset := offset, Count := count }]
  else tInfo

/-- The body of the innermost loop of `build`, lines 57-111.  `none` is the
panic of `r.Intn` on an empty variant list. -/
def voxelStep (E : Env) (bs : blocksSnapshot) (chunkX sectionY chunkZ : Int)
    (st : buildState E) (x y z : Int) : Option (buildState E) :=
  let bl := bs.block x y z
  if bl.isAir then
    let r := (E.rInt st.r).2
    some { st with r := r, draws := st.draws + 1, trace := st.trace ++ [⟨x, y, z⟩] }
  else
    let b := if bl.IsTranslucent then st.bT else st.bO
    let offset : Int := b.length
    if bl.isLiquid then
      let b := (E.renderLiquid bl bs x y z).foldl buildVertex b
      let r := (E.rInt st.r).2
      let count : Int := (b.length : Int) - offset
      let tInfo := recordTranslucent bl chunkX sectionY chunkZ x y z offset count st.tInfo
      some { st with
        bO := if bl.IsTranslucent then st.bO else b
        bT := if bl.IsTranslucent then b else st.bT
        r := r, tInfo := tInfo, draws := st.draws + 1, trace := st.trace ++ [⟨x, y, z⟩] }
    else
      match E.rIntn st.r bl.Models.length with
      | none => none
      | some (index, r) =>
        match selectModel bl.Models index with
        | some variant =>
          let b := (E.Render variant x y z bs).foldl buildVertex b
          let count : Int := (b.length : Int) - offset
          let tInfo := recordTranslucent bl chunkX sectionY chunkZ x y z offset count st.tInfo
          some { st with
            bO := if bl.IsTranslucent then st.bO else b
            bT := if bl.IsTranslucent then b else st.bT
            r := r, tInfo := tInfo, draws := st.draws + 1,
            trace := st.trace ++ [⟨x, y, z⟩], picks := st.picks ++ [(⟨x, y, z⟩, index)] }
        | none =>
          some { st with
            r := r, draws := st.draws + 1, trace := st.trace ++ [⟨x, y, z⟩],
            picks := st.picks ++ [(⟨x, y, z⟩, index)] }

/-- The three loops of `build`, lines 53-114 (y outer, x middle, z inner). -/
def buildLoop (E : Env) (bs : blocksSnapshot) (chunkX sectionY chunkZ : Int)
    (st : buildState E) : Option (buildState E) :=
  (List.range 16).foldlM (fun st (y : Nat) =>
    (List.range 16).foldlM (fun st (x : Nat) =>
      (List.range 16).foldlM (fun st (z : Nat) =>
        voxelStep E bs chunkX sectionY chunkZ st (x : Int) (y : Int) (z : Int)) st) st) st

/-- What `build` uploads: the data of the two buffers, the records and the
visibility bitmask. -/
structure buildResult where
  bO : List Nat
  bT : List Nat
  tInfo : List ObjectInfo
  cullBits : Nat
  deriving DecidableEq, Repr

/-- The goroutine of `build`, lines 47-123, on the snapshot made relative. -/
def build (E : Env) (bs : blocksSnapshot) (chunkX sectionY chunkZ : Int) :
    Option buildResult :=
  match buildLoop E bs chunkX sectionY chunkZ (buildState.init E chunkX chunkZ) with
  | none => none
  | some st =>
    match buildCullBits bs with
    | none => none
    | some cullBits => some { bO := st.bO, bT := st.bT, tInfo := st.tInfo, cullBits := cullBits }

/-- The variant index that the loop of `build` selects for the voxel `q`, if
the loop completes and `q` holds a modeled block. -/
def variantIndex (E : Env) (bs : blocksSnapshot) (chunkX sectionY chunkZ : Int)
    (q : position) : Option Nat :=
  match buildLoop E bs chunkX sectionY chunkZ (buildState.init E chunkX chunkZ) with
  | none => none
  | some st => st.picks.lookup q

/-- The snapshot with the block at `p` replaced by `b`. -/
def blocksSnapshot.set (bs : blocksSnapshot) (p : position) (b : Block) : blocksSnapshot :=
  ⟨fun x y z => if (⟨x, y, z⟩ : position) = p then b else bs.block x y z⟩

/-- The order in which `build` visits the voxels: y outer, x middle, z inner. -/
def voxelOrder : List position :=
  (List.range 16).flatMap (fun (y : Nat) =>
    (List.range 16).flatMap (fun (x : Nat) =>
      (List.range 16).map (fun (z : Nat) => (⟨(x : Int), (y : Int), (z : Int)⟩ : position))))

/-! ## Geometry of a section -/

/-- The voxel lies in the section, `[0,15]` on every axis. -/
def inSection (p : position) : Prop :=
  0 ≤ p.X ∧ p.X ≤ 15 ∧ 0 ≤ p.Y ∧ p.Y ≤ 15 ∧ 0 ≤ p.Z ∧ p.Z ≤ 15

instance (p : position) : Decidable (inSection p) := by
  unfold inSection; infer_instance

/-- A voxel of the section that the fill can enter: it is not culling. -/
def isOpen (bs : blocksSnapshot) (p : position) : Prop :=
  inSection p ∧ (bs.block p.X p.Y p.Z).ShouldCullAgainst = false

instance (bs : blocksSnapshot) (p : position) : Decidable (isOpen bs p) := by
  unfold isOpen; infer_instance

/-- The voxel lies on the outer face `d` of the section
(x=0 West, x=15 East, y=0 Down, y=15 Up, z=0 North, z=15 South). -/
def onFace : Direction → position → Prop
  | Direction.West, p => p.X = 0
  | Direction.East, p => p.X = 15
  | Direction.Down, p => p.Y = 0
  | Direction.Up, p => p.Y = 15
  | Direction.North, p => p.Z = 0
  | Direction.South, p => p.Z = 15

instance (d : Direction) (p : position) : Decidable (onFace d p) := by
  cases d <;> unfold onFace <;> infer_instance

/-- Two voxels share a face: they differ by one in exactly one coordinate. -/
def adjacent (p q : position) : Prop :=
  (p.X - q.X).natAbs + (p.Y - q.Y).natAbs + (p.Z - q.Z).natAbs = 1

instance (p q : position) : Decidable (adjacent p q) := by
  unfold adjacent; infer_instance

/-- The neighbour of a voxel towards `d`, the argument of the recursive call
of `floodFill`. -/
def position.move (p : position) (d : Direction) : position :=
  ⟨p.X + d.Offset.1, p.Y + d.Offset.2.1, p.Z + d.Offset.2.2⟩

/-- One step between two face-adjacent non-culling voxels of the section. -/
def Linked (bs : blocksSnapshot) (p q : position) : Prop :=
  isOpen bs p ∧ isOpen bs q ∧ adjacent p q

/-- The voxels are joined by a chain of face-adjacent non-culling voxels. -/
def Conn (bs : blocksSnapshot) : position → position → Prop :=
  Relation.ReflTransGen (Linked bs)

/-- A 6-connected region of non-culling voxels of the section. -/
structure IsRegion (bs : blocksSnapshot) (S : Set position) : Prop where
  isOpen : ∀ p ∈ S, isOpen bs p
  connected : ∀ p ∈ S, ∀ q ∈ S,
    Relation.ReflTransGen (fun a b => a ∈ S ∧ b ∈ S ∧ adjacent a b) p q

/-- Face `a` and face `b` are joined through open space: a region of
non-culling voxels holds a voxel on `a` and a voxel on `b`. -/
def Visible (bs : blocksSnapshot) (a b : Direction) : Prop :=
  ∃ S : Set position, IsRegion bs S ∧ (∃ v ∈ S, onFace a v) ∧ (∃ w ∈ S, onFace b w)

/-- The 4096 voxels of the section. -/
def sectionCells : Finset position :=
  ((Finset.range 16 ×ˢ (Finset.range 16 ×ˢ Finset.range 16)).image
    (fun t => (⟨(t.1 : Int), (t.2.1 : Int), (t.2.2 : Int)⟩ : position)))

/-! ## Sample blocks, sections and collaborators -/

/-- Air: no model variant, nothing is culled against it. -/
def airBlock : Block :=
  { isAir := true, IsTranslucent := false, ShouldCullAgainst := false, isLiquid := false,
    Models := [] }

/-- A full cube with one model variant; faces are culled against it. -/
def stoneBlock : Block :=
  { isAir := false, IsTranslucent := false, ShouldCullAgainst := true, isLiquid := false,
    Models := [some 0] }

/-- A translucent block with one model variant. -/
def glassBlock : Block :=
  { isAir := false, IsTranslucent := true, ShouldCullAgainst := false, isLiquid := false,
    Models := [some 0] }

/-- A block that is neither air nor a liquid and has no model variant. -/
def unmodeledBlock : Block :=
  { isAir := false, IsTranslucent := false, ShouldCullAgainst := false, isLiquid := false,
    Models := [] }

/-- A section of air. -/
def emptySection : blocksSnapshot := ⟨fun _ _ _ => airBlock⟩

/-- A section of stone. -/
def solidSection : blocksSnapshot := ⟨fun _ _ _ => stoneBlock⟩

/-- A section of glass. -/
def glassSection : blocksSnapshot := ⟨fun _ _ _ => glassBlock⟩

/-- A section of stone above one layer of air at `y = 0`. -/
def slabSection : blocksSnapshot := ⟨fun _ y _ => if 1 ≤ y then stoneBlock else airBlock⟩

/-- A section of air with one stone block at `(0, 0, 1)`. -/
def loneBlockSection : blocksSnapshot :=
  ⟨fun x y z => if x = 0 ∧ y = 0 ∧ z = 1 then stoneBlock else airBlock⟩

/-- A section of blocks without model variant. -/
def unmodeledSection : blocksSnapshot := ⟨fun _ _ _ => unmodeledBlock⟩

/-- A vertex. -/
def sampleVertex : chunkVertex :=
  { X := 0, Y := 0, Z := 0, TX := 0, TY := 0, TW := 16, TH := 16, TOffsetX := 0, TOffsetY := 0,
    R := 255, G := 255, B := 255, BlockLight := 0, SkyLight := 15 }

/-- Collaborators for the examples: the generator counts up from its seed and
every surface generator emits one vertex. -/
def sampleEnv : Env :=
  { G := Nat, NewSource := fun seed => seed.toNat, next := fun g => g + 1,
    intValue := fun g => g, intnValue := fun g n => g % n,
    renderLiquid := fun _ _ _ _ _ => [sampleVertex],
    Render := fun _ _ _ _ _ => [sampleVertex] }

/-! ## Predicates of the correctness proofs -/

/-- Every visited open voxel outside `G` (the voxels whose fill is still
running) has all its open neighbours visited. -/
def Closed (bs : blocksSnapshot) (vis : Finset position) (G : Set position) : Prop :=
  ∀ q ∈ vis, isOpen bs q → q ∉ G → ∀ d : Direction, isOpen bs (q.move d) → q.move d ∈ vis

/-- What one call of `floodFill` at `p` achieves, from the visited set `vis`
to the visited set `vis'` with touched bits `t`. -/
structure FillPost (bs : blocksSnapshot) (vis : Finset position) (p : position)
    (vis' : Finset position) (t : Nat) : Prop where
  mono : vis ⊆ vis'
  here : inSection p → p ∈ vis'
  fresh : ∀ q ∈ vis', q ∉ vis → inSection q
  closed : ∀ G : Set position, Closed bs vis G → Closed bs vis' G
  conn : ∀ q ∈ vis', q ∉ vis → isOpen bs q → Conn bs p q
  bits : ∀ n, t.testBit n = true ↔
    ∃ d : Direction, d.toNat = n ∧ ∃ q ∈ vis', q ∉ vis ∧ isOpen bs q ∧ onFace d q

/-- The open voxel `u` reaches a voxel on face `a` and a voxel on face `b`. -/
def Seen (bs : blocksSnapshot) (a b : Direction) (u : position) : Prop :=
  isOpen bs u ∧ (∃ v, Conn bs u v ∧ onFace a v) ∧ (∃ w, Conn bs u w ∧ onFace b w)

/-- The loop invariant of `buildCullBits`: the visited set is closed under
open neighbours and the bitmask holds exactly the pairs of faces reached from
a visited open voxel. -/
def CullInv (bs : blocksSnapshot) (st : Finset position × Nat) : Prop :=
  Closed bs st.1 ∅ ∧
    ∀ n, st.2.testBit n = true ↔
      ∃ a b : Direction, n = a.toNat * 6 + b.toNat ∧ ∃ u ∈ st.1, Seen bs a b u

/-- The voxels of the section with `y` at most `h`. -/
def lowerBox (h : Int) : Set position :=
  {p | inSection p ∧ p.Y ≤ h}

/-- The variant index drawn for the voxel visited as number `kq.1`, from the
generator seeded with `r0`: none for air and liquids. -/
def pickOf (E : Env) (bs : blocksSnapshot) (r0 : E.G) (kq : Nat × position) :
    Option (position × Nat) :=
  if (bs.block kq.2.X kq.2.Y kq.2.Z).isAir = true ∨
      (bs.block kq.2.X kq.2.Y kq.2.Z).isLiquid = true then none
  else some (kq.2,
    E.intnValue (E.next^[kq.1] r0) (bs.block kq.2.X kq.2.Y kq.2.Z).Models.length)

/-- The world coordinates that a Translucency Record gives to a voxel. -/
def worldOf (chunkX sectionY chunkZ : Int) (p : position) : Int × Int × Int :=
  (wrap64 (wrap64 (chunkX * 16) + p.X), wrap64 (wrap64 (sectionY * 16) + p.Y),
    wrap64 (wrap64 (chunkZ * 16) + p.Z))

/-- The invariant of the loop of `build` once the voxels `pre` are visited. -/
structure BuildInv (E : Env) (bs : blocksSnapshot) (chunkX sectionY chunkZ : Int) (r0 : E.G)
    (pre : List position) (st : buildState E) : Prop where
  trace : st.trace = pre
  draws : st.draws = pre.length
  gen : st.r = E.next^[pre.length] r0
  picks : st.picks = pre.enum.filterMap (pickOf E bs r0)
  records : ∀ a ∈ st.tInfo, 0 < a.Count ∧ 0 ≤ a.Offset ∧ a.Offset + a.Count ≤ st.bT.length
  sorted : st.tInfo.Pairwise (fun a b => a.Offset + a.Count ≤ b.Offset)
  order : (st.tInfo.map (fun a => (a.X, a.Y, a.Z))).Sublist
    (pre.map (worldOf chunkX sectionY chunkZ))
  quiet : (∀ p ∈ pre, (bs.block p.X p.Y p.Z).isAir = true) →
    st.bO = [] ∧ st.bT = [] ∧ st.tInfo = []

/-- A voxel on which `r.Intn` panics: a block that is neither air nor a
liquid and has no model variant. -/
def badVoxel (bs : blocksSnapshot) (p : position) : Prop :=
  (bs.block p.X p.Y p.Z).isAir = false ∧ (bs.block p.X p.Y p.Z).isLiquid = false ∧
    (bs.block p.X p.Y p.Z).Models = []

instance (bs : blocksSnapshot) (p : position) : Decidable (badVoxel bs p) := by
  unfold badVoxel; infer_instance

/-! ## Vertex records, record tiling and the snapshot window -/

/-- The bytes of a Vertex Record in the order of the data model: three signed
16-bit position components, four unsigned 16-bit texture-region components,
two signed 16-bit texture offsets, three colour bytes and two light bytes. -/
def vertexBytes (v : chunkVertex) : List Nat :=
  Short [] v.X ++ Short [] v.Y ++ Short [] v.Z ++
    UnsignedShort [] v.TX ++ UnsignedShort [] v.TY ++ UnsignedShort [] v.TW ++
    UnsignedShort [] v.TH ++ Short [] v.TOffsetX ++ Short [] v.TOffsetY ++
    UnsignedByte [] v.R ++ UnsignedByte [] v.G ++ UnsignedByte [] v.B ++
    UnsignedByte [] v.BlockLight ++ UnsignedByte [] v.SkyLight

/-- The records tile the bytes from `start` to `stop`: each record begins
where the one before it ends, and each count is a positive multiple of the
size of a vertex record. -/
def Tiles : Int → List ObjectInfo → Int → Prop
  | start, [], stop => start = stop
  | start, a :: l, stop =>
    a.Offset = start ∧ 0 < a.Count ∧ (23 : Int) ∣ a.Count ∧ Tiles (start + a.Count) l stop

/-- A coordinate that the snapshot of `build` holds: the snapshot is taken
with the given origin and size on every axis (lines 40-45 of `build`). -/
def inWindow (origin size v : Int) : Prop :=
  origin ≤ v ∧ v < origin + size

instance (origin size v : Int) : Decidable (inWindow origin size v) := by
  unfold inWindow; infer_instance

/-- The position lies in the snapshot made relative by `build`: origin `-2`
and size `20` on each axis. -/
def inSnapshot (p : position) : Prop :=
  inWindow (-2) 20 p.X ∧ inWindow (-2) 20 p.Y ∧ inWindow (-2) 20 p.Z

instance (p : position) : Decidable (inSnapshot p) := by
  unfold inSnapshot; infer_instance

/-- A block whose only model variant is nil. -/
def nilVariantBlock : Block :=
  { isAir := false, IsTranslucent := true, ShouldCullAgainst := false, isLiquid := false,
    Models := [none] }

/-- A section of air with one block without model variant at `(5, 0, 3)`. -/
def holeSection : blocksSnapshot :=
  ⟨fun x y z => if x = 5 ∧ y = 0 ∧ z = 3 then unmodeledBlock else airBlock⟩

/-! ## The flood fill with a log of its snapshot queries -/

/-- The Go function `floodFill` once more, with a log that the Go code does
not keep: the position is appended to the log where line 176 inserts it into
the visited map, right before line 180 queries the snapshot there.  These are
the only insertion and the only snapshot query of `floodFill`. -/
def floodFillLog (bs : blocksSnapshot) :
    Nat → Finset position × List position → Int → Int → Int →
      Option ((Finset position × List position) × Nat)
  | 0, _, _, _, _ => none
  | fuel + 1, (visited, log), x, y, z =>
    let pos : position := ⟨x, y, z⟩
    if pos ∈ visited ∨ x < 0 ∨ x > 15 ∨ y < 0 ∨ y > 15 ∨ z < 0 ∨ z > 15 then
      some ((visited, log), 0)
    else
      let visited := insert pos visited
      let log := log ++ [pos]
      if (bs.block x y z).ShouldCullAgainst then
        some ((visited, log), 0)
      else
        Direction.Values.foldlM
          (fun (st : (Finset position × List position) × Nat) d =>
            match floodFillLog bs fuel st.1 (x + d.Offset.1) (y + d.Offset.2.1)
                (z + d.Offset.2.2) with
            | none => none
            | some (vl, t) => some (vl, st.2 ||| t))
          ((visited, log), touchedFaces x y z)

/-- The body of the innermost loop of `buildCullBits` with the log. -/
def cullStepLog (bs : blocksSnapshot) (fuel : Nat)
    (st : (Finset position × List position) × Nat) (x y z : Int) :
    Option ((Finset position × List position) × Nat) :=
  if (⟨x, y, z⟩ : position) ∈ st.1.1 then some st
  else
    match floodFillLog bs fuel st.1 x y z with
    | none => none
    | some (vl, touched) =>
      if touched = 0 then some (vl, st.2)
      else some (vl, markTouched touched st.2)

/-- The three loops of `buildCullBits` with the log. -/
def cullLoopLog (bs : blocksSnapshot) (fuel : Nat)
    (st : (Finset position × List position) × Nat) :
    Option ((Finset position × List position) × Nat) :=
  (List.range 16).foldlM (fun st (y : Nat) =>
    (List.range 16).foldlM (fun st (z : Nat) =>
      (List.range 16).foldlM (fun st (x : Nat) =>
        cullStepLog bs fuel st (x : Int) (y : Int) (z : Int)) st) st) st

/-- Forgetting the log. -/
def eraseLog (r : (Finset position × List position) × Nat) : Finset position × Nat :=
  (r.1.1, r.2)

/-- The log lists the visited positions, each once, and all of them lie in
the section. -/
def LogInv (vl : Finset position × List position) : Prop :=
  vl.2.Nodup ∧ (∀ p, p ∈ vl.2 ↔ p ∈ vl.1) ∧ ∀ p ∈ vl.2, inSection p

/-! ## Entity metadata (`protocol/metadata.go`) -/

/-- The dynamic type and value of an entry of a `Metadata` map.  A value of
fixed width is held as its bit pattern (two's complement for the integers,
IEEE 754 for `float32`), which is what `binary.Write` writes and what
`binary.Read` reads back; a Go string is its sequence of bytes.  `int32Slice`
and `float32Slice` are the slice types `[]int32` and `[]float32` of the doc
comment of `Metadata`, `int32x3` and `float32x3` the array types `[3]int32`
and `[3]float32`, and `other` stands for every other dynamic type. -/
inductive MetaValue (Item : Type) where
  | int8 (v : Fin 256)
  | int16 (v : Fin 65536)
  | int32 (v : Fin 4294967296)
  | float32 (v : Fin 4294967296)
  | string (s : List Nat)
  | itemStack (i : Item)
  | int32x3 (a b c : Fin 4294967296)
  | float32x3 (a b c : Fin 4294967296)
  | int32Slice (l : List (Fin 4294967296))
  | float32Slice (l : List (Fin 4294967296))
  | other

/-- The errors of `readMetadata` and `writeMetadata`: the error
`invalid metadata type`, the end of the input, and an error of one of the
helpers of package `protocol`. -/
inductive MetaError where
  | invalidType
  | eof
  | helper
  deriving DecidableEq, Repr

/-- The helpers of package `protocol` that `metadata.go` calls and that are
not in the sources at hand, taken as parameters: `WriteString`, `ReadString`
and the methods `Serialize` and `Deserialize` of `ItemStack`.  A writer gives
the bytes it writes, or `none` for an error; a reader gives the value it
returns, its error and the input that is left. -/
structure Wire where
  ItemStack : Type
  WriteString : List Nat → Option (List Nat)
  ReadString : List Nat → List Nat × Option MetaError × List Nat
  Serialize : ItemStack → Option (List Nat)
  Deserialize : List Nat → ItemStack × Option MetaError × List Nat

/-- A `Metadata` map, `map[int]interface{}`. -/
def Metadata (W : Wire) : Type := Int → Option (MetaValue W.ItemStack)

/-- The empty map, `make(Metadata)`. -/
def Metadata.empty (W : Wire) : Metadata W := fun _ => none

/-- The assignment `m[index] = val`. -/
def Metadata.set {W : Wire} (m : Metadata W) (index : Int) (val : MetaValue W.ItemStack) :
    Metadata W :=
  fun k => if k = index then some val else m k

/-- The type switch of `writeMetadata`: the code `t` of the dynamic type, or
`none` in the default case. -/
def metaType {Item : Type} : MetaValue Item → Option Nat
  | MetaValue.int8 _ => some 0
  | MetaValue.int16 _ => some 1
  | MetaValue.int32 _ => some 2
  | MetaValue.float32 _ => some 3
  | MetaValue.string _ => some 4
  | MetaValue.itemStack _ => some 5
  | MetaValue.int32x3 _ _ _ => some 6
  | MetaValue.float32x3 _ _ _ => some 7
  | MetaValue.int32Slice _ => none
  | MetaValue.float32Slice _ => none
  | MetaValue.other => none

/-- The two bytes of a 16-bit pattern in big-endian order. -/
def be16 (v : Nat) : List Nat := [v / 256 % 256, v % 256]

/-- The four bytes of a 32-bit pattern in big-endian order. -/
def be32 (v : Nat) : List Nat :=
  [v / 16777216 % 256, v / 65536 % 256, v / 256 % 256, v % 256]

/-- The byte that `writeMetadata` writes before a value,
`byte(index)|(byte(t)<<5)`. -/
def headerByte (index : Int) (t : Nat) : Nat :=
  (index % 256).toNat ||| ((t <<< 5) % 256)

/-- The bytes of the value of an entry: `binary.Write` in big-endian order,
`WriteString` for a string and `Serialize` for an `ItemStack`; `none` is an
error of the helper.  The types of the default case write nothing. -/
def writeValue (W : Wire) : MetaValue W.ItemStack → Option (List Nat)
  | MetaValue.int8 v => some [v.val]
  | MetaValue.int16 v => some (be16 v.val)
  | MetaValue.int32 v => some (be32 v.val)
  | MetaValue.float32 v => some (be32 v.val)
  | MetaValue.string s => W.WriteString s
  | MetaValue.itemStack i => W.Serialize i
  | MetaValue.int32x3 a b c => some (be32 a.val ++ be32 b.val ++ be32 c.val)
  | MetaValue.float32x3 a b c => some (be32 a.val ++ be32 b.val ++ be32 c.val)
  | MetaValue.int32Slice _ => some []
  | MetaValue.float32Slice _ => some []
  | MetaValue.other => some []

/-- The loop of `writeMetadata` over the entries of the map, in the order in
which the `range` statement yields them, and the final `WriteByte(w, 0x7F)`.
The writer is a buffer that does not fail: the result is the bytes written
and the error returned. -/
def writeMetadataLoop (W : Wire) :
    List (Int × MetaValue W.ItemStack) → List Nat → List Nat × Option MetaError
  | [], w => (w ++ [127], none)
  | (index, v) :: entries, w =>
    match metaType v with
    | none => (w, some MetaError.invalidType)
    | some t =>
      let w := w ++ [headerByte index t]
      match writeValue W v with
      | none => (w, some MetaError.helper)
      | some bytes => writeMetadataLoop W entries (w ++ bytes)

/-- The Go function `writeMetadata`, on the entries of the map in the order
of iteration. -/
def writeMetadata (W : Wire) (entries : List (Int × MetaValue W.ItemStack)) :
    List Nat × Option MetaError :=
  writeMetadataLoop W entries []

/-- A 32-bit pattern from four bytes in big-endian order. -/
def of32 (a b c d : Nat) : Fin 4294967296 :=
  Fin.ofNat (((a % 256) * 256 + b % 256) * 65536 + (c % 256) * 256 + d % 256)

/-- The switch of `readMetadata`: the value assigned to `m[index]`, if any,
the error and the input that is left.  A `binary.Read` that meets the end of
the input leaves the zero value and gives an error. -/
def readValue (W : Wire) (t : Nat) (inp : List Nat) :
    Option (MetaValue W.ItemStack) × Option MetaError × List Nat :=
  match t with
  | 0 =>
    match inp with
    | a :: rest => (some (MetaValue.int8 (Fin.ofNat a)), none, rest)
    | _ => (some (MetaValue.int8 0), some MetaError.eof, [])
  | 1 =>
    match inp with
    | a :: b :: rest =>
      (some (MetaValue.int16 (Fin.ofNat ((a % 256) * 256 + b % 256))), none, rest)
    | _ => (some (MetaValue.int16 0), some MetaError.eof, [])
  | 2 =>
    match inp with
    | a :: b :: c :: d :: rest => (some (MetaValue.int32 (of32 a b c d)), none, rest)
    | _ => (some (MetaValue.int32 0), some MetaError.eof, [])
  | 3 =>
    match inp with
    | a :: b :: c :: d :: rest => (some (MetaValue.float32 (of32 a b c d)), none, rest)
    | _ => (some (MetaValue.float32 0), some MetaError.eof, [])
  | 4 =>
    let r := W.ReadString inp
    (some (MetaValue.string r.1), r.2.1, r.2.2)
  | 5 =>
    let r := W.Deserialize inp
    (some (MetaValue.itemStack r.1), r.2.1, r.2.2)
  | 6 =>
    match inp with
    | a :: b :: c :: d :: a' :: b' :: c' :: d' :: a'' :: b'' :: c'' :: d'' :: rest =>
      (some (MetaValue.int32x3 (of32 a b c d) (of32 a' b' c' d') (of32 a'' b'' c'' d'')),
        none, rest)
    | _ => (some (MetaValue.int32x3 0 0 0), some MetaError.eof, [])
  | 7 =>
    match inp with
    | a :: b :: c :: d :: a' :: b' :: c' :: d' :: a'' :: b'' :: c'' :: d'' :: rest =>
      (some (MetaValue.float32x3 (of32 a b c d) (of32 a' b' c' d') (of32 a'' b'' c'' d'')),
        none, rest)
    | _ => (some (MetaValue.float32x3 0 0 0), some MetaError.eof, [])
  | _ => (none, some MetaError.invalidType, inp)

/-- The loop of `readMetadata`: the map read so far, the error and the input
that is left; `none` when the fuel runs out.  Every round reads at least one
byte. -/
def readMetadataLoop (W : Wire) :
    Nat → Metadata W → List Nat → Option (Metadata W × Option MetaError × List Nat)
  | 0, _, _ => none
  | fuel + 1, m, inp =>
    match inp with
    | [] => some (m, some MetaError.eof, [])
    | b :: inp =>
      if b = 127 then some (m, none, inp)
      else
        let index : Int := ((b &&& 31 : Nat) : Int)
        let t := b >>> 5
        match readValue W t inp with
        | (val, some err, rest) =>
          some (match val with
            | some v => m.set index v
            | none => m, some err, rest)
        | (val, none, rest) =>
          readMetadataLoop W fuel
            (match val with
              | some v => m.set index v
              | none => m) rest

/-- The Go function `readMetadata` on the bytes that the reader holds. -/
def readMetadata (W : Wire) (inp : List Nat) :
    Option (Metadata W × Option MetaError × List Nat) :=
  readMetadataLoop W (inp.length + 1) (Metadata.empty W) inp

/-- Helpers for the examples: a string is written as its length and its
bytes, an `ItemStack` is one byte. -/
def sampleWire : Wire :=
  { ItemStack := Nat
    WriteString := fun s => some (s.length :: s)
    ReadString := fun inp =>
      match inp with
      | [] => ([], some MetaError.eof, [])
      | n :: rest =>
        if n ≤ rest.length then (rest.take n, none, rest.drop n)
        else ([], some MetaError.eof, [])
    Serialize := fun i => some [i]
    Deserialize := fun inp =>
      match inp with
      | [] => (0, some MetaError.eof, [])
      | i :: rest => (i, none, rest) }

/-- The helpers round trip: what `WriteString` writes, `ReadString` reads
back without error, leaving what follows, and likewise for an `ItemStack`. -/
def Wire.RoundTrips (W : Wire) : Prop :=
  (∀ s, ∃ bytes, W.WriteString s = some bytes ∧
    ∀ rest, W.ReadString (bytes ++ rest) = (s, none, rest)) ∧
  (∀ i, ∃ bytes, W.Serialize i = some bytes ∧
    ∀ rest, W.Deserialize (bytes ++ rest) = (i, none, rest))

/-! ## NBT (`encoding/nbt/nbt.go`) -/

/-- A value that `readType` returns: the payload of a tag.  Fixed-width
numbers are decoded from big-endian bytes; `long`, `float` and `double` keep
their bit pattern. -/
inductive NbtValue where
  | byte (v : Nat)
  | short (v : Int)
  | int (v : Int)
  | long (bits : Nat)
  | float (bits : Nat)
  | double (bits : Nat)
  | byteArray (v : List Nat)
  | string (s : List Nat)
  | list (elemType : Nat) (elements : List NbtValue)
  | compound (items : List (List Nat × NbtValue))
  | intArray (v : List Int)

/-- How a read ends: with a value and the input that is left, with a non-nil
error, or with a panic of the Go runtime. -/
inductive NbtOut (α : Type) where
  | ok (v : α) (rest : List Nat)
  | error
  | panic

/-- The signed value of two big-endian bytes, an `int16`. -/
def int16Of (a b : Nat) : Int :=
  if (a % 256) * 256 + b % 256 < 32768 then (((a % 256) * 256 + b % 256 : Nat) : Int)
  else (((a % 256) * 256 + b % 256 : Nat) : Int) - 65536

/-- The unsigned value of four big-endian bytes. -/
def bits32 (a b c d : Nat) : Nat :=
  (((a % 256) * 256 + b % 256) * 256 + c % 256) * 256 + d % 256

/-- The signed value of four big-endian bytes, an `int32`. -/
def int32Of (a b c d : Nat) : Int :=
  if bits32 a b c d < 2147483648 then (bits32 a b c d : Int)
  else (bits32 a b c d : Int) - 4294967296

/-- The function `readByte` of `nbt.go`. -/
def readByte (inp : List Nat) : NbtOut Nat :=
  match inp with
  | [] => NbtOut.error
  | b :: rest => NbtOut.ok b rest

/-- The call `binary.Read(r, binary.BigEndian, &v)` for an `int16`. -/
def readInt16 (inp : List Nat) : NbtOut Int :=
  match inp with
  | a :: b :: rest => NbtOut.ok (int16Of a b) rest
  | _ => NbtOut.error

/-- The call `binary.Read(r, binary.BigEndian, &v)` for an `int32`. -/
def readInt32 (inp : List Nat) : NbtOut Int :=
  match inp with
  | a :: b :: c :: d :: rest => NbtOut.ok (int32Of a b c d) rest
  | _ => NbtOut.error

/-- The call `io.ReadFull(r, buf)` for a buffer of `n` bytes. -/
def readFull (n : Nat) (inp : List Nat) : NbtOut (List Nat) :=
  if inp.length < n then NbtOut.error else NbtOut.ok (inp.take n) (inp.drop n)

/-- The function `readString` of `nbt.go`.  When the length cannot be read the
error is dropped (`return "", nil`) and the reader is at its end; a negative
length makes `make` panic. -/
def readString (inp : List Nat) : NbtOut (List Nat) :=
  match readInt16 inp with
  | NbtOut.error => NbtOut.ok [] []
  | NbtOut.panic => NbtOut.panic
  | NbtOut.ok l rest =>
    if l < 0 then NbtOut.panic
    else readFull l.toNat rest

/-- The values of four bytes each that `binary.Read` fills a `[]int32`
with. -/
def int32sOf : List Nat → List Int
  | a :: b :: c :: d :: rest => int32Of a b c d :: int32sOf rest
  | _ => []

/-- The loop of `List.deserialize`: `n` elements read with `f`. -/
def readElems (f : List Nat → Option (NbtOut NbtValue)) :
    Nat → List NbtValue → List Nat → Option (NbtOut (List NbtValue))
  | 0, acc, inp => some (NbtOut.ok acc inp)
  | n + 1, acc, inp =>
    match f inp with
    | none => none
    | some (NbtOut.ok v rest) => readElems f n (acc ++ [v]) rest
    | some NbtOut.error => some NbtOut.error
    | some NbtOut.panic => some NbtOut.panic

mutual

/-- The function `readType` of `nbt.go`, with `List.deserialize` in case 9.
The fuel bounds the depth of the recursion; `none` means it ran out. -/
def readType : Nat → Nat → List Nat → Option (NbtOut NbtValue)
  | 0, _, _ => none
  | fuel + 1, id, inp =>
    match id with
    | 1 =>
      match readByte inp with
      | NbtOut.ok b rest => some (NbtOut.ok (NbtValue.byte b) rest)
      | NbtOut.error => some NbtOut.error
      | NbtOut.panic => some NbtOut.panic
    | 2 =>
      match readInt16 inp with
      | NbtOut.ok v rest => some (NbtOut.ok (NbtValue.short v) rest)
      | NbtOut.error => some NbtOut.error
      | NbtOut.panic => some NbtOut.panic
    | 3 =>
      match readInt32 inp with
      | NbtOut.ok v rest => some (NbtOut.ok (NbtValue.int v) rest)
      | NbtOut.error => some NbtOut.error
      | NbtOut.panic => some NbtOut.panic
    | 4 =>
      match inp with
      | a :: b :: c :: d :: e :: f :: g :: h :: rest =>
        some (NbtOut.ok (NbtValue.long (bits32 a b c d * 4294967296 + bits32 e f g h)) rest)
      | _ => some NbtOut.error
    | 5 =>
      match inp with
      | a :: b :: c :: d :: rest => some (NbtOut.ok (NbtValue.float (bits32 a b c d)) rest)
      | _ => some NbtOut.error
    | 6 =>
      match inp with
      | a :: b :: c :: d :: e :: f :: g :: h :: rest =>
        some (NbtOut.ok (NbtValue.double (bits32 a b c d * 4294967296 + bits32 e f g h)) rest)
      | _ => some NbtOut.error
    | 7 =>
      match readInt32 inp with
      | NbtOut.error => some NbtOut.error
      | NbtOut.panic => some NbtOut.panic
      | NbtOut.ok l rest =>
        if l < 0 then some NbtOut.panic
        else
          match readFull l.toNat rest with
          | NbtOut.ok v rest => some (NbtOut.ok (NbtValue.byteArray v) rest)
          | NbtOut.error => some NbtOut.error
          | NbtOut.panic => some NbtOut.panic
    | 8 =>
      match readString inp with
      | NbtOut.ok s rest => some (NbtOut.ok (NbtValue.string s) rest)
      | NbtOut.error => some NbtOut.error
      | NbtOut.panic => some NbtOut.panic
    | 9 =>
      match readByte inp with
      | NbtOut.error => some NbtOut.error
      | NbtOut.panic => some NbtOut.panic
      | NbtOut.ok t rest =>
        match readInt32 rest with
        | NbtOut.error => some NbtOut.error
        | NbtOut.panic => some NbtOut.panic
        | NbtOut.ok le rest =>
          if le < 0 then some NbtOut.panic
          else
            match readElems (readType fuel t) le.toNat [] rest with
            | none => none
            | some (NbtOut.ok elements rest) => some (NbtOut.ok (NbtValue.list t elements) rest)
            | some NbtOut.error => some NbtOut.error
            | some NbtOut.panic => some NbtOut.panic
    | 10 =>
      match deserializeLoop fuel [] inp with
      | none => none
      | some (NbtOut.ok items rest) => some (NbtOut.ok (NbtValue.compound items) rest)
      | some NbtOut.error => some NbtOut.error
      | some NbtOut.panic => some NbtOut.panic
    | 11 =>
      match readInt32 inp with
      | NbtOut.error => some NbtOut.error
      | NbtOut.panic => some NbtOut.panic
      | NbtOut.ok l rest =>
        if l < 0 then some NbtOut.panic
        else
          match readFull (4 * l.toNat) rest with
          | NbtOut.ok v rest => some (NbtOut.ok (NbtValue.intArray (int32sOf v)) rest)
          | NbtOut.error => some NbtOut.error
          | NbtOut.panic => some NbtOut.panic
    | _ => some NbtOut.error

/-- The loop of `Compound.deserialize`; `items` are the assignments to
`c.items` made so far, in order. -/
def deserializeLoop : Nat → List (List Nat × NbtValue) → List Nat →
    Option (NbtOut (List (List Nat × NbtValue)))
  | 0, _, _ => none
  | fuel + 1, items, inp =>
    match readByte inp with
    | NbtOut.error => some NbtOut.error
    | NbtOut.panic => some NbtOut.panic
    | NbtOut.ok id rest =>
      if id = 0 then some (NbtOut.ok items rest)
      else
        match readString rest with
        | NbtOut.error => some NbtOut.error
        | NbtOut.panic => some NbtOut.panic
        | NbtOut.ok name rest =>
          match readType fuel id rest with
          | none => none
          | some (NbtOut.ok v rest) => deserializeLoop fuel (items ++ [(name, v)]) rest
          | some NbtOut.error => some NbtOut.error
          | some NbtOut.panic => some NbtOut.panic

end

/-- The Go struct `Compound`: its name and the assignments to `items`. -/
structure Compound where
  Name : List Nat
  items : List (List Nat × NbtValue)

/-- The method `Compound.Deserialize` on a compound made by `NewCompound`,
with the fuel that an input of this length needs. -/
def Deserialize (inp : List Nat) : Option (NbtOut Compound) :=
  match readString inp with
  | NbtOut.error => some NbtOut.error
  | NbtOut.panic => some NbtOut.panic
  | NbtOut.ok name rest =>
    match deserializeLoop (2 * rest.length + 2) [] rest with
    | none => none
    | some (NbtOut.ok items rest) => some (NbtOut.ok { Name := name, items := items } rest)
    | some NbtOut.error => some NbtOut.error
    | some NbtOut.panic => some NbtOut.panic

/-- A read that ended well left a part of its input, and a read of bytes
below 128, in which no length field is negative, did not panic. -/
def NbtOut.Sound {α : Type} (inp : List Nat) (out : NbtOut α) : Prop :=
  (∀ v rest, out = NbtOut.ok v rest → ∃ pre, inp = pre ++ rest) ∧
    ((∀ b ∈ inp, b < 128) → out ≠ NbtOut.panic)

/-- A compound that ended well read its End tag last. -/
def NbtOut.Ended {α : Type} (inp : List Nat) (out : NbtOut α) : Prop :=
  (∀ v rest, out = NbtOut.ok v rest → ∃ pre, inp = pre ++ 0 :: rest) ∧
    ((∀ b ∈ inp, b < 128) → out ≠ NbtOut.panic)

/-! ## NBT with a log of what the reader meets -/

/-- What the log of a read records: a length field that was read and is about
to be given to `make`, and a read that found the input exhausted. -/
inductive NbtEvent where
  | length (l : Int)
  | exhausted
  deriving DecidableEq

/-- The log `pre` put in front of the log of a read. -/
def withLog {α : Type} (pre : List NbtEvent) :
    Option (NbtOut α × List NbtEvent) → Option (NbtOut α × List NbtEvent)
  | none => none
  | some (out, log) => some (out, pre ++ log)

/-- The log of `io.ReadFull`: it fails only when the input is exhausted. -/
def readFullLog (n : Nat) (inp : List Nat) : NbtOut (List Nat) × List NbtEvent :=
  if inp.length < n then (NbtOut.error, [NbtEvent.exhausted])
  else (NbtOut.ok (inp.take n) (inp.drop n), [])

/-- The function `readString` of `nbt.go` with its log. -/
def readStringLog (inp : List Nat) : NbtOut (List Nat) × List NbtEvent :=
  match readInt16 inp with
  | NbtOut.error => (NbtOut.ok [] [], [NbtEvent.exhausted])
  | NbtOut.panic => (NbtOut.panic, [])
  | NbtOut.ok l rest =>
    if l < 0 then (NbtOut.panic, [NbtEvent.length l])
    else ((readFullLog l.toNat rest).1, NbtEvent.length l :: (readFullLog l.toNat rest).2)

/-- The loop of `List.deserialize` with its log. -/
def readElemsLog (f : List Nat → Option (NbtOut NbtValue × List NbtEvent)) :
    Nat → List NbtValue → List Nat → Option (NbtOut (List NbtValue) × List NbtEvent)
  | 0, acc, inp => some (NbtOut.ok acc inp, [])
  | n + 1, acc, inp =>
    match f inp with
    | none => none
    | some (NbtOut.ok v rest, log) => withLog log (readElemsLog f n (acc ++ [v]) rest)
    | some (NbtOut.error, log) => some (NbtOut.error, log)
    | some (NbtOut.panic, log) => some (NbtOut.panic, log)

mutual

/-- The function `readType` of `nbt.go` with its log: every length field read
is logged before `make` is called with it, and every read that finds the
input exhausted is logged.  An invalid type id logs nothing. -/
def readTypeLog : Nat → Nat → List Nat → Option (NbtOut NbtValue × List NbtEvent)
  | 0, _, _ => none
  | fuel + 1, id, inp =>
    match id with
    | 1 =>
      match readByte inp with
      | NbtOut.ok b rest => some (NbtOut.ok (NbtValue.byte b) rest, [])
      | NbtOut.error => some (NbtOut.error, [NbtEvent.exhausted])
      | NbtOut.panic => some (NbtOut.panic, [])
    | 2 =>
      match readInt16 inp with
      | NbtOut.ok v rest => some (NbtOut.ok (NbtValue.short v) rest, [])
      | NbtOut.error => some (NbtOut.error, [NbtEvent.exhausted])
      | NbtOut.panic => some (NbtOut.panic, [])
    | 3 =>
      match readInt32 inp with
      | NbtOut.ok v rest => some (NbtOut.ok (NbtValue.int v) rest, [])
      | NbtOut.error => some (NbtOut.error, [NbtEvent.exhausted])
      | NbtOut.panic => some (NbtOut.panic, [])
    | 4 =>
      match inp with
      | a :: b :: c :: d :: e :: f :: g :: h :: rest =>
        some (NbtOut.ok (NbtValue.long (bits32 a b c d * 4294967296 + bits32 e f g h)) rest, [])
      | _ => some (NbtOut.error, [NbtEvent.exhausted])
    | 5 =>
      match inp with
      | a :: b :: c :: d :: rest => some (NbtOut.ok (NbtValue.float (bits32 a b c d)) rest, [])
      | _ => some (NbtOut.error, [NbtEvent.exhausted])
    | 6 =>
      match inp with
      | a :: b :: c :: d :: e :: f :: g :: h :: rest =>
        some (NbtOut.ok (NbtValue.double (bits32 a b c d * 4294967296 + bits32 e f g h)) rest,
          [])
      | _ => some (NbtOut.error, [NbtEvent.exhausted])
    | 7 =>
      match readInt32 inp with
      | NbtOut.error => some (NbtOut.error, [NbtEvent.exhausted])
      | NbtOut.panic => some (NbtOut.panic, [])
      | NbtOut.ok l rest =>
        if l < 0 then some (NbtOut.panic, [NbtEvent.length l])
        else
          match readFullLog l.toNat rest with
          | (NbtOut.ok v rest, log) =>
            some (NbtOut.ok (NbtValue.byteArray v) rest, NbtEvent.length l :: log)
          | (NbtOut.error, log) => some (NbtOut.error, NbtEvent.length l :: log)
          | (NbtOut.panic, log) => some (NbtOut.panic, NbtEvent.length l :: log)
    | 8 =>
      match readStringLog inp with
      | (NbtOut.ok s rest, log) => some (NbtOut.ok (NbtValue.string s) rest, log)
      | (NbtOut.error, log) => some (NbtOut.error, log)
      | (NbtOut.panic, log) => some (NbtOut.panic, log)
    | 9 =>
      match readByte inp with
      | NbtOut.error => some (NbtOut.error, [NbtEvent.exhausted])
      | NbtOut.panic => some (NbtOut.panic, [])
      | NbtOut.ok t rest =>
        match readInt32 rest with
        | NbtOut.error => some (NbtOut.error, [NbtEvent.exhausted])
        | NbtOut.panic => some (NbtOut.panic, [])
        | NbtOut.ok le rest =>
          if le < 0 then some (NbtOut.panic, [NbtEvent.length le])
          else
            match readElemsLog (readTypeLog fuel t) le.toNat [] rest with
            | none => none
            | some (NbtOut.ok elements rest, log) =>
              some (NbtOut.ok (NbtValue.list t elements) rest, NbtEvent.length le :: log)
            | some (NbtOut.error, log) => some (NbtOut.error, NbtEvent.length le :: log)
            | some (NbtOut.panic, log) => some (NbtOut.panic, NbtEvent.length le :: log)
    | 10 =>
      match deserializeLoopLog fuel [] inp with
      | none => none
      | some (NbtOut.ok items rest, log) => some (NbtOut.ok (NbtValue.compound items) rest, log)
      | some (NbtOut.error, log) => some (NbtOut.error, log)
      | some (NbtOut.panic, log) => some (NbtOut.panic, log)
    | 11 =>
      match readInt32 inp with
      | NbtOut.error => some (NbtOut.error, [NbtEvent.exhausted])
      | NbtOut.panic => some (NbtOut.panic, [])
      | NbtOut.ok l rest =>
        if l < 0 then some (NbtOut.panic, [NbtEvent.length l])
        else
          match readFullLog (4 * l.toNat) rest with
          | (NbtOut.ok v rest, log) =>
            some (NbtOut.ok (NbtValue.intArray (int32sOf v)) rest, NbtEvent.length l :: log)
          | (NbtOut.error, log) => some (NbtOut.error, NbtEvent.length l :: log)
          | (NbtOut.panic, log) => some (NbtOut.panic, NbtEvent.length l :: log)
    | _ => some (NbtOut.error, [])

/-- The loop of `Compound.deserialize` with its log. -/
def deserializeLoopLog : Nat → List (List Nat × NbtValue) → List Nat →
    Option (NbtOut (List (List Nat × NbtValue)) × List NbtEvent)
  | 0, _, _ => none
  | fuel + 1, items, inp =>
    match readByte inp with
    | NbtOut.error => some (NbtOut.error, [NbtEvent.exhausted])
    | NbtOut.panic => some (NbtOut.panic, [])
    | NbtOut.ok id rest =>
      if id = 0 then some (NbtOut.ok items rest, [])
      else
        match readStringLog rest with
        | (NbtOut.error, log) => some (NbtOut.error, log)
        | (NbtOut.panic, log) => some (NbtOut.panic, log)
        | (NbtOut.ok name rest, log) =>
          match readTypeLog fuel id rest with
          | none => none
          | some (NbtOut.ok v rest, log2) =>
            withLog (log ++ log2) (deserializeLoopLog fuel (items ++ [(name, v)]) rest)
          | some (NbtOut.error, log2) => some (NbtOut.error, log ++ log2)
          | some (NbtOut.panic, log2) => some (NbtOut.panic, log ++ log2)

end

/-- The method `Compound.Deserialize` with its log. -/
def DeserializeLog (inp : List Nat) : Option (NbtOut Compound × List NbtEvent) :=
  match readStringLog inp with
  | (NbtOut.error, log) => some (NbtOut.error, log)
  | (NbtOut.panic, log) => some (NbtOut.panic, log)
  | (NbtOut.ok name rest, log) =>
    match deserializeLoopLog (2 * rest.length + 2) [] rest with
    | none => none
    | some (NbtOut.ok items rest, log2) =>
      some (NbtOut.ok { Name := name, items := items } rest, log ++ log2)
    | some (NbtOut.error, log2) => some (NbtOut.error, log ++ log2)
    | some (NbtOut.panic, log2) => some (NbtOut.panic, log ++ log2)

/-- A length field below zero was read. -/
def NegativeLength (log : List NbtEvent) : Prop :=
  ∃ l : Int, NbtEvent.length l ∈ log ∧ l < 0

/-- What the log says about a read: it panicked exactly when a length field it
read is negative, and once the input is exhausted it ends in an error or has
nothing left to read. -/
def LogOK {α : Type} (inp : List Nat) (out : NbtOut α) (log : List NbtEvent) : Prop :=
  (out = NbtOut.panic ↔ NegativeLength log) ∧
    (NbtEvent.exhausted ∈ log ∨ inp = [] → out = NbtOut.error ∨ ∃ v, out = NbtOut.ok v [])

/-- What the log says about the read of a compound: it panicked exactly when a
length field it read is negative, and once the input is exhausted it ends in
an error, since the End tag cannot be read any more. -/
def LoopOK {α : Type} (inp : List Nat) (out : NbtOut α) (log : List NbtEvent) : Prop :=
  (out = NbtOut.panic ↔ NegativeLength log) ∧
    (NbtEvent.exhausted ∈ log ∨ inp = [] → out = NbtOut.error)

/-- The outcome of a read when `suf` follows the input and the read did not
reach it. -/
def NbtOut.extend {α : Type} (suf : List Nat) : NbtOut α → NbtOut α
  | NbtOut.ok v rest => NbtOut.ok v (rest ++ suf)
  | NbtOut.error => NbtOut.error
  | NbtOut.panic => NbtOut.panic

/-! ## Two builds side by side -/

/-- Two runs that end alike: both panic, or both return and what they return
is related by `R`. -/
def SameOutcome {α : Type} (R : α → α → Prop) : Option α → Option α → Prop
  | none, none => True
  | some a, some b => R a b
  | _, _ => False

/-- Two Translucency Records of builds at chunk and section coordinates
`X Y Z` and `X2 Y2 Z2` that cover the same bytes: the same `Offset` and
`Count`, and the same coordinate on every axis on which the two builds have
the same coordinate. -/
def ObjectInfo.Same (X Y Z X2 Y2 Z2 : Int) (a b : ObjectInfo) : Prop :=
  a.Offset = b.Offset ∧ a.Count = b.Count ∧
    (X = X2 → a.X = b.X) ∧ (Y = Y2 → a.Y = b.Y) ∧ (Z = Z2 → a.Z = b.Z)

/-- Two states of the loop of `build` that differ at most in the coordinates
of their records. -/
def buildState.Same {E : Env} (X Y Z X2 Y2 Z2 : Int) (s t : buildState E) : Prop :=
  s.bO = t.bO ∧ s.bT = t.bT ∧ s.r = t.r ∧
    List.Forall₂ (ObjectInfo.Same X Y Z X2 Y2 Z2) s.tInfo t.tInfo ∧
    s.draws = t.draws ∧ s.trace = t.trace ∧ s.picks = t.picks

/-- Two results of `build` with the same bytes in the opaque stream, the same
bytes in the translucent stream, the same visibility bitmask and records that
cover the same bytes. -/
def buildResult.Same (X Y Z X2 Y2 Z2 : Int) (a b : buildResult) : Prop :=
  a.bO = b.bO ∧ a.bT = b.bT ∧ a.cullBits = b.cullBits ∧
    List.Forall₂ (ObjectInfo.Same X Y Z X2 Y2 Z2) a.tInfo b.tInfo

/-! ## Generic lemmas -/

/-- Total correctness of a loop in the option monad: an invariant `I`, a
transitive progress relation `R` and a per-element postcondition `Q` that
progress preserves. -/
theorem foldlM_hoare {σ α : Type} (f : σ → α → Option σ) (I : σ → Prop)
    (R : σ → σ → Prop) (Q : α → σ → Prop)
    (hrefl : ∀ s, R s s) (htrans : ∀ a b c, R a b → R b c → R a c)
    (hQ : ∀ a s s', Q a s → R s s' → Q a s') (l : List α)
    (hstep : ∀ s a, a ∈ l → I s → ∃ s', f s a = some s' ∧ I s' ∧ R s s' ∧ Q a s') :
    ∀ s, I s → ∃ s', l.foldlM f s = some s' ∧ I s' ∧ R s s' ∧ ∀ a ∈ l, Q a s' := by
  induction l with
  | nil =>
    intro s hs
    exact ⟨s, rfl, hs, hrefl s, by simp⟩
  | cons a l ih =>
    intro s hs
    obtain ⟨s1, h1, hI1, hR1, hQ1⟩ := hstep s a (List.mem_cons_self a l) hs
    obtain ⟨s2, h2, hI2, hR2, hQ2⟩ :=
      ih (fun s b hb hI => hstep s b (List.mem_cons_of_mem a hb) hI) s1 hI1
    refine ⟨s2, ?_, hI2, htrans _ _ _ hR1 hR2, ?_⟩
    · simp [List.foldlM_cons, h1, h2]
    · intro b hb
      rcases List.mem_cons.mp hb with rfl | hb
      · exact hQ _ _ _ hQ1 hR2
      · exact hQ2 b hb

theorem direction_mem_Values (d : Direction) : d ∈ Direction.Values := by
  cases d <;> simp [Direction.Values]

theorem direction_toNat_lt (d : Direction) : d.toNat < 6 := by
  cases d <;> simp [Direction.toNat]

theorem direction_toNat_inj {a b : Direction} (h : a.toNat = b.toNat) : a = b := by
  cases a <;> cases b <;> simp [Direction.toNat] at h <;> rfl

theorem mem_sectionCells (p : position) : p ∈ sectionCells ↔ inSection p := by
  unfold sectionCells inSection
  simp only [Finset.mem_image, Finset.mem_product, Finset.mem_range, Prod.exists]
  constructor
  · rintro ⟨a, b, c, ⟨ha, hb, hc⟩, rfl⟩
    simp only
    omega
  · intro h
    refine ⟨p.X.toNat, p.Y.toNat, p.Z.toNat, ⟨by omega, by omega, by omega⟩, ?_⟩
    cases p
    simp only at h ⊢
    rw [Int.toNat_of_nonneg h.1, Int.toNat_of_nonneg h.2.2.1, Int.toNat_of_nonneg h.2.2.2.2.1]

theorem card_sectionCells_le : sectionCells.card ≤ 4096 := by
  unfold sectionCells
  refine le_trans Finset.card_image_le ?_
  simp [Finset.card_product]

theorem adjacent_move (p : position) (d : Direction) : adjacent p (p.move d) := by
  cases d <;> simp [adjacent, position.move, Direction.Offset]

theorem adjacent_iff_move (p q : position) : adjacent p q ↔ ∃ d, q = p.move d := by
  constructor
  · intro h
    unfold adjacent at h
    cases p with
    | mk px py pz =>
    cases q with
    | mk qx qy qz =>
    simp only at h
    have ex := Int.natAbs_eq (px - qx)
    have ey := Int.natAbs_eq (py - qy)
    have ez := Int.natAbs_eq (pz - qz)
    generalize (px - qx).natAbs = a at h ex
    generalize (py - qy).natAbs = b at h ey
    generalize (pz - qz).natAbs = c at h ez
    have habc : (a = 1 ∧ b = 0 ∧ c = 0) ∨ (a = 0 ∧ b = 1 ∧ c = 0) ∨
        (a = 0 ∧ b = 0 ∧ c = 1) := by omega
    rcases habc with ⟨rfl, rfl, rfl⟩ | ⟨rfl, rfl, rfl⟩ | ⟨rfl, rfl, rfl⟩
    · rcases ex with ex | ex
      · refine ⟨Direction.West, ?_⟩
        simp only [position.move, Direction.Offset, position.mk.injEq]
        omega
      · refine ⟨Direction.East, ?_⟩
        simp only [position.move, Direction.Offset, position.mk.injEq]
        omega
    · rcases ey with ey | ey
      · refine ⟨Direction.Down, ?_⟩
        simp only [position.move, Direction.Offset, position.mk.injEq]
        omega
      · refine ⟨Direction.Up, ?_⟩
        simp only [position.move, Direction.Offset, position.mk.injEq]
        omega
    · rcases ez with ez | ez
      · refine ⟨Direction.North, ?_⟩
        simp only [position.move, Direction.Offset, position.mk.injEq]
        omega
      · refine ⟨Direction.South, ?_⟩
        simp only [position.move, Direction.Offset, position.mk.injEq]
        omega
  · rintro ⟨d, rfl⟩
    exact adjacent_move p d

theorem adjacent_symm {p q : position} (h : adjacent p q) : adjacent q p := by
  unfold adjacent at *
  rw [← Int.natAbs_neg (q.X - p.X), ← Int.natAbs_neg (q.Y - p.Y), ← Int.natAbs_neg (q.Z - p.Z)]
  simpa using h

theorem linked_symm {bs : blocksSnapshot} {p q : position} (h : Linked bs p q) :
    Linked bs q p :=
  ⟨h.2.1, h.1, adjacent_symm h.2.2⟩

theorem conn_symm {bs : blocksSnapshot} {p q : position} (h : Conn bs p q) :
    Conn bs q p :=
  Relation.ReflTransGen.symmetric (fun _ _ hl => linked_symm hl) h

theorem conn_isOpen_right {bs : blocksSnapshot} {p q : position} (h : Conn bs p q)
    (hp : isOpen bs p) : isOpen bs q := by
  rcases Relation.ReflTransGen.cases_tail h with rfl | ⟨c, _, hc⟩
  · exact hp
  · exact hc.2.1

theorem conn_isOpen_left {bs : blocksSnapshot} {p q : position} (h : Conn bs p q)
    (hq : isOpen bs q) : isOpen bs p :=
  conn_isOpen_right (conn_symm h) hq

/-! ## Bit lemmas -/

theorem direction_exists_iff (P : Direction → Prop) :
    (∃ d, P d) ↔ P Direction.Up ∨ P Direction.Down ∨ P Direction.North ∨
      P Direction.South ∨ P Direction.West ∨ P Direction.East := by
  constructor
  · rintro ⟨d, hd⟩
    cases d <;> simp [hd]
  · rintro (h | h | h | h | h | h) <;> exact ⟨_, h⟩

theorem testBit_one_shiftLeft (k n : Nat) : (1 <<< k).testBit n = decide (k = n) := by
  rw [Nat.one_shiftLeft, Nat.testBit_two_pow]

theorem testBit_touchedFaces (x y z : Int) (n : Nat) :
    (touchedFaces x y z).testBit n = true ↔
      ∃ d : Direction, d.toNat = n ∧ onFace d ⟨x, y, z⟩ := by
  rw [direction_exists_iff]
  simp only [touchedFaces, onFace, Direction.toNat]
  split_ifs <;>
    simp only [Nat.testBit_lor, testBit_one_shiftLeft, Nat.zero_testBit, Bool.or_eq_true,
      decide_eq_true_eq, Bool.false_or, Nat.zero_or, Bool.false_eq_true, false_iff]
  all_goals omega

theorem testBit_setBit (bits : Nat) (a b : Direction) (n : Nat) :
    (setBit bits a b).testBit n = true ↔
      bits.testBit n = true ∨ n = a.toNat * 6 + b.toNat := by
  have ha := direction_toNat_lt a
  have hb := direction_toNat_lt b
  unfold setBit
  rw [Nat.testBit_lor, Nat.testBit_mod_two_pow, testBit_one_shiftLeft]
  simp only [Bool.or_eq_true, Bool.and_eq_true, decide_eq_true_eq]
  constructor
  · rintro (h | ⟨_, h⟩)
    · exact Or.inl h
    · exact Or.inr h.symm
  · rintro (h | h)
    · exact Or.inl h
    · exact Or.inr ⟨by omega, h.symm⟩

theorem isTouched_eq (t : Nat) (d : Direction) : isTouched t d = t.testBit d.toNat := by
  have hd := direction_toNat_lt d
  unfold isTouched
  have h256 : (1 <<< d.toNat) % 2 ^ 8 = 2 ^ d.toNat := by
    rw [Nat.one_shiftLeft]
    apply Nat.mod_eq_of_lt
    exact Nat.pow_lt_pow_right (by decide) (by omega)
  rw [h256]
  by_cases hb : t.testBit d.toNat = true
  · rw [hb]
    simp only [bne_iff_ne, ne_eq]
    intro h0
    have := congrArg (fun m => Nat.testBit m d.toNat) h0
    simp [Nat.testBit_and, Nat.testBit_two_pow, hb] at this
  · rw [Bool.not_eq_true] at hb
    rw [hb]
    simp only [bne_eq_false_iff_eq]
    apply Nat.eq_of_testBit_eq
    intro i
    rw [Nat.testBit_and, Nat.testBit_two_pow, Nat.zero_testBit]
    by_cases hi : d.toNat = i
    · subst hi
      simp [hb]
    · simp [hi]

theorem testBit_markInner (t : Nat) (d : Direction) (n : Nat) :
    ∀ (l : List Direction) (bits : Nat),
      (l.foldl (fun bits d2 => if isTouched t d2 then setBit bits d d2 else bits)
        bits).testBit n = true ↔
      bits.testBit n = true ∨
        ∃ d2 ∈ l, isTouched t d2 = true ∧ n = d.toNat * 6 + d2.toNat := by
  intro l
  induction l with
  | nil => intro bits; simp
  | cons a l ih =>
    intro bits
    rw [List.foldl_cons, ih]
    by_cases ha : isTouched t a = true
    · simp only [ha, if_true, testBit_setBit, List.mem_cons, exists_eq_or_imp, true_and]
      tauto
    · simp only [ha, if_false, List.mem_cons, exists_eq_or_imp, false_and, false_or]
      simp

theorem testBit_markOuter (t : Nat) (n : Nat) (l2 : List Direction) :
    ∀ (l : List Direction) (bits : Nat),
      (l.foldl (fun bits d =>
          if isTouched t d then
            l2.foldl (fun bits d2 => if isTouched t d2 then setBit bits d d2 else bits) bits
          else bits) bits).testBit n = true ↔
      bits.testBit n = true ∨
        ∃ d ∈ l, ∃ d2 ∈ l2, isTouched t d = true ∧ isTouched t d2 = true ∧
          n = d.toNat * 6 + d2.toNat := by
  intro l
  induction l with
  | nil => intro bits; simp
  | cons a l ih =>
    intro bits
    rw [List.foldl_cons, ih]
    by_cases ha : isTouched t a = true
    · simp only [ha, if_true, testBit_markInner, List.mem_cons, exists_eq_or_imp, true_and]
      rw [or_assoc]
    · simp only [ha, if_false, List.mem_cons, exists_eq_or_imp, false_and, false_or]
      simp

theorem testBit_markTouched (t bits n : Nat) :
    (markTouched t bits).testBit n = true ↔
      bits.testBit n = true ∨
        ∃ a b : Direction, t.testBit a.toNat = true ∧ t.testBit b.toNat = true ∧
          n = a.toNat * 6 + b.toNat := by
  unfold markTouched
  rw [testBit_markOuter]
  simp only [direction_mem_Values, true_and, isTouched_eq]

/-! ## Correctness of the flood fill -/

theorem card_unvisited_insert {vis : Finset position} {p : position} (hp : p ∉ vis)
    (hs : inSection p) :
    (sectionCells \ insert p vis).card < (sectionCells \ vis).card := by
  apply Finset.card_lt_card
  rw [Finset.ssubset_iff_of_subset]
  · refine ⟨p, ?_, ?_⟩
    · simp [mem_sectionCells, hs, hp]
    · simp
  · intro q hq
    simp only [Finset.mem_sdiff, Finset.mem_insert, not_or] at hq ⊢
    exact ⟨hq.1, hq.2.2⟩

theorem card_unvisited_mono {v v' : Finset position} (h : v ⊆ v') :
    (sectionCells \ v').card ≤ (sectionCells \ v).card :=
  Finset.card_le_card (Finset.sdiff_subset_sdiff (Finset.Subset.refl _) h)

theorem floodFill_spec (bs : blocksSnapshot) :
    ∀ (fuel : Nat) (vis : Finset position) (x y z : Int),
      (sectionCells \ vis).card < fuel →
      ∃ vis' t, floodFill bs fuel vis x y z = some (vis', t) ∧
        FillPost bs vis ⟨x, y, z⟩ vis' t := by
  intro fuel
  induction fuel with
  | zero => intro vis x y z h; omega
  | succ fuel ih =>
    intro vis x y z hfuel
    by_cases hc : (⟨x, y, z⟩ : position) ∈ vis ∨ x < 0 ∨ x > 15 ∨ y < 0 ∨ y > 15 ∨
        z < 0 ∨ z > 15
    · refine ⟨vis, 0, by simp only [floodFill, hc, if_true], ?_⟩
      refine ⟨Finset.Subset.refl _, ?_, ?_, fun G hG => hG, ?_, ?_⟩
      · intro hs
        rcases hc with hc | hc
        · exact hc
        · simp only [inSection] at hs
          omega
      · intro q hq hq'
        exact absurd hq hq'
      · intro q hq hq'
        exact absurd hq hq'
      · intro n
        simp only [Nat.zero_testBit, Bool.false_eq_true, false_iff]
        rintro ⟨d, _, q, hq, hq', _⟩
        exact hq' hq
    · have hp : (⟨x, y, z⟩ : position) ∉ vis := fun h => hc (Or.inl h)
      have hs : inSection ⟨x, y, z⟩ := by
        simp only [inSection]
        omega
      by_cases hcull : (bs.block x y z).ShouldCullAgainst = true
      · refine ⟨insert ⟨x, y, z⟩ vis, 0, by simp only [floodFill, hc, if_false, hcull, if_true],
          ?_⟩
        have hnot : ¬ isOpen bs ⟨x, y, z⟩ := by
          intro h
          have := h.2
          simp only [hcull] at this
          exact Bool.noConfusion this
        refine ⟨Finset.subset_insert _ _, fun _ => Finset.mem_insert_self _ _, ?_, ?_, ?_, ?_⟩
        · intro q hq hq'
          rcases Finset.mem_insert.mp hq with rfl | hq
          · exact hs
          · exact absurd hq hq'
        · intro G hG q hq hqo hqG d hd
          rcases Finset.mem_insert.mp hq with rfl | hq
          · exact absurd hqo hnot
          · exact Finset.mem_insert_of_mem (hG q hq hqo hqG d hd)
        · intro q hq hq' hqo
          rcases Finset.mem_insert.mp hq with rfl | hq
          · exact absurd hqo hnot
          · exact absurd hq hq'
        · intro n
          simp only [Nat.zero_testBit, Bool.false_eq_true, false_iff]
          rintro ⟨d, _, q, hq, hq', hqo, _⟩
          rcases Finset.mem_insert.mp hq with rfl | hq
          · exact hnot hqo
          · exact hq' hq
      · have hopen : isOpen bs ⟨x, y, z⟩ := ⟨hs, by simpa using hcull⟩
        have hloop := foldlM_hoare
          (fun (st : Finset position × Nat) (d : Direction) =>
            match floodFill bs fuel st.1 (x + d.Offset.1) (y + d.Offset.2.1)
                (z + d.Offset.2.2) with
            | none => none
            | some (visited, t) => some (visited, st.2 ||| t))
          (fun st => insert (⟨x, y, z⟩ : position) vis ⊆ st.1 ∧
            (∀ G : Set position, Closed bs vis G → Closed bs st.1 (insert ⟨x, y, z⟩ G)) ∧
            (∀ q ∈ st.1, q ∉ vis → inSection q) ∧
            (∀ q ∈ st.1, q ∉ vis → isOpen bs q → Conn bs ⟨x, y, z⟩ q) ∧
            (∀ n, st.2.testBit n = true ↔
              ∃ d : Direction, d.toNat = n ∧ ∃ q ∈ st.1, q ∉ vis ∧ isOpen bs q ∧ onFace d q) ∧
            (sectionCells \ st.1).card < fuel)
          (fun st st' => st.1 ⊆ st'.1)
          (fun d st => inSection ((⟨x, y, z⟩ : position).move d) →
            (⟨x, y, z⟩ : position).move d ∈ st.1)
          (fun st => Finset.Subset.refl _)
          (fun a b c hab hbc => Finset.Subset.trans hab hbc)
          (fun d st st' hq hsub hin => hsub (hq hin))
          Direction.Values
          (by
            rintro ⟨v, t⟩ d _ ⟨hsub, hcl, hfr, hcn, hbt, hfu⟩
            obtain ⟨v', t', hrun, hpost⟩ :=
              ih v (x + d.Offset.1) (y + d.Offset.2.1) (z + d.Offset.2.2) hfu
            refine ⟨(v', t ||| t'), by simp only [hrun], ?_, hpost.mono, hpost.here⟩
            refine ⟨Finset.Subset.trans hsub hpost.mono, ?_, ?_, ?_, ?_, ?_⟩
            · intro G hG
              exact hpost.closed _ (hcl G hG)
            · intro q hq hq'
              by_cases hqv : q ∈ v
              · exact hfr q hqv hq'
              · exact hpost.fresh q hq hqv
            · intro q hq hq' hqo
              by_cases hqv : q ∈ v
              · exact hcn q hqv hq' hqo
              · have hc2 := hpost.conn q hq hqv hqo
                have ho2 := conn_isOpen_left hc2 hqo
                exact Relation.ReflTransGen.head
                  ⟨hopen, ho2, adjacent_move ⟨x, y, z⟩ d⟩ hc2
            · intro n
              rw [Nat.testBit_lor, Bool.or_eq_true, hbt n, hpost.bits n]
              constructor
              · rintro (⟨e, he, q, hq, hq', hqo, hf⟩ | ⟨e, he, q, hq, hq', hqo, hf⟩)
                · exact ⟨e, he, q, hpost.mono hq, hq', hqo, hf⟩
                · exact ⟨e, he, q, hq, fun h => hq' (hsub (Finset.mem_insert_of_mem h)),
                    hqo, hf⟩
              · rintro ⟨e, he, q, hq, hq', hqo, hf⟩
                by_cases hqv : q ∈ v
                · exact Or.inl ⟨e, he, q, hqv, hq', hqo, hf⟩
                · exact Or.inr ⟨e, he, q, hq, hqv, hqo, hf⟩
            · exact lt_of_le_of_lt (card_unvisited_mono hpost.mono) hfu)
          (insert ⟨x, y, z⟩ vis, touchedFaces x y z)
          (by
            refine ⟨Finset.Subset.refl _, ?_, ?_, ?_, ?_, ?_⟩
            · intro G hG q hq hqo hqG d hd
              rcases Finset.mem_insert.mp hq with rfl | hq
              · exact absurd (Set.mem_insert _ _) hqG
              · exact Finset.mem_insert_of_mem
                  (hG q hq hqo (fun h => hqG (Set.mem_insert_of_mem _ h)) d hd)
            · intro q hq hq'
              rcases Finset.mem_insert.mp hq with rfl | hq
              · exact hs
              · exact absurd hq hq'
            · intro q hq hq' _
              rcases Finset.mem_insert.mp hq with rfl | hq
              · exact Relation.ReflTransGen.refl
              · exact absurd hq hq'
            · intro n
              rw [testBit_touchedFaces]
              constructor
              · rintro ⟨d, hd, hf⟩
                exact ⟨d, hd, _, Finset.mem_insert_self _ _, hp, hopen, hf⟩
              · rintro ⟨d, hd, q, hq, hq', _, hf⟩
                rcases Finset.mem_insert.mp hq with rfl | hq
                · exact ⟨d, hd, hf⟩
                · exact absurd hq hq'
            · have := card_unvisited_insert hp hs
              show (sectionCells \ insert (⟨x, y, z⟩ : position) vis).card < fuel
              omega)
        obtain ⟨⟨v', t'⟩, hrun, ⟨hsub, hcl, hfr, hcn, hbt, _⟩, _, hall⟩ := hloop
        refine ⟨v', t', ?_, ?_⟩
        · simp only [floodFill, hc, if_false, hcull]
          exact hrun
        · refine ⟨Finset.Subset.trans (Finset.subset_insert _ _) hsub,
            fun _ => hsub (Finset.mem_insert_self _ _), hfr, ?_, hcn, hbt⟩
          intro G hG q hq hqo hqG d hd
          by_cases hqp : q = ⟨x, y, z⟩
          · subst hqp
            exact hall d (direction_mem_Values d) hd.1
          · exact hcl G hG q hq hqo
              (fun h => (Set.mem_insert_iff.mp h).elim hqp hqG) d hd

/-! ## Correctness of `buildCullBits` -/

theorem closed_mem_of_conn {bs : blocksSnapshot} {vis : Finset position}
    (hcl : Closed bs vis ∅) {u v : position} (hu : u ∈ vis)
    (h : Conn bs u v) : v ∈ vis := by
  induction h with
  | refl => exact hu
  | tail hab hbc ih =>
    obtain ⟨d, rfl⟩ := (adjacent_iff_move _ _).mp hbc.2.2
    exact hcl _ ih hbc.1 (fun hf => hf) d hbc.2.1

theorem visible_iff_seen (bs : blocksSnapshot) (a b : Direction) :
    Visible bs a b ↔ ∃ u, Seen bs a b u := by
  constructor
  · rintro ⟨S, hS, ⟨v, hv, hva⟩, ⟨w, hw, hwb⟩⟩
    refine ⟨v, hS.isOpen v hv, ⟨v, Relation.ReflTransGen.refl, hva⟩, ⟨w, ?_, hwb⟩⟩
    exact Relation.ReflTransGen.mono
      (fun p q hpq => ⟨hS.isOpen p hpq.1, hS.isOpen q hpq.2.1, hpq.2.2⟩) (hS.connected v hv w hw)
  · rintro ⟨u, huo, ⟨v, huv, hva⟩, ⟨w, huw, hwb⟩⟩
    refine ⟨{q | Conn bs u q}, ⟨fun p hp => conn_isOpen_right hp huo, ?_⟩,
      ⟨v, huv, hva⟩, ⟨w, huw, hwb⟩⟩
    have key : ∀ q, Conn bs u q →
        Relation.ReflTransGen
          (fun a b => a ∈ {q | Conn bs u q} ∧ b ∈ {q | Conn bs u q} ∧ adjacent a b) u q := by
      intro q hq
      induction hq with
      | refl => exact Relation.ReflTransGen.refl
      | tail hab hbc ih =>
        exact Relation.ReflTransGen.tail ih
          ⟨hab, Relation.ReflTransGen.tail hab hbc, hbc.2.2⟩
    intro p hp q hq
    have hpu := Relation.ReflTransGen.symmetric
      (fun x y (hxy : x ∈ {q | Conn bs u q} ∧ y ∈ {q | Conn bs u q} ∧ adjacent x y) =>
        (⟨hxy.2.1, hxy.1, adjacent_symm hxy.2.2⟩ :
          y ∈ {q | Conn bs u q} ∧ x ∈ {q | Conn bs u q} ∧ adjacent y x)) (key p hp)
    exact Relation.ReflTransGen.trans hpu (key q hq)

theorem cullStep_spec (bs : blocksSnapshot) (fuel : Nat) (hfuel : 4096 < fuel)
    (st : Finset position × Nat) (x y z : Int) (hinv : CullInv bs st) :
    ∃ st', cullStep bs fuel st x y z = some st' ∧ CullInv bs st' ∧ st.1 ⊆ st'.1 ∧
      (inSection ⟨x, y, z⟩ → (⟨x, y, z⟩ : position) ∈ st'.1) := by
  obtain ⟨vis, bits⟩ := st
  obtain ⟨hcl, hbits⟩ := hinv
  by_cases hv : (⟨x, y, z⟩ : position) ∈ vis
  · exact ⟨(vis, bits), by simp only [cullStep, hv, if_true], ⟨hcl, hbits⟩,
      Finset.Subset.refl _, fun _ => hv⟩
  · have hcard : (sectionCells \ vis).card < fuel := by
      have h1 : (sectionCells \ vis).card ≤ sectionCells.card :=
        Finset.card_le_card Finset.sdiff_subset
      have h2 := card_sectionCells_le
      omega
    obtain ⟨v', t, hrun, hpost⟩ := floodFill_spec bs fuel vis x y z hcard
    have hstep : ∃ bits', cullStep bs fuel (vis, bits) x y z = some (v', bits') ∧
        ∀ n, bits'.testBit n = true ↔ (bits.testBit n = true ∨
          ∃ a b : Direction, t.testBit a.toNat = true ∧ t.testBit b.toNat = true ∧
            n = a.toNat * 6 + b.toNat) := by
      by_cases ht : t = 0
      · refine ⟨bits, by simp only [cullStep, hv, if_false, hrun, ht, if_true], ?_⟩
        intro n
        subst ht
        simp
      · refine ⟨markTouched t bits, by simp only [cullStep, hv, if_false, hrun, ht], ?_⟩
        intro n
        exact testBit_markTouched t bits n
    obtain ⟨bits', hrun', hb'⟩ := hstep
    have hcl' : Closed bs v' ∅ := hpost.closed ∅ hcl
    have hface : ∀ a : Direction, t.testBit a.toNat = true ↔
        ∃ q ∈ v', q ∉ vis ∧ isOpen bs q ∧ onFace a q := by
      intro a
      rw [hpost.bits]
      constructor
      · rintro ⟨d, hd, h⟩
        rw [direction_toNat_inj hd] at h
        exact h
      · intro h
        exact ⟨a, rfl, h⟩
    refine ⟨(v', bits'), hrun', ⟨hcl', ?_⟩, hpost.mono, hpost.here⟩
    intro n
    rw [hb' n, hbits n]
    constructor
    · rintro (⟨a, b, hn, u, hu, hs⟩ | ⟨a, b, hta, htb, hn⟩)
      · exact ⟨a, b, hn, u, hpost.mono hu, hs⟩
      · obtain ⟨q, hq, hqv, hqo, hqa⟩ := (hface a).mp hta
        obtain ⟨q', hq', hqv', hqo', hqb⟩ := (hface b).mp htb
        have hc := hpost.conn q hq hqv hqo
        have hc' := hpost.conn q' hq' hqv' hqo'
        have hpo := conn_isOpen_left hc hqo
        exact ⟨a, b, hn, ⟨x, y, z⟩, hpost.here hpo.1, hpo, ⟨q, hc, hqa⟩, ⟨q', hc', hqb⟩⟩
    · rintro ⟨a, b, hn, u, hu, hs⟩
      by_cases huv : u ∈ vis
      · exact Or.inl ⟨a, b, hn, u, huv, hs⟩
      · obtain ⟨huo, ⟨v, hcv, hva⟩, ⟨w, hcw, hwb⟩⟩ := hs
        have hnew : ∀ q, Conn bs u q → q ∈ v' ∧ q ∉ vis ∧ isOpen bs q := by
          intro q hq
          have hqo := conn_isOpen_right hq huo
          refine ⟨closed_mem_of_conn hcl' hu hq, ?_, hqo⟩
          intro hqv
          exact huv (closed_mem_of_conn hcl hqv (conn_symm hq))
        refine Or.inr ⟨a, b, (hface a).mpr ?_, (hface b).mpr ?_, hn⟩
        · obtain ⟨h1, h2, h3⟩ := hnew v hcv
          exact ⟨v, h1, h2, h3, hva⟩
        · obtain ⟨h1, h2, h3⟩ := hnew w hcw
          exact ⟨w, h1, h2, h3, hwb⟩

theorem natCast_inSection {x y z : Nat} (hx : x ∈ List.range 16) (hy : y ∈ List.range 16)
    (hz : z ∈ List.range 16) : inSection ⟨(x : Int), (y : Int), (z : Int)⟩ := by
  simp only [List.mem_range] at hx hy hz
  simp only [inSection]
  omega

theorem cullLoop_spec (bs : blocksSnapshot) (fuel : Nat) (hfuel : 4096 < fuel)
    (st : Finset position × Nat) (hinv : CullInv bs st) :
    ∃ st', cullLoop bs fuel st = some st' ∧ CullInv bs st' ∧ st.1 ⊆ st'.1 ∧
      ∀ p, inSection p → p ∈ st'.1 := by
  have hloop := foldlM_hoare
    (fun (st : Finset position × Nat) (y : Nat) =>
      (List.range 16).foldlM (fun st z =>
        (List.range 16).foldlM (fun st x =>
          cullStep bs fuel st (x : Int) (y : Int) (z : Int)) st) st)
    (CullInv bs) (fun st st' => st.1 ⊆ st'.1)
    (fun y st => ∀ z ∈ List.range 16, ∀ x ∈ List.range 16,
      (⟨(x : Int), (y : Int), (z : Int)⟩ : position) ∈ st.1)
    (fun st => Finset.Subset.refl _)
    (fun a b c hab hbc => Finset.Subset.trans hab hbc)
    (fun y st st' hq hsub z hz x hx => hsub (hq z hz x hx))
    (List.range 16)
    (by
      intro st1 y hy hI1
      obtain ⟨st2, h2, hI2, hR2, hQ2⟩ := foldlM_hoare
        (fun (st : Finset position × Nat) (z : Nat) =>
          (List.range 16).foldlM (fun st x =>
            cullStep bs fuel st (x : Int) (y : Int) (z : Int)) st)
        (CullInv bs) (fun st st' => st.1 ⊆ st'.1)
        (fun z st => ∀ x ∈ List.range 16,
          (⟨(x : Int), (y : Int), (z : Int)⟩ : position) ∈ st.1)
        (fun st => Finset.Subset.refl _)
        (fun a b c hab hbc => Finset.Subset.trans hab hbc)
        (fun z st st' hq hsub x hx => hsub (hq x hx))
        (List.range 16)
        (by
          intro st3 z hz hI3
          exact foldlM_hoare
            (fun (st : Finset position × Nat) (x : Nat) =>
              cullStep bs fuel st (x : Int) (y : Int) (z : Int))
            (CullInv bs) (fun st st' => st.1 ⊆ st'.1)
            (fun x st => (⟨(x : Int), (y : Int), (z : Int)⟩ : position) ∈ st.1)
            (fun st => Finset.Subset.refl _)
            (fun a b c hab hbc => Finset.Subset.trans hab hbc)
            (fun x st st' hq hsub => hsub hq)
            (List.range 16)
            (by
              intro st4 x hx hI4
              obtain ⟨st5, h5, hI5, hR5, hQ5⟩ :=
                cullStep_spec bs fuel hfuel st4 (x : Int) (y : Int) (z : Int) hI4
              exact ⟨st5, h5, hI5, hR5, hQ5 (natCast_inSection hx hy hz)⟩)
            st3 hI3)
        st1 hI1
      exact ⟨st2, h2, hI2, hR2, hQ2⟩)
    st hinv
  obtain ⟨st', hrun, hI, hR, hQ⟩ := hloop
  refine ⟨st', hrun, hI, hR, ?_⟩
  intro p hp
  simp only [inSection] at hp
  have := hQ p.Y.toNat (List.mem_range.mpr (by omega)) p.Z.toNat
    (List.mem_range.mpr (by omega)) p.X.toNat (List.mem_range.mpr (by omega))
  rw [Int.toNat_of_nonneg hp.1, Int.toNat_of_nonneg hp.2.2.1,
    Int.toNat_of_nonneg hp.2.2.2.2.1] at this
  exact this

/-- The bitmask of `buildCullBits`: the fill always has enough fuel, and bit
`n` is set exactly when `n = a*6 + b` for two faces joined through open
space. -/
theorem buildCullBits_char (bs : blocksSnapshot) :
    ∃ bits, buildCullBits bs = some bits ∧
      ∀ n, bits.testBit n = true ↔
        ∃ a b : Direction, n = a.toNat * 6 + b.toNat ∧ Visible bs a b := by
  have h0 : CullInv bs (∅, 0) := by
    refine ⟨fun q hq => absurd hq (Finset.not_mem_empty q), ?_⟩
    intro n
    simp
  obtain ⟨⟨vis, bits⟩, hrun, ⟨_, hbits⟩, _, hall⟩ :=
    cullLoop_spec bs 4097 (by decide) (∅, 0) h0
  refine ⟨bits, by simp [buildCullBits, hrun], ?_⟩
  intro n
  rw [hbits n]
  constructor
  · rintro ⟨a, b, hn, u, _, hs⟩
    exact ⟨a, b, hn, (visible_iff_seen bs a b).mpr ⟨u, hs⟩⟩
  · rintro ⟨a, b, hn, hvis⟩
    obtain ⟨u, hs⟩ := (visible_iff_seen bs a b).mp hvis
    exact ⟨a, b, hn, u, hall u hs.1.1, hs⟩

/-! ## Regions that are boxes -/

theorem lowerBox_to_origin (h : Int) :
    ∀ (n : Nat) (p : position), p ∈ lowerBox h → (p.X + p.Y + p.Z).toNat = n →
      Relation.ReflTransGen
        (fun a b => a ∈ lowerBox h ∧ b ∈ lowerBox h ∧ adjacent a b) p ⟨0, 0, 0⟩ := by
  intro n
  induction n with
  | zero =>
    rintro ⟨x, y, z⟩ ⟨hs, _⟩ hn
    simp only [inSection] at hs
    simp only at hn
    have hx : x = 0 := by omega
    have hy : y = 0 := by omega
    have hz : z = 0 := by omega
    subst hx hy hz
    exact Relation.ReflTransGen.refl
  | succ n ih =>
    rintro ⟨x, y, z⟩ ⟨hs, hh⟩ hn
    simp only [inSection] at hs
    simp only at hn hh
    by_cases hx : 0 < x
    · refine Relation.ReflTransGen.head (b := (⟨x, y, z⟩ : position).move Direction.West)
        ⟨⟨by simp only [inSection]; omega, hh⟩, ⟨?_, ?_⟩, adjacent_move _ _⟩ (ih _ ⟨?_, ?_⟩ ?_)
      all_goals simp only [position.move, Direction.Offset, inSection]
      all_goals omega
    · by_cases hy : 0 < y
      · refine Relation.ReflTransGen.head (b := (⟨x, y, z⟩ : position).move Direction.Down)
          ⟨⟨by simp only [inSection]; omega, hh⟩, ⟨?_, ?_⟩, adjacent_move _ _⟩
          (ih _ ⟨?_, ?_⟩ ?_)
        all_goals simp only [position.move, Direction.Offset, inSection]
        all_goals omega
      · refine Relation.ReflTransGen.head (b := (⟨x, y, z⟩ : position).move Direction.North)
          ⟨⟨by simp only [inSection]; omega, hh⟩, ⟨?_, ?_⟩, adjacent_move _ _⟩
          (ih _ ⟨?_, ?_⟩ ?_)
        all_goals simp only [position.move, Direction.Offset, inSection]
        all_goals omega

/-- A box of the section whose voxels are all non-culling is a region. -/
theorem lowerBox_isRegion (bs : blocksSnapshot) (h : Int)
    (hopen : ∀ p, inSection p → p.Y ≤ h → (bs.block p.X p.Y p.Z).ShouldCullAgainst = false) :
    IsRegion bs (lowerBox h) := by
  refine ⟨fun p hp => ⟨hp.1, hopen p hp.1 hp.2⟩, ?_⟩
  intro p hp q hq
  have hq0 := Relation.ReflTransGen.symmetric
    (fun x y (hxy : x ∈ lowerBox h ∧ y ∈ lowerBox h ∧ adjacent x y) =>
      (⟨hxy.2.1, hxy.1, adjacent_symm hxy.2.2⟩ :
        y ∈ lowerBox h ∧ x ∈ lowerBox h ∧ adjacent y x))
    (lowerBox_to_origin h _ q hq rfl)
  exact Relation.ReflTransGen.trans (lowerBox_to_origin h _ p hp rfl) hq0

theorem visible_symm {bs : blocksSnapshot} {a b : Direction} (h : Visible bs a b) :
    Visible bs b a := by
  obtain ⟨S, hS, hv, hw⟩ := h
  exact ⟨S, hS, hw, hv⟩

theorem direction_pair_inj {a b c d : Direction}
    (h : a.toNat * 6 + b.toNat = c.toNat * 6 + d.toNat) : a = c ∧ b = d := by
  have ha := direction_toNat_lt a
  have hb := direction_toNat_lt b
  have hc := direction_toNat_lt c
  have hd := direction_toNat_lt d
  exact ⟨direction_toNat_inj (by omega), direction_toNat_inj (by omega)⟩

theorem direction_exists_toNat (k : Nat) (hk : k < 6) : ∃ d : Direction, d.toNat = k := by
  interval_cases k
  · exact ⟨Direction.Up, rfl⟩
  · exact ⟨Direction.Down, rfl⟩
  · exact ⟨Direction.North, rfl⟩
  · exact ⟨Direction.South, rfl⟩
  · exact ⟨Direction.West, rfl⟩
  · exact ⟨Direction.East, rfl⟩

/-- The bit of a pair of faces in the bitmask of `buildCullBits`. -/
theorem buildCullBits_pair (bs : blocksSnapshot) :
    ∃ bits, buildCullBits bs = some bits ∧
      (∀ a b : Direction, bits.testBit (a.toNat * 6 + b.toNat) = true ↔ Visible bs a b) ∧
      ∀ n, bits.testBit n = true → ∃ a b : Direction, n = a.toNat * 6 + b.toNat := by
  obtain ⟨bits, hrun, hbits⟩ := buildCullBits_char bs
  refine ⟨bits, hrun, ?_, ?_⟩
  · intro a b
    rw [hbits]
    constructor
    · rintro ⟨c, d, hn, hv⟩
      obtain ⟨rfl, rfl⟩ := direction_pair_inj hn
      exact hv
    · intro hv
      exact ⟨a, b, rfl, hv⟩
  · intro n hn
    obtain ⟨a, b, h, _⟩ := (hbits n).mp hn
    exact ⟨a, b, h⟩

/-- A section without culling voxels: all 36 bits are set. -/
theorem buildCullBits_allOpen (bs : blocksSnapshot)
    (hopen : ∀ p, inSection p → (bs.block p.X p.Y p.Z).ShouldCullAgainst = false) :
    buildCullBits bs = some (2 ^ 36 - 1) := by
  obtain ⟨bits, hrun, hpair, hform⟩ := buildCullBits_pair bs
  have hreg := lowerBox_isRegion bs 15 (fun p hp _ => hopen p hp)
  have hvis : ∀ a b : Direction, Visible bs a b := by
    intro a b
    refine ⟨lowerBox 15, hreg, ?_, ?_⟩
    · cases a
      · exact ⟨⟨0, 15, 0⟩, ⟨by decide, by decide⟩, rfl⟩
      · exact ⟨⟨0, 0, 0⟩, ⟨by decide, by decide⟩, rfl⟩
      · exact ⟨⟨0, 0, 0⟩, ⟨by decide, by decide⟩, rfl⟩
      · exact ⟨⟨0, 0, 15⟩, ⟨by decide, by decide⟩, rfl⟩
      · exact ⟨⟨0, 0, 0⟩, ⟨by decide, by decide⟩, rfl⟩
      · exact ⟨⟨15, 0, 0⟩, ⟨by decide, by decide⟩, rfl⟩
    · cases b
      · exact ⟨⟨0, 15, 0⟩, ⟨by decide, by decide⟩, rfl⟩
      · exact ⟨⟨0, 0, 0⟩, ⟨by decide, by decide⟩, rfl⟩
      · exact ⟨⟨0, 0, 0⟩, ⟨by decide, by decide⟩, rfl⟩
      · exact ⟨⟨0, 0, 15⟩, ⟨by decide, by decide⟩, rfl⟩
      · exact ⟨⟨0, 0, 0⟩, ⟨by decide, by decide⟩, rfl⟩
      · exact ⟨⟨15, 0, 0⟩, ⟨by decide, by decide⟩, rfl⟩
  rw [hrun]
  congr 1
  apply Nat.eq_of_testBit_eq
  intro n
  rw [Nat.testBit_two_pow_sub_one]
  by_cases hn : n < 36
  · obtain ⟨a, ha⟩ := direction_exists_toNat (n / 6) (by omega)
    obtain ⟨b, hb⟩ := direction_exists_toNat (n % 6) (Nat.mod_lt _ (by decide))
    have hnab : n = a.toNat * 6 + b.toNat := by omega
    rw [hnab] at hn ⊢
    rw [(hpair a b).mpr (hvis a b)]
    simp [hn]
  · have hf : bits.testBit n = false := by
      rw [← Bool.not_eq_true]
      intro ht
      obtain ⟨a, b, hab⟩ := hform n ht
      have ha := direction_toNat_lt a
      have hb := direction_toNat_lt b
      omega
    rw [hf]
    simp [hn]

/-! ## The loop of `build` -/

theorem foldlM_flatMap {σ α β : Type} (f : σ → β → Option σ) (g : α → List β) (l : List α) :
    ∀ s : σ, (l.flatMap g).foldlM f s = l.foldlM (fun s a => (g a).foldlM f s) s := by
  induction l with
  | nil => intro s; rfl
  | cons a l ih =>
    intro s
    rw [List.flatMap_cons, List.foldlM_append, List.foldlM_cons]
    cases (g a).foldlM f s with
    | none => rfl
    | some s1 => exact ih s1

theorem foldlM_prefix_partial {σ α : Type} (f : σ → α → Option σ) (P : List α → σ → Prop)
    (l : List α)
    (hstep : ∀ pre a post, l = pre ++ a :: post → ∀ s s', P pre s → f s a = some s' →
      P (pre ++ [a]) s') :
    ∀ s s', P [] s → l.foldlM f s = some s' → P l s' := by
  have key : ∀ (rest pre : List α), l = pre ++ rest → ∀ s s', P pre s →
      rest.foldlM f s = some s' → P l s' := by
    intro rest
    induction rest with
    | nil =>
      intro pre hl s s' hP hrun
      rw [List.append_nil] at hl
      simp only [List.foldlM_nil, Option.pure_def, Option.some.injEq] at hrun
      rw [hl, ← hrun]
      exact hP
    | cons a rest ih =>
      intro pre hl s s' hP hrun
      rw [List.foldlM_cons] at hrun
      cases h1 : f s a with
      | none => rw [h1] at hrun; exact Option.noConfusion hrun
      | some s1 =>
        rw [h1] at hrun
        exact ih (pre ++ [a]) (by rw [hl, List.append_assoc]; rfl) s1 s'
          (hstep pre a rest hl s s1 hP h1) hrun
  intro s s' hP hrun
  exact key l [] rfl s s' hP hrun

theorem foldlM_prefix_total {σ α : Type} (f : σ → α → Option σ) (P : List α → σ → Prop)
    (l : List α)
    (hstep : ∀ pre a post, l = pre ++ a :: post → ∀ s, P pre s →
      ∃ s', f s a = some s' ∧ P (pre ++ [a]) s') :
    ∀ s, P [] s → ∃ s', l.foldlM f s = some s' ∧ P l s' := by
  have key : ∀ (rest pre : List α), l = pre ++ rest → ∀ s, P pre s →
      ∃ s', rest.foldlM f s = some s' ∧ P l s' := by
    intro rest
    induction rest with
    | nil =>
      intro pre hl s hP
      rw [List.append_nil] at hl
      exact ⟨s, rfl, by rw [hl]; exact hP⟩
    | cons a rest ih =>
      intro pre hl s hP
      obtain ⟨s1, h1, hP1⟩ := hstep pre a rest hl s hP
      obtain ⟨s2, h2, hP2⟩ := ih (pre ++ [a]) (by rw [hl, List.append_assoc]; rfl) s1 hP1
      exact ⟨s2, by rw [List.foldlM_cons, h1]; exact h2, hP2⟩
  intro s hP
  exact key l [] rfl s hP

theorem foldlM_none {σ α : Type} (f : σ → α → Option σ) (l : List α) (a : α) (ha : a ∈ l)
    (hbad : ∀ s, f s a = none) : ∀ s, l.foldlM f s = none := by
  induction l with
  | nil => exact absurd ha (List.not_mem_nil a)
  | cons b l ih =>
    intro s
    rw [List.foldlM_cons]
    rcases List.mem_cons.mp ha with rfl | hmem
    · rw [hbad s]
      rfl
    · cases f s b with
      | none => rfl
      | some s1 => exact ih hmem s1

theorem buildLoop_flat (E : Env) (bs : blocksSnapshot) (chunkX sectionY chunkZ : Int)
    (st : buildState E) :
    buildLoop E bs chunkX sectionY chunkZ st =
      voxelOrder.foldlM (fun st p => voxelStep E bs chunkX sectionY chunkZ st p.X p.Y p.Z) st := by
  simp only [buildLoop, voxelOrder, foldlM_flatMap, List.foldlM_map]

theorem mem_voxelOrder (p : position) : p ∈ voxelOrder ↔ inSection p := by
  simp only [voxelOrder, List.mem_flatMap, List.mem_map, List.mem_range, inSection]
  constructor
  · rintro ⟨y, hy, x, hx, z, hz, rfl⟩
    simp only
    omega
  · intro h
    refine ⟨p.Y.toNat, by omega, p.X.toNat, by omega, p.Z.toNat, by omega, ?_⟩
    cases p
    simp only at h ⊢
    rw [Int.toNat_of_nonneg h.1, Int.toNat_of_nonneg h.2.2.1, Int.toNat_of_nonneg h.2.2.2.2.1]

theorem length_flatMap_const {α β : Type} (g : α → List β) (n : Nat)
    (hg : ∀ a, (g a).length = n) : ∀ l : List α, (l.flatMap g).length = l.length * n := by
  intro l
  induction l with
  | nil => simp
  | cons a l ih =>
    rw [List.flatMap_cons, List.length_append, ih, hg, List.length_cons]
    ring

theorem length_voxelOrder : voxelOrder.length = 4096 := by
  unfold voxelOrder
  rw [length_flatMap_const _ 256, List.length_range]
  intro y
  rw [length_flatMap_const _ 16, List.length_range]
  intro x
  rw [List.length_map, List.length_range]

theorem length_buildVertex (b : List Nat) (v : chunkVertex) :
    (buildVertex b v).length = b.length + 23 := by
  simp [buildVertex, Short, UnsignedShort, UnsignedByte]

theorem length_foldl_buildVertex (vs : List chunkVertex) :
    ∀ b : List Nat, (vs.foldl buildVertex b).length = b.length + 23 * vs.length := by
  induction vs with
  | nil => intro b; simp
  | cons v vs ih =>
    intro b
    rw [List.foldl_cons, ih, length_buildVertex, List.length_cons]
    omega

theorem buildInv_step {E : Env} {bs : blocksSnapshot} {chunkX sectionY chunkZ : Int} {r0 : E.G}
    {pre : List position} {st st' : buildState E}
    (hinv : BuildInv E bs chunkX sectionY chunkZ r0 pre st) (p : position)
    (htrace : st'.trace = st.trace ++ [p]) (hdraws : st'.draws = st.draws + 1)
    (hr : st'.r = E.next st.r)
    (hpicks : st'.picks = st.picks ++ [(pre.length, p)].filterMap (pickOf E bs r0))
    (hrec : (st'.tInfo = st.tInfo ∧ st.bT.length ≤ st'.bT.length) ∨
      ∃ a : ObjectInfo, st'.tInfo = st.tInfo ++ [a] ∧ a.Offset = st.bT.length ∧ 0 < a.Count ∧
        a.Offset + a.Count = st'.bT.length ∧ (a.X, a.Y, a.Z) = worldOf chunkX sectionY chunkZ p)
    (hair : (bs.block p.X p.Y p.Z).isAir = true →
      st'.bO = st.bO ∧ st'.bT = st.bT ∧ st'.tInfo = st.tInfo) :
    BuildInv E bs chunkX sectionY chunkZ r0 (pre ++ [p]) st' := by
  have hlen : st.bT.length ≤ st'.bT.length := by
    rcases hrec with ⟨_, h⟩ | ⟨a, _, h1, h2, h3, _⟩
    · exact h
    · have : (st.bT.length : Int) ≤ st'.bT.length := by omega
      exact_mod_cast this
  refine ⟨?_, ?_, ?_, ?_, ?_, ?_, ?_, ?_⟩
  · rw [htrace, hinv.trace]
  · rw [hdraws, hinv.draws, List.length_append, List.length_singleton]
  · rw [hr, hinv.gen, List.length_append, List.length_singleton,
      Function.iterate_succ_apply']
  · rw [hpicks, hinv.picks, List.enum_append, List.filterMap_append]
    rfl
  · intro a ha
    rcases hrec with ⟨h, _⟩ | ⟨a', h, h1, h2, h3, _⟩
    · rw [h] at ha
      obtain ⟨c1, c2, c3⟩ := hinv.records a ha
      exact ⟨c1, c2, by omega⟩
    · rw [h] at ha
      rcases List.mem_append.mp ha with ha | ha
      · obtain ⟨c1, c2, c3⟩ := hinv.records a ha
        exact ⟨c1, c2, by omega⟩
      · rw [List.mem_singleton] at ha
        subst ha
        exact ⟨h2, by omega, by omega⟩
  · rcases hrec with ⟨h, _⟩ | ⟨a', h, h1, h2, h3, _⟩
    · rw [h]
      exact hinv.sorted
    · rw [h, List.pairwise_append]
      refine ⟨hinv.sorted, List.pairwise_singleton _ _, ?_⟩
      intro a ha b hb
      rw [List.mem_singleton] at hb
      subst hb
      have := (hinv.records a ha).2.2
      omega
  · rw [List.map_append]
    rcases hrec with ⟨h, _⟩ | ⟨a', h, _, _, _, h4⟩
    · rw [h]
      exact List.Sublist.trans hinv.order (List.sublist_append_left _ _)
    · rw [h, List.map_append]
      refine List.Sublist.append hinv.order ?_
      simp only [List.map_cons, List.map_nil, h4]
      exact List.Sublist.refl _
  · intro hall
    have hp := hall p (List.mem_append.mpr (Or.inr (List.mem_singleton.mpr rfl)))
    obtain ⟨h1, h2, h3⟩ := hair hp
    obtain ⟨q1, q2, q3⟩ := hinv.quiet (fun q hq => hall q (List.mem_append.mpr (Or.inl hq)))
    exact ⟨by rw [h1, q1], by rw [h2, q2], by rw [h3, q3]⟩

theorem recordTranslucent_cases (bl : Block) (chunkX sectionY chunkZ x y z : Int)
    (bO bT : List Nat) (vs : List chunkVertex) (tInfo : List ObjectInfo) :
    let b := if bl.IsTranslucent then bT else bO
    let b' := vs.foldl buildVertex b
    let tInfo' := recordTranslucent bl chunkX sectionY chunkZ x y z (b.length : Int)
      ((b'.length : Int) - (b.length : Int)) tInfo
    let bT' := if bl.IsTranslucent then b' else bT
    (tInfo' = tInfo ∧ bT.length ≤ bT'.length) ∨
      ∃ a : ObjectInfo, tInfo' = tInfo ++ [a] ∧ a.Offset = bT.length ∧ 0 < a.Count ∧
        a.Offset + a.Count = bT'.length ∧
        (a.X, a.Y, a.Z) = worldOf chunkX sectionY chunkZ ⟨x, y, z⟩ := by
  intro b b' tInfo' bT'
  have hb' : b'.length = b.length + 23 * vs.length := length_foldl_buildVertex vs b
  by_cases ht : bl.IsTranslucent = true
  · have hb : b = bT := by simp only [b, ht, if_true]
    have hbT : bT' = b' := by simp only [bT', ht, if_true]
    by_cases hc : (b'.length : Int) - (b.length : Int) > 0
    · right
      refine ⟨_, by simp only [tInfo', recordTranslucent, ht, hc, and_self, if_true]; rfl,
        ?_, hc, ?_, rfl⟩
      · simp only [hb]
      · simp only [hbT]
        omega
    · left
      refine ⟨by simp only [tInfo', recordTranslucent, hc, and_false, if_false], ?_⟩
      rw [hbT, hb', hb]
      omega
  · left
    refine ⟨by simp only [tInfo', recordTranslucent, ht, Bool.false_eq_true, false_and,
      if_false], ?_⟩
    simp only [bT', ht, Bool.false_eq_true, if_false]
    exact le_refl _

theorem voxelStep_none (E : Env) (bs : blocksSnapshot) (chunkX sectionY chunkZ : Int)
    (p : position) (hbad : badVoxel bs p) (st : buildState E) :
    voxelStep E bs chunkX sectionY chunkZ st p.X p.Y p.Z = none := by
  obtain ⟨h1, h2, h3⟩ := hbad
  simp [voxelStep, h1, h2, h3, Env.rIntn]

theorem voxelStep_some (E : Env) (bs : blocksSnapshot) (chunkX sectionY chunkZ : Int)
    (p : position) (hgood : ¬ badVoxel bs p) (st : buildState E) :
    ∃ st', voxelStep E bs chunkX sectionY chunkZ st p.X p.Y p.Z = some st' := by
  unfold voxelStep
  simp only
  by_cases hair : (bs.block p.X p.Y p.Z).isAir = true
  · simp only [hair, if_true]
    exact ⟨_, rfl⟩
  · by_cases hliq : (bs.block p.X p.Y p.Z).isLiquid = true
    · simp only [hair, Bool.false_eq_true, if_false, hliq, if_true]
      exact ⟨_, rfl⟩
    · have hm : (bs.block p.X p.Y p.Z).Models.length ≠ 0 := by
        intro h0
        apply hgood
        exact ⟨by simpa using hair, by simpa using hliq, List.length_eq_zero.mp h0⟩
      simp only [hair, Bool.false_eq_true, if_false, hliq, Env.rIntn, hm]
      cases selectModel (bs.block p.X p.Y p.Z).Models
          (E.intnValue st.r (bs.block p.X p.Y p.Z).Models.length) with
      | none => exact ⟨_, rfl⟩
      | some v => exact ⟨_, rfl⟩

theorem voxelStep_inv {E : Env} {bs : blocksSnapshot} {chunkX sectionY chunkZ : Int} {r0 : E.G}
    {pre : List position} {st st' : buildState E} {x y z : Int}
    (hinv : BuildInv E bs chunkX sectionY chunkZ r0 pre st)
    (h : voxelStep E bs chunkX sectionY chunkZ st x y z = some st') :
    BuildInv E bs chunkX sectionY chunkZ r0 (pre ++ [⟨x, y, z⟩]) st' := by
  unfold voxelStep at h
  simp only at h
  by_cases hair : (bs.block x y z).isAir = true
  · simp only [hair, if_true, Option.some.injEq] at h
    subst h
    refine buildInv_step hinv ⟨x, y, z⟩ rfl rfl rfl ?_ (Or.inl ⟨rfl, le_refl _⟩)
      (fun _ => ⟨rfl, rfl, rfl⟩)
    simp [pickOf, hair]
  · by_cases hliq : (bs.block x y z).isLiquid = true
    · simp only [hair, Bool.false_eq_true, if_false, hliq, if_true, Option.some.injEq] at h
      subst h
      refine buildInv_step hinv ⟨x, y, z⟩ rfl rfl rfl ?_
        (recordTranslucent_cases (bs.block x y z) chunkX sectionY chunkZ x y z st.bO st.bT
          (E.renderLiquid (bs.block x y z) bs x y z) st.tInfo)
        (fun ha => absurd ha hair)
      simp [pickOf, hliq]
    · by_cases hm : (bs.block x y z).Models.length = 0
      · simp [hair, hliq, Env.rIntn, hm] at h
      · simp only [hair, Bool.false_eq_true, if_false, hliq, Env.rIntn, hm] at h
        have hpick : [(pre.length, (⟨x, y, z⟩ : position))].filterMap (pickOf E bs r0) =
            [((⟨x, y, z⟩ : position), E.intnValue st.r (bs.block x y z).Models.length)] := by
          simp [pickOf, hair, hliq, hinv.gen]
        cases hsel : selectModel (bs.block x y z).Models
            (E.intnValue st.r (bs.block x y z).Models.length) with
        | none =>
          simp only [hsel, Option.some.injEq] at h
          subst h
          exact buildInv_step hinv ⟨x, y, z⟩ rfl rfl rfl (by rw [hpick]) (Or.inl ⟨rfl, le_refl _⟩)
            (fun ha => absurd ha hair)
        | some v =>
          simp only [hsel, Option.some.injEq] at h
          subst h
          exact buildInv_step hinv ⟨x, y, z⟩ rfl rfl rfl (by rw [hpick])
            (recordTranslucent_cases (bs.block x y z) chunkX sectionY chunkZ x y z st.bO st.bT
              (E.Render v x y z bs) st.tInfo)
            (fun ha => absurd ha hair)

theorem buildInv_init (E : Env) (bs : blocksSnapshot) (chunkX sectionY chunkZ : Int) :
    BuildInv E bs chunkX sectionY chunkZ (E.NewSource (sectionSeed chunkX chunkZ)) []
      (buildState.init E chunkX chunkZ) := by
  refine ⟨rfl, rfl, rfl, rfl, ?_, List.Pairwise.nil, List.Sublist.refl _,
    fun _ => ⟨rfl, rfl, rfl⟩⟩
  intro a ha
  exact absurd ha (List.not_mem_nil a)

/-- Partial correctness of the loop of `build`: a loop that completes ends in
a state that satisfies the invariant for the whole traversal. -/
theorem buildLoop_inv (E : Env) (bs : blocksSnapshot) (chunkX sectionY chunkZ : Int)
    (st : buildState E)
    (h : buildLoop E bs chunkX sectionY chunkZ (buildState.init E chunkX chunkZ) = some st) :
    BuildInv E bs chunkX sectionY chunkZ (E.NewSource (sectionSeed chunkX chunkZ))
      voxelOrder st := by
  rw [buildLoop_flat] at h
  exact foldlM_prefix_partial _
    (BuildInv E bs chunkX sectionY chunkZ (E.NewSource (sectionSeed chunkX chunkZ)))
    voxelOrder (fun pre a post _ s s' hP hs => voxelStep_inv hP hs) _ _
    (buildInv_init E bs chunkX sectionY chunkZ) h

/-- The loop of `build` completes when no voxel of the section makes
`r.Intn` panic. -/
theorem buildLoop_some (E : Env) (bs : blocksSnapshot) (chunkX sectionY chunkZ : Int)
    (hgood : ∀ p, inSection p → ¬ badVoxel bs p) :
    ∃ st, buildLoop E bs chunkX sectionY chunkZ (buildState.init E chunkX chunkZ) = some st := by
  have := foldlM_prefix_total
    (fun st p => voxelStep E bs chunkX sectionY chunkZ st p.X p.Y p.Z)
    (fun _ (_ : buildState E) => True) voxelOrder
    (by
      intro pre a post hl s _
      have ha : a ∈ voxelOrder := by
        rw [hl]
        exact List.mem_append.mpr (Or.inr (List.mem_cons_self _ _))
      obtain ⟨s', hs'⟩ := voxelStep_some E bs chunkX sectionY chunkZ a
        (hgood a ((mem_voxelOrder a).mp ha)) s
      exact ⟨s', hs', trivial⟩)
    (buildState.init E chunkX chunkZ) trivial
  obtain ⟨st, hst, _⟩ := this
  exact ⟨st, by rw [buildLoop_flat]; exact hst⟩

/-- The loop of `build` panics when some voxel of the section holds a block
that is neither air nor a liquid and has no model variant. -/
theorem buildLoop_none (E : Env) (bs : blocksSnapshot) (chunkX sectionY chunkZ : Int)
    (p : position) (hp : inSection p) (hbad : badVoxel bs p) (st : buildState E) :
    buildLoop E bs chunkX sectionY chunkZ st = none := by
  rw [buildLoop_flat]
  exact foldlM_none _ voxelOrder p ((mem_voxelOrder p).mpr hp)
    (fun s => voxelStep_none E bs chunkX sectionY chunkZ p hbad s) st

theorem lookup_cons_ne {q p : position} (h : q ≠ p) (i : Nat) (l : List (position × Nat)) :
    List.lookup q ((p, i) :: l) = List.lookup q l := by
  have hb : (q == p) = false := by simpa using h
  rw [List.lookup_cons, hb]

theorem lookup_cons_self (q : position) (i : Nat) (l : List (position × Nat)) :
    List.lookup q ((q, i) :: l) = some i := by
  have hb : (q == q) = true := by simp
  rw [List.lookup_cons, hb]

theorem pickOf_fst {E : Env} {bs : blocksSnapshot} {r0 : E.G} {kq : Nat × position}
    {u : position × Nat} (h : pickOf E bs r0 kq = some u) : u.1 = kq.2 := by
  unfold pickOf at h
  split at h
  · exact Option.noConfusion h
  · simp only [Option.some.injEq] at h
    rw [← h]

/-- The variant index of a voxel does not depend on the block at another
voxel. -/
theorem lookup_picks_congr (E : Env) (bs bs' : blocksSnapshot) (r0 : E.G) (p q : position)
    (hq : q ≠ p)
    (hsame : ∀ u : position, u ≠ p → bs'.block u.X u.Y u.Z = bs.block u.X u.Y u.Z) :
    ∀ l : List (Nat × position),
      List.lookup q (l.filterMap (pickOf E bs' r0)) =
        List.lookup q (l.filterMap (pickOf E bs r0)) := by
  intro l
  induction l with
  | nil => rfl
  | cons kq l ih =>
    by_cases hu : kq.2 = p
    · have skip : ∀ b : blocksSnapshot,
          List.lookup q ((kq :: l).filterMap (pickOf E b r0)) =
            List.lookup q (l.filterMap (pickOf E b r0)) := by
        intro b
        cases hpk : pickOf E b r0 kq with
        | none => rw [List.filterMap_cons_none hpk]
        | some u =>
          rw [List.filterMap_cons_some hpk]
          have h1 : u.1 = p := by rw [pickOf_fst hpk, hu]
          obtain ⟨u1, u2⟩ := u
          simp only at h1
          subst h1
          exact lookup_cons_ne hq _ _
      rw [skip bs', skip bs, ih]
    · have hsame' : pickOf E bs' r0 kq = pickOf E bs r0 kq := by
        unfold pickOf
        rw [hsame kq.2 hu]
      cases hpk : pickOf E bs r0 kq with
      | none =>
        rw [List.filterMap_cons_none hpk, List.filterMap_cons_none (hsame'.trans hpk), ih]
      | some u =>
        rw [List.filterMap_cons_some hpk, List.filterMap_cons_some (hsame'.trans hpk)]
        obtain ⟨u1, u2⟩ := u
        by_cases hqu : q = u1
        · subst hqu
          rw [lookup_cons_self, lookup_cons_self]
        · rw [lookup_cons_ne hqu, lookup_cons_ne hqu, ih]

/-- A modeled voxel of the list has a variant index. -/
theorem lookup_picks_isSome (E : Env) (bs : blocksSnapshot) (r0 : E.G) (q : position)
    (hair : (bs.block q.X q.Y q.Z).isAir = false)
    (hliq : (bs.block q.X q.Y q.Z).isLiquid = false) :
    ∀ l : List (Nat × position), q ∈ l.map Prod.snd →
      (List.lookup q (l.filterMap (pickOf E bs r0))).isSome = true := by
  intro l
  induction l with
  | nil => intro h; exact absurd h (List.not_mem_nil q)
  | cons kq l ih =>
    intro h
    cases hpk : pickOf E bs r0 kq with
    | none =>
      rw [List.filterMap_cons_none hpk]
      rw [List.map_cons, List.mem_cons] at h
      rcases h with h | h
      · exfalso
        unfold pickOf at hpk
        rw [← h] at hpk
        simp [hair, hliq] at hpk
      · exact ih h
    | some u =>
      rw [List.filterMap_cons_some hpk]
      obtain ⟨u1, u2⟩ := u
      by_cases hqu : q = u1
      · subst hqu
        rw [lookup_cons_self]
        rfl
      · rw [lookup_cons_ne hqu]
        rw [List.map_cons, List.mem_cons] at h
        rcases h with h | h
        · exact absurd (h.trans (pickOf_fst hpk).symm) hqu
        · exact ih h

theorem voxelStep_draw {E : Env} {bs : blocksSnapshot} {chunkX sectionY chunkZ : Int}
    {st st' : buildState E} {x y z : Int}
    (h : voxelStep E bs chunkX sectionY chunkZ st x y z = some st') :
    st'.draws = st.draws + 1 ∧ st'.r = E.next st.r ∧ st'.trace = st.trace ++ [⟨x, y, z⟩] := by
  unfold voxelStep at h
  simp only at h
  by_cases hair : (bs.block x y z).isAir = true
  · simp only [hair, if_true, Option.some.injEq] at h
    subst h
    exact ⟨rfl, rfl, rfl⟩
  · by_cases hliq : (bs.block x y z).isLiquid = true
    · simp only [hair, Bool.false_eq_true, if_false, hliq, if_true, Option.some.injEq] at h
      subst h
      exact ⟨rfl, rfl, rfl⟩
    · by_cases hm : (bs.block x y z).Models.length = 0
      · simp [hair, hliq, Env.rIntn, hm] at h
      · simp only [hair, Bool.false_eq_true, if_false, hliq, Env.rIntn, hm] at h
        cases hsel : selectModel (bs.block x y z).Models
            (E.intnValue st.r (bs.block x y z).Models.length) with
        | none =>
          simp only [hsel, Option.some.injEq] at h
          subst h
          exact ⟨rfl, rfl, rfl⟩
        | some v =>
          simp only [hsel, Option.some.injEq] at h
          subst h
          exact ⟨rfl, rfl, rfl⟩

theorem onFace_boundary {d : Direction} {p : position} (h : onFace d p) :
    p.X = 0 ∨ p.X = 15 ∨ p.Y = 0 ∨ p.Y = 15 ∨ p.Z = 0 ∨ p.Z = 15 := by
  cases d <;> simp only [onFace] at h <;> simp [h]

theorem singleton_isRegion (bs : blocksSnapshot) (p : position) (hp : isOpen bs p) :
    IsRegion bs {p} := by
  refine ⟨fun q hq => by rw [Set.mem_singleton_iff.mp hq]; exact hp, ?_⟩
  intro a ha b hb
  rw [Set.mem_singleton_iff.mp ha, Set.mem_singleton_iff.mp hb]

/-- The layer `y = 0` holds a voxel on every face but `Up`. -/
theorem lowerBox_zero_face (d : Direction) (hd : d ≠ Direction.Up) :
    ∃ v ∈ lowerBox 0, onFace d v := by
  cases d
  · exact absurd rfl hd
  · exact ⟨⟨0, 0, 0⟩, ⟨by decide, by decide⟩, rfl⟩
  · exact ⟨⟨0, 0, 0⟩, ⟨by decide, by decide⟩, rfl⟩
  · exact ⟨⟨0, 0, 15⟩, ⟨by decide, by decide⟩, rfl⟩
  · exact ⟨⟨0, 0, 0⟩, ⟨by decide, by decide⟩, rfl⟩
  · exact ⟨⟨15, 0, 0⟩, ⟨by decide, by decide⟩, rfl⟩

/-! ## Properties of the visibility bitmask and of the loop of `build` -/

/-- C1: for every block snapshot and every pair of faces `(from, to)`,
`buildCullBits` returns a bitmask, and its bit `from*6 + to` is set if and
only if there is a 6-connected region of non-culling voxels inside `[0,15]^3`
that holds a voxel on outer face `from` and a voxel on outer face `to`. -/
theorem buildCullBits_bit_iff_region (bs : blocksSnapshot) (dFrom dTo : Direction) :
    ∃ bits, buildCullBits bs = some bits ∧
      (bits.testBit (dFrom.toNat * 6 + dTo.toNat) = true ↔
        ∃ S : Set position, IsRegion bs S ∧ (∃ v ∈ S, onFace dFrom v) ∧
          (∃ w ∈ S, onFace dTo w)) := by
  obtain ⟨bits, hrun, hpair, _⟩ := buildCullBits_pair bs
  exact ⟨bits, hrun, hpair dFrom dTo⟩

/-- C2: for every block snapshot and every pair of faces `a`, `b`, bit
`a*6 + b` of the result of `buildCullBits` is set exactly when bit `b*6 + a`
is set. -/
theorem buildCullBits_symmetric (bs : blocksSnapshot) :
    ∃ bits, buildCullBits bs = some bits ∧
      ∀ a b : Direction, bits.testBit (a.toNat * 6 + b.toNat) = true ↔
        bits.testBit (b.toNat * 6 + a.toNat) = true := by
  obtain ⟨bits, hrun, hpair, _⟩ := buildCullBits_pair bs
  refine ⟨bits, hrun, ?_⟩
  intro a b
  rw [hpair a b, hpair b a]
  exact ⟨visible_symm, visible_symm⟩

/-- C3: for every block snapshot and every face `F`, if a non-culling voxel
of the section lies on outer face `F`, bit `F*6 + F` of the result of
`buildCullBits` is set. -/
theorem buildCullBits_self_visible (bs : blocksSnapshot) (F : Direction)
    (h : ∃ p, inSection p ∧ (bs.block p.X p.Y p.Z).ShouldCullAgainst = false ∧ onFace F p) :
    ∃ bits, buildCullBits bs = some bits ∧
      bits.testBit (F.toNat * 6 + F.toNat) = true := by
  obtain ⟨bits, hrun, hpair, _⟩ := buildCullBits_pair bs
  obtain ⟨p, hs, hc, hf⟩ := h
  refine ⟨bits, hrun, (hpair F F).mpr ?_⟩
  exact ⟨{p}, singleton_isRegion bs p ⟨hs, hc⟩, ⟨p, rfl, hf⟩, ⟨p, rfl, hf⟩⟩

theorem buildCullBits_self_visible_witness :
    (∃ p, inSection p ∧ (emptySection.block p.X p.Y p.Z).ShouldCullAgainst = false ∧
      onFace Direction.East p) ∧
    ∃ bits, buildCullBits emptySection = some bits ∧
      bits.testBit (Direction.East.toNat * 6 + Direction.East.toNat) = true :=
  ⟨⟨⟨15, 3, 7⟩, by decide, rfl, rfl⟩,
    buildCullBits_self_visible emptySection Direction.East ⟨⟨15, 3, 7⟩, by decide, rfl, rfl⟩⟩

/-- C4: for every block snapshot in which every voxel on the six outer faces
of the section (a coordinate equal to 0 or 15) is culling, whatever the
interior voxels are, `buildCullBits` returns 0. -/
theorem buildCullBits_enclosed_zero (bs : blocksSnapshot)
    (h : ∀ p, inSection p →
      (p.X = 0 ∨ p.X = 15 ∨ p.Y = 0 ∨ p.Y = 15 ∨ p.Z = 0 ∨ p.Z = 15) →
      (bs.block p.X p.Y p.Z).ShouldCullAgainst = true) :
    buildCullBits bs = some 0 := by
  obtain ⟨bits, hrun, hpair, hform⟩ := buildCullBits_pair bs
  rw [hrun]
  congr 1
  apply Nat.eq_of_testBit_eq
  intro n
  rw [Nat.zero_testBit, ← Bool.not_eq_true]
  intro hn
  obtain ⟨a, b, rfl⟩ := hform n hn
  obtain ⟨S, hS, ⟨v, hv, hva⟩, _⟩ := (hpair a b).mp hn
  have hopen := hS.isOpen v hv
  have hcull := h v hopen.1 (onFace_boundary hva)
  rw [hopen.2] at hcull
  exact Bool.noConfusion hcull

theorem buildCullBits_enclosed_zero_witness :
    (∀ p, inSection p →
      (p.X = 0 ∨ p.X = 15 ∨ p.Y = 0 ∨ p.Y = 15 ∨ p.Z = 0 ∨ p.Z = 15) →
      (solidSection.block p.X p.Y p.Z).ShouldCullAgainst = true) ∧
    buildCullBits solidSection = some 0 :=
  ⟨fun _ _ _ => rfl, buildCullBits_enclosed_zero solidSection (fun _ _ _ => rfl)⟩

/-- C5, as stated, fails: on the section of air, whose blocks are not
culling, the bitmask of `buildCullBits` is not zero; all 36 bits are set. -/
theorem buildCullBits_air_nonzero :
    (∀ x y z, (emptySection.block x y z).isAir = true ∧
      (emptySection.block x y z).ShouldCullAgainst = false) ∧
    buildCullBits emptySection = some 68719476735 ∧
    buildCullBits emptySection ≠ some 0 := by
  have h := buildCullBits_allOpen emptySection (fun _ _ => rfl)
  refine ⟨fun _ _ _ => ⟨rfl, rfl⟩, h, ?_⟩
  rw [h]
  decide

/-- C5, amended: for a section whose 4096 voxels are all air (air being a
block that is not culling), the bitmask of `buildCullBits` has all 36 bits
`a*6 + b` set: it is `2^36 - 1`. -/
theorem buildCullBits_air_full (bs : blocksSnapshot)
    (h : ∀ p, inSection p → (bs.block p.X p.Y p.Z).isAir = true ∧
      (bs.block p.X p.Y p.Z).ShouldCullAgainst = false) :
    buildCullBits bs = some (2 ^ 36 - 1) :=
  buildCullBits_allOpen bs (fun p hp => (h p hp).2)

theorem buildCullBits_air_full_witness :
    (∀ p, inSection p → (emptySection.block p.X p.Y p.Z).isAir = true ∧
      (emptySection.block p.X p.Y p.Z).ShouldCullAgainst = false) ∧
    buildCullBits emptySection = some (2 ^ 36 - 1) :=
  ⟨fun _ _ => ⟨rfl, rfl⟩, buildCullBits_air_full emptySection (fun _ _ => ⟨rfl, rfl⟩)⟩

/-- C7: for a section in which all 256 voxels with `y = 0` are non-culling
and all voxels with `y >= 1` are culling, the bitmask of `buildCullBits` has
bit `a*6 + b` set for every `a`, `b` among Down, North, South, East, West and
has no bit set whose from or to face is Up. -/
theorem buildCullBits_slab (bs : blocksSnapshot)
    (hslab : ∀ p, inSection p → p.Y = 0 → (bs.block p.X p.Y p.Z).ShouldCullAgainst = false)
    (hrest : ∀ p, inSection p → 1 ≤ p.Y → (bs.block p.X p.Y p.Z).ShouldCullAgainst = true) :
    ∃ bits, buildCullBits bs = some bits ∧
      (∀ a b : Direction, a ≠ Direction.Up → b ≠ Direction.Up →
        bits.testBit (a.toNat * 6 + b.toNat) = true) ∧
      (∀ a : Direction, bits.testBit (Direction.Up.toNat * 6 + a.toNat) = false ∧
        bits.testBit (a.toNat * 6 + Direction.Up.toNat) = false) := by
  obtain ⟨bits, hrun, hpair, _⟩ := buildCullBits_pair bs
  have hreg : IsRegion bs (lowerBox 0) :=
    lowerBox_isRegion bs 0 (fun p hp hy => hslab p hp (le_antisymm hy hp.2.2.1))
  have hup : ∀ S : Set position, IsRegion bs S → ¬ ∃ v ∈ S, onFace Direction.Up v := by
    rintro S hS ⟨v, hv, hf⟩
    have hopen := hS.isOpen v hv
    have hcull := hrest v hopen.1 (by simp only [onFace] at hf; omega)
    rw [hopen.2] at hcull
    exact Bool.noConfusion hcull
  refine ⟨bits, hrun, ?_, ?_⟩
  · intro a b ha hb
    exact (hpair a b).mpr ⟨lowerBox 0, hreg, lowerBox_zero_face a ha, lowerBox_zero_face b hb⟩
  · intro a
    constructor
    · rw [← Bool.not_eq_true]
      intro hn
      obtain ⟨S, hS, hv, _⟩ := (hpair Direction.Up a).mp hn
      exact hup S hS hv
    · rw [← Bool.not_eq_true]
      intro hn
      obtain ⟨S, hS, _, hw⟩ := (hpair a Direction.Up).mp hn
      exact hup S hS hw

theorem buildCullBits_slab_witness :
    (∀ p, inSection p → p.Y = 0 →
      (slabSection.block p.X p.Y p.Z).ShouldCullAgainst = false) ∧
    (∀ p, inSection p → 1 ≤ p.Y →
      (slabSection.block p.X p.Y p.Z).ShouldCullAgainst = true) ∧
    ∃ bits, buildCullBits slabSection = some bits ∧
      (∀ a b : Direction, a ≠ Direction.Up → b ≠ Direction.Up →
        bits.testBit (a.toNat * 6 + b.toNat) = true) ∧
      (∀ a : Direction, bits.testBit (Direction.Up.toNat * 6 + a.toNat) = false ∧
        bits.testBit (a.toNat * 6 + Direction.Up.toNat) = false) :=
  ⟨fun p _ hy => by simp [slabSection, hy, airBlock],
    fun p _ hy => by simp [slabSection, hy, stoneBlock],
    buildCullBits_slab slabSection
      (fun p _ hy => by simp [slabSection, hy, airBlock])
      (fun p _ hy => by simp [slabSection, hy, stoneBlock])⟩

/-- C6: for a section whose 4096 voxels are all air, the per-voxel loop of
`build` completes, leaves both streams empty, records no Translucency Record
and consumes exactly 4096 pseudo-random draws. -/
theorem buildLoop_air_empty (E : Env) (bs : blocksSnapshot) (chunkX sectionY chunkZ : Int)
    (h : ∀ p, inSection p → (bs.block p.X p.Y p.Z).isAir = true) :
    ∃ st, buildLoop E bs chunkX sectionY chunkZ (buildState.init E chunkX chunkZ) = some st ∧
      st.bO = [] ∧ st.bT = [] ∧ st.tInfo = [] ∧ st.draws = 4096 := by
  have hgood : ∀ p, inSection p → ¬ badVoxel bs p := by
    intro p hp hbad
    have h1 := h p hp
    rw [hbad.1] at h1
    exact Bool.noConfusion h1
  obtain ⟨st, hst⟩ := buildLoop_some E bs chunkX sectionY chunkZ hgood
  have hinv := buildLoop_inv E bs chunkX sectionY chunkZ st hst
  obtain ⟨h1, h2, h3⟩ := hinv.quiet (fun p hp => h p ((mem_voxelOrder p).mp hp))
  exact ⟨st, hst, h1, h2, h3, by rw [hinv.draws, length_voxelOrder]⟩

theorem buildLoop_air_empty_witness :
    (∀ p, inSection p → (emptySection.block p.X p.Y p.Z).isAir = true) ∧
    ∃ st, buildLoop sampleEnv emptySection 3 1 (-2) (buildState.init sampleEnv 3 (-2)) =
        some st ∧
      st.bO = [] ∧ st.bT = [] ∧ st.tInfo = [] ∧ st.draws = 4096 :=
  ⟨fun _ _ => rfl, buildLoop_air_empty sampleEnv emptySection 3 1 (-2) (fun _ _ => rfl)⟩

/-- C8, the failing input: a section of blocks that are neither air nor
liquid and have no model variant.  The voxel at `(0, 0, 0)` does not consume
one random value and go on, as the comments at the two `r.Int()` calls intend
for every voxel: `r.Intn(0)` panics there, the loop of `build` does not
complete and 4096 random values are not consumed. -/
theorem buildLoop_unmodeled_panics :
    buildLoop sampleEnv unmodeledSection 0 0 0 (buildState.init sampleEnv 0 0) = none ∧
    ¬ ∃ st, buildLoop sampleEnv unmodeledSection 0 0 0 (buildState.init sampleEnv 0 0) =
        some st ∧ st.draws = 4096 := by
  have h := buildLoop_none sampleEnv unmodeledSection 0 0 0 ⟨0, 0, 0⟩ (by decide)
    ⟨rfl, rfl, rfl⟩ (buildState.init sampleEnv 0 0)
  refine ⟨h, ?_⟩
  rintro ⟨st, hst, _⟩
  rw [h] at hst
  exact Option.noConfusion hst

/-- Where every voxel of the section that is neither air nor a liquid has at
least one model variant, every voxel visited consumes exactly one random value
of the generator (`r.Int` for air and for a liquid, `r.Intn(len(Models))` for
a modeled block), and the loop of `build` completes, having visited the 4096
voxels in the order y outer, x middle, z inner and consumed exactly 4096
random values. -/
theorem buildLoop_one_draw_per_voxel (E : Env) (bs : blocksSnapshot)
    (chunkX sectionY chunkZ : Int)
    (hgood : ∀ p, inSection p → (bs.block p.X p.Y p.Z).isAir = false →
      (bs.block p.X p.Y p.Z).isLiquid = false → (bs.block p.X p.Y p.Z).Models ≠ []) :
    (∀ (st st' : buildState E) (x y z : Int),
      voxelStep E bs chunkX sectionY chunkZ st x y z = some st' →
        st'.draws = st.draws + 1 ∧ st'.r = E.next st.r ∧
          st'.trace = st.trace ++ [⟨x, y, z⟩]) ∧
    ∃ st, buildLoop E bs chunkX sectionY chunkZ (buildState.init E chunkX chunkZ) = some st ∧
      st.trace = voxelOrder ∧ st.draws = 4096 ∧
      st.r = E.next^[4096] (E.NewSource (sectionSeed chunkX chunkZ)) := by
  refine ⟨fun st st' x y z hstep => voxelStep_draw hstep, ?_⟩
  obtain ⟨st, hst⟩ := buildLoop_some E bs chunkX sectionY chunkZ
    (fun p hp hbad => hgood p hp hbad.1 hbad.2.1 hbad.2.2)
  have hinv := buildLoop_inv E bs chunkX sectionY chunkZ st hst
  refine ⟨st, hst, hinv.trace, ?_, ?_⟩
  · rw [hinv.draws, length_voxelOrder]
  · rw [hinv.gen, length_voxelOrder]

theorem buildLoop_one_draw_per_voxel_witness :
    (∀ p, inSection p → (glassSection.block p.X p.Y p.Z).isAir = false →
      (glassSection.block p.X p.Y p.Z).isLiquid = false →
      (glassSection.block p.X p.Y p.Z).Models ≠ []) ∧
    ((∀ (st st' : buildState sampleEnv) (x y z : Int),
      voxelStep sampleEnv glassSection 0 0 0 st x y z = some st' →
        st'.draws = st.draws + 1 ∧ st'.r = sampleEnv.next st.r ∧
          st'.trace = st.trace ++ [⟨x, y, z⟩]) ∧
    ∃ st, buildLoop sampleEnv glassSection 0 0 0 (buildState.init sampleEnv 0 0) = some st ∧
      st.trace = voxelOrder ∧ st.draws = 4096 ∧
      st.r = sampleEnv.next^[4096] (sampleEnv.NewSource (sectionSeed 0 0))) :=
  ⟨fun _ _ _ _ => by simp [glassSection, glassBlock],
    buildLoop_one_draw_per_voxel sampleEnv glassSection 0 0 0
      (fun _ _ _ _ => by simp [glassSection, glassBlock])⟩

theorem set_block_ne (bs : blocksSnapshot) (p : position) (b : Block) (u : position)
    (hu : u ≠ p) : (bs.set p b).block u.X u.Y u.Z = bs.block u.X u.Y u.Z := by
  cases u
  simp only [blocksSnapshot.set, hu, if_false]

theorem set_block_self (bs : blocksSnapshot) (p : position) (b : Block) :
    (bs.set p b).block p.X p.Y p.Z = b := by
  cases p
  simp only [blocksSnapshot.set, if_true]

/-- The variant index of a voxel is unchanged when a voxel of air elsewhere
gets a block on which the generator does not panic. -/
theorem variantIndex_set (E : Env) (bs : blocksSnapshot) (chunkX sectionY chunkZ : Int)
    (p : position) (b : Block) (hp : (bs.block p.X p.Y p.Z).isAir = true)
    (hb : b.isLiquid = true ∨ b.Models ≠ []) (q : position) (hq : q ≠ p) :
    variantIndex E (bs.set p b) chunkX sectionY chunkZ q =
      variantIndex E bs chunkX sectionY chunkZ q := by
  have hbad : ∀ u, badVoxel (bs.set p b) u ↔ badVoxel bs u := by
    intro u
    by_cases hu : u = p
    · subst hu
      constructor
      · rintro ⟨_, h2, h3⟩
        rw [set_block_self] at h2 h3
        rcases hb with hb | hb
        · rw [hb] at h2
          exact Bool.noConfusion h2
        · exact absurd h3 hb
      · rintro ⟨h1, _, _⟩
        rw [hp] at h1
        exact Bool.noConfusion h1
    · unfold badVoxel
      rw [set_block_ne bs p b u hu]
  unfold variantIndex
  by_cases hex : ∃ u, inSection u ∧ badVoxel bs u
  · obtain ⟨u, hu, hbu⟩ := hex
    rw [buildLoop_none E bs chunkX sectionY chunkZ u hu hbu,
      buildLoop_none E (bs.set p b) chunkX sectionY chunkZ u hu ((hbad u).mpr hbu)]
  · have hgood : ∀ u, inSection u → ¬ badVoxel bs u := fun u hu hbu => hex ⟨u, hu, hbu⟩
    obtain ⟨st, hst⟩ := buildLoop_some E bs chunkX sectionY chunkZ hgood
    obtain ⟨st', hst'⟩ := buildLoop_some E (bs.set p b) chunkX sectionY chunkZ
      (fun u hu hbu => hgood u hu ((hbad u).mp hbu))
    rw [hst, hst']
    simp only
    rw [(buildLoop_inv E bs chunkX sectionY chunkZ st hst).picks,
      (buildLoop_inv E (bs.set p b) chunkX sectionY chunkZ st' hst').picks]
    exact lookup_picks_congr E bs (bs.set p b) _ p q hq (set_block_ne bs p b) _

/-- C9, the failing input: a section of air with one stone block at
`(0, 0, 1)`, in which the air at `(0, 0, 0)` is replaced by a block that is
not air, not a liquid and has no model variant.  The variant of the stone
block does change, against the comment at the `r.Int()` call for air:
`r.Intn(0)` panics at `(0, 0, 0)`, and the stone block, which had a variant
index, gets none. -/
theorem variantIndex_lost_on_panic :
    (loneBlockSection.block 0 0 0).isAir = true ∧ unmodeledBlock.isAir = false ∧
    (⟨0, 0, 1⟩ : position) ≠ ⟨0, 0, 0⟩ ∧
    (variantIndex sampleEnv loneBlockSection 0 0 0 ⟨0, 0, 1⟩).isSome = true ∧
    variantIndex sampleEnv (loneBlockSection.set ⟨0, 0, 0⟩ unmodeledBlock) 0 0 0 ⟨0, 0, 1⟩ =
      none := by
  refine ⟨rfl, rfl, by decide, ?_, ?_⟩
  · have hgood : ∀ u, inSection u → ¬ badVoxel loneBlockSection u := by
      rintro u _ ⟨h1, _, h3⟩
      simp only [loneBlockSection] at h1 h3
      by_cases hc : u.X = 0 ∧ u.Y = 0 ∧ u.Z = 1
      · rw [if_pos hc] at h3
        exact absurd h3 (by simp [stoneBlock])
      · rw [if_neg hc] at h1
        exact absurd h1 (by simp [airBlock])
    obtain ⟨st, hst⟩ := buildLoop_some sampleEnv loneBlockSection 0 0 0 hgood
    unfold variantIndex
    rw [hst]
    simp only
    rw [(buildLoop_inv sampleEnv loneBlockSection 0 0 0 st hst).picks]
    apply lookup_picks_isSome sampleEnv loneBlockSection _ ⟨0, 0, 1⟩ rfl rfl
    rw [List.enum_map_snd]
    exact (mem_voxelOrder _).mpr (by decide)
  · unfold variantIndex
    rw [buildLoop_none sampleEnv (loneBlockSection.set ⟨0, 0, 0⟩ unmodeledBlock) 0 0 0
      ⟨0, 0, 0⟩ (by decide) ⟨rfl, rfl, rfl⟩]

/-- For every section (fixed chunk X, Z) and every voxel position `p` that
holds air, replacing the block at `p` by a block that is not air and is a
liquid or has at least one model variant leaves the variant index selected by
`build` for every other voxel `q != p` unchanged. -/
theorem variantIndex_isolated (E : Env) (bs : blocksSnapshot) (chunkX sectionY chunkZ : Int)
    (p : position) (b : Block) (hp : (bs.block p.X p.Y p.Z).isAir = true)
    (_hnotair : b.isAir = false) (hb : b.isLiquid = true ∨ b.Models ≠ [])
    (q : position) (hq : q ≠ p) :
    variantIndex E (bs.set p b) chunkX sectionY chunkZ q =
      variantIndex E bs chunkX sectionY chunkZ q :=
  variantIndex_set E bs chunkX sectionY chunkZ p b hp hb q hq

theorem variantIndex_isolated_witness :
    (loneBlockSection.block 0 0 0).isAir = true ∧ glassBlock.isAir = false ∧
    (glassBlock.isLiquid = true ∨ glassBlock.Models ≠ []) ∧
    (⟨0, 0, 1⟩ : position) ≠ ⟨0, 0, 0⟩ ∧
    variantIndex sampleEnv (loneBlockSection.set ⟨0, 0, 0⟩ glassBlock) 0 0 0 ⟨0, 0, 1⟩ =
      variantIndex sampleEnv loneBlockSection 0 0 0 ⟨0, 0, 1⟩ :=
  ⟨rfl, rfl, Or.inr (by decide), by decide,
    variantIndex_isolated sampleEnv loneBlockSection 0 0 0 ⟨0, 0, 0⟩ glassBlock rfl rfl
      (Or.inr (by decide)) ⟨0, 0, 1⟩ (by decide)⟩

/-- C10: for every build whose loop completes, the Translucency Records of
`tInfo` follow the traversal order and have strictly increasing, pairwise
non-overlapping byte ranges in the translucent stream: every record has
`Count > 0`, every record's `Offset` is at least `Offset + Count` of each
record before it, and every range `[Offset, Offset+Count)` lies within the
final translucent buffer. -/
theorem buildLoop_records_sorted (E : Env) (bs : blocksSnapshot)
    (chunkX sectionY chunkZ : Int) (st : buildState E)
    (h : buildLoop E bs chunkX sectionY chunkZ (buildState.init E chunkX chunkZ) = some st) :
    (∀ a ∈ st.tInfo, 0 < a.Count ∧ 0 ≤ a.Offset ∧ a.Offset + a.Count ≤ st.bT.length) ∧
    st.tInfo.Pairwise (fun a b => a.Offset + a.Count ≤ b.Offset) ∧
    (st.tInfo.map (fun a => (a.X, a.Y, a.Z))).Sublist
      (voxelOrder.map (worldOf chunkX sectionY chunkZ)) := by
  have hinv := buildLoop_inv E bs chunkX sectionY chunkZ st h
  exact ⟨hinv.records, hinv.sorted, hinv.order⟩

theorem buildLoop_records_sorted_witness :
    ∃ st, buildLoop sampleEnv glassSection 0 0 0 (buildState.init sampleEnv 0 0) = some st ∧
      (∀ a ∈ st.tInfo, 0 < a.Count ∧ 0 ≤ a.Offset ∧ a.Offset + a.Count ≤ st.bT.length) ∧
      st.tInfo.Pairwise (fun a b => a.Offset + a.Count ≤ b.Offset) ∧
      (st.tInfo.map (fun a => (a.X, a.Y, a.Z))).Sublist
        (voxelOrder.map (worldOf 0 0 0)) := by
  obtain ⟨st, hst⟩ := buildLoop_some sampleEnv glassSection 0 0 0
    (fun _ _ hbad => absurd hbad.2.2 (by simp [glassSection, glassBlock]))
  exact ⟨st, hst, buildLoop_records_sorted sampleEnv glassSection 0 0 0 st hst⟩

/-! ## Vertex records -/

theorem buildVertex_eq (b : List Nat) (v : chunkVertex) :
    buildVertex b v = b ++ vertexBytes v := by
  simp [buildVertex, vertexBytes, Short, UnsignedShort, UnsignedByte]

/-- C11: for every buffer and every `chunkVertex`, `buildVertex` keeps the
bytes already in the buffer and appends exactly 23 bytes: the encodings of
X, Y, Z (two bytes each), TX, TY, TW, TH (two bytes each), TOffsetX, TOffsetY
(two bytes each), then R, G, B, BlockLight, SkyLight (one byte each), in that
order. -/
theorem buildVertex_appends_record (b : List Nat) (v : chunkVertex) :
    buildVertex b v =
      b ++ (Short [] v.X ++ Short [] v.Y ++ Short [] v.Z ++
        UnsignedShort [] v.TX ++ UnsignedShort [] v.TY ++ UnsignedShort [] v.TW ++
        UnsignedShort [] v.TH ++ Short [] v.TOffsetX ++ Short [] v.TOffsetY ++
        UnsignedByte [] v.R ++ UnsignedByte [] v.G ++ UnsignedByte [] v.B ++
        UnsignedByte [] v.BlockLight ++ UnsignedByte [] v.SkyLight) ∧
    (buildVertex b v).take b.length = b ∧
    (buildVertex b v).length = b.length + 23 ∧
    (∀ x : Int, (Short [] x).length = 2) ∧ (∀ x : Nat, (UnsignedShort [] x).length = 2) ∧
    (∀ x : Nat, (UnsignedByte [] x).length = 1) := by
  refine ⟨buildVertex_eq b v, ?_, length_buildVertex b v, fun _ => rfl, fun _ => rfl,
    fun _ => rfl⟩
  rw [buildVertex_eq, List.take_left']
  rfl

/-! ## Voxels that cannot be represented -/

/-- A voxel whose selected variant is nil is skipped: nothing is written and
no record is made, and the loop goes on. -/
theorem voxelStep_nil_variant (E : Env) (bs : blocksSnapshot) (chunkX sectionY chunkZ : Int)
    (st : buildState E) (x y z : Int)
    (hair : (bs.block x y z).isAir = false) (hliq : (bs.block x y z).isLiquid = false)
    (hm : (bs.block x y z).Models ≠ [])
    (hsel : selectModel (bs.block x y z).Models
      (E.intnValue st.r (bs.block x y z).Models.length) = none) :
    ∃ st', voxelStep E bs chunkX sectionY chunkZ st x y z = some st' ∧
      st'.bO = st.bO ∧ st'.bT = st.bT ∧ st'.tInfo = st.tInfo := by
  have hlen : (bs.block x y z).Models.length ≠ 0 := fun h => hm (List.length_eq_zero.mp h)
  unfold voxelStep
  simp only [hair, Bool.false_eq_true, if_false, hliq, Env.rIntn, hlen, hsel]
  exact ⟨_, rfl, rfl, rfl, rfl⟩

/-- C13, the failing input: one block that is neither air nor a liquid and
has an empty variant list, at `(5, 0, 3)` in a section of air.  The voxel is
not skipped: `r.Intn(0)` panics there, whatever the state of the loop, and the
loop of `build` does not complete. -/
theorem buildLoop_aborts_on_empty_variants :
    (∀ st : buildState sampleEnv, voxelStep sampleEnv holeSection 0 0 0 st 5 0 3 = none) ∧
    buildLoop sampleEnv holeSection 0 0 0 (buildState.init sampleEnv 0 0) = none :=
  ⟨fun st => voxelStep_none sampleEnv holeSection 0 0 0 ⟨5, 0, 3⟩ ⟨rfl, rfl, rfl⟩ st,
    buildLoop_none sampleEnv holeSection 0 0 0 ⟨5, 0, 3⟩ (by decide) ⟨rfl, rfl, rfl⟩ _⟩

/-! ## The records tile the translucent stream -/

theorem tiles_append (a : ObjectInfo) :
    ∀ (l : List ObjectInfo) (start mid : Int), Tiles start l mid → a.Offset = mid →
      0 < a.Count → (23 : Int) ∣ a.Count → Tiles start (l ++ [a]) (mid + a.Count) := by
  intro l
  induction l with
  | nil =>
    intro start mid h ho hc hd
    simp only [Tiles] at h
    subst h
    exact ⟨ho, hc, hd, by rw [← ho]; rfl⟩
  | cons b l ih =>
    intro start mid h ho hc hd
    obtain ⟨h1, h2, h3, h4⟩ := h
    exact ⟨h1, h2, h3, ih _ _ h4 ho hc hd⟩

/-- What a tiling says record by record. -/
theorem tiles_explicit :
    ∀ (l : List ObjectInfo) (start stop : Int), Tiles start l stop →
      (∀ a ∈ l, 0 < a.Count ∧ (23 : Int) ∣ a.Count) ∧
      (l = [] → start = stop) ∧
      (∀ a, l.head? = some a → a.Offset = start) ∧
      l.Chain' (fun a b => b.Offset = a.Offset + a.Count) ∧
      (∀ a, l.getLast? = some a → a.Offset + a.Count = stop) := by
  intro l
  induction l with
  | nil =>
    intro start stop h
    simp only [Tiles] at h
    refine ⟨?_, fun _ => h, ?_, List.chain'_nil, ?_⟩
    · intro a ha
      exact absurd ha (List.not_mem_nil a)
    · intro a ha
      simp at ha
    · intro a ha
      simp at ha
  | cons b l ih =>
    intro start stop h
    obtain ⟨h1, h2, h3, h4⟩ := h
    obtain ⟨i1, i2, i3, i4, i5⟩ := ih _ _ h4
    refine ⟨?_, ?_, ?_, ?_, ?_⟩
    · intro a ha
      rcases List.mem_cons.mp ha with rfl | ha
      · exact ⟨h2, h3⟩
      · exact i1 a ha
    · intro hnil
      exact absurd hnil (List.cons_ne_nil b l)
    · intro a ha
      simp only [List.head?_cons, Option.some.injEq] at ha
      rw [← ha]
      exact h1
    · cases l with
      | nil => exact List.chain'_singleton b
      | cons c l' =>
        refine List.Chain'.cons ?_ i4
        rw [i3 c rfl, h1]
    · intro a ha
      cases l with
      | nil =>
        simp only [List.getLast?_singleton, Option.some.injEq] at ha
        rw [← ha, h1]
        exact i2 rfl
      | cons c l' =>
        rw [List.getLast?_cons_cons] at ha
        exact i5 a ha

theorem recordTranslucent_tiles (bl : Block) (chunkX sectionY chunkZ x y z : Int)
    (bO bT : List Nat) (vs : List chunkVertex) (tInfo : List ObjectInfo)
    (h : Tiles 0 tInfo bT.length) :
    Tiles 0
      (recordTranslucent bl chunkX sectionY chunkZ x y z
        ((if bl.IsTranslucent then bT else bO).length : Int)
        (((vs.foldl buildVertex (if bl.IsTranslucent then bT else bO)).length : Int) -
          ((if bl.IsTranslucent then bT else bO).length : Int)) tInfo)
      ((if bl.IsTranslucent then vs.foldl buildVertex (if bl.IsTranslucent then bT else bO)
        else bT).length : Int) := by
  by_cases ht : bl.IsTranslucent = true
  · simp only [ht, if_true]
    have hb' : (vs.foldl buildVertex bT).length = bT.length + 23 * vs.length :=
      length_foldl_buildVertex vs bT
    by_cases hc : ((vs.foldl buildVertex bT).length : Int) - (bT.length : Int) > 0
    · simp only [recordTranslucent, ht, hc, and_self, if_true]
      have := tiles_append
        { X := wrap64 (wrap64 (chunkX * 16) + x), Y := wrap64 (wrap64 (sectionY * 16) + y),
          Z := wrap64 (wrap64 (chunkZ * 16) + z), Offset := (bT.length : Int),
          Count := ((vs.foldl buildVertex bT).length : Int) - (bT.length : Int) }
        tInfo 0 bT.length h rfl hc ⟨(vs.length : Int), by simp only [hb']; push_cast; ring⟩
      simp only at this
      have he : (bT.length : Int) + (((vs.foldl buildVertex bT).length : Int) -
          (bT.length : Int)) = ((vs.foldl buildVertex bT).length : Int) := by ring
      rw [he] at this
      exact this
    · simp only [recordTranslucent, hc, and_false, if_false]
      have he : ((vs.foldl buildVertex bT).length : Int) = (bT.length : Int) := by
        rw [hb'] at hc ⊢
        push_cast at hc ⊢
        omega
      rw [he]
      exact h
  · simp only [recordTranslucent, ht, Bool.false_eq_true, false_and, if_false]
    exact h

theorem voxelStep_tiles {E : Env} {bs : blocksSnapshot} {chunkX sectionY chunkZ : Int}
    {st st' : buildState E} {x y z : Int}
    (htile : Tiles 0 st.tInfo st.bT.length)
    (h : voxelStep E bs chunkX sectionY chunkZ st x y z = some st') :
    Tiles 0 st'.tInfo st'.bT.length := by
  unfold voxelStep at h
  simp only at h
  by_cases hair : (bs.block x y z).isAir = true
  · simp only [hair, if_true, Option.some.injEq] at h
    subst h
    exact htile
  · by_cases hliq : (bs.block x y z).isLiquid = true
    · simp only [hair, Bool.false_eq_true, if_false, hliq, if_true, Option.some.injEq] at h
      subst h
      exact recordTranslucent_tiles (bs.block x y z) chunkX sectionY chunkZ x y z st.bO st.bT
        (E.renderLiquid (bs.block x y z) bs x y z) st.tInfo htile
    · by_cases hm : (bs.block x y z).Models.length = 0
      · simp [hair, hliq, Env.rIntn, hm] at h
      · simp only [hair, Bool.false_eq_true, if_false, hliq, Env.rIntn, hm] at h
        cases hsel : selectModel (bs.block x y z).Models
            (E.intnValue st.r (bs.block x y z).Models.length) with
        | none =>
          simp only [hsel, Option.some.injEq] at h
          subst h
          exact htile
        | some v =>
          simp only [hsel, Option.some.injEq] at h
          subst h
          exact recordTranslucent_tiles (bs.block x y z) chunkX sectionY chunkZ x y z st.bO
            st.bT (E.Render v x y z bs) st.tInfo htile

theorem buildLoop_tiles (E : Env) (bs : blocksSnapshot) (chunkX sectionY chunkZ : Int)
    (st : buildState E)
    (h : buildLoop E bs chunkX sectionY chunkZ (buildState.init E chunkX chunkZ) = some st) :
    Tiles 0 st.tInfo st.bT.length := by
  rw [buildLoop_flat] at h
  have h0 : Tiles 0 (buildState.init E chunkX chunkZ).tInfo
      ((buildState.init E chunkX chunkZ).bT.length : Int) := by
    simp only [buildState.init, Tiles]
    rfl
  exact foldlM_prefix_partial
    (fun st p => voxelStep E bs chunkX sectionY chunkZ st p.X p.Y p.Z)
    (fun _ (s : buildState E) => Tiles 0 s.tInfo s.bT.length)
    voxelOrder (fun pre a post _ s s' hP hs => voxelStep_tiles hP hs) _ _ h0 h

/-- C17: for every build whose loop completes, the Translucency Records tile
the translucent stream exactly: the first record has `Offset` 0, each later
record's `Offset` equals the `Offset + Count` of the record before it, the
last record's `Offset + Count` equals the final length of the translucent
buffer, which is empty when there is no record, and every `Count` is a
positive multiple of 23. -/
theorem buildLoop_records_tile (E : Env) (bs : blocksSnapshot)
    (chunkX sectionY chunkZ : Int) (st : buildState E)
    (h : buildLoop E bs chunkX sectionY chunkZ (buildState.init E chunkX chunkZ) = some st) :
    Tiles 0 st.tInfo st.bT.length ∧
    (∀ a, st.tInfo.head? = some a → a.Offset = 0) ∧
    st.tInfo.Chain' (fun a b => b.Offset = a.Offset + a.Count) ∧
    (∀ a, st.tInfo.getLast? = some a → a.Offset + a.Count = st.bT.length) ∧
    (st.tInfo = [] → st.bT = []) ∧
    (∀ a ∈ st.tInfo, 0 < a.Count ∧ (23 : Int) ∣ a.Count) := by
  have ht := buildLoop_tiles E bs chunkX sectionY chunkZ st h
  obtain ⟨h1, h2, h3, h4, h5⟩ := tiles_explicit _ _ _ ht
  refine ⟨ht, h3, h4, h5, ?_, h1⟩
  intro hnil
  have := h2 hnil
  exact List.length_eq_zero.mp (by exact_mod_cast this.symm)

theorem buildLoop_records_tile_witness :
    ∃ st, buildLoop sampleEnv glassSection 1 2 3 (buildState.init sampleEnv 1 3) = some st ∧
      Tiles 0 st.tInfo st.bT.length ∧
      (∀ a, st.tInfo.head? = some a → a.Offset = 0) ∧
      st.tInfo.Chain' (fun a b => b.Offset = a.Offset + a.Count) ∧
      (∀ a, st.tInfo.getLast? = some a → a.Offset + a.Count = st.bT.length) ∧
      (st.tInfo = [] → st.bT = []) ∧
      (∀ a ∈ st.tInfo, 0 < a.Count ∧ (23 : Int) ∣ a.Count) := by
  obtain ⟨st, hst⟩ := buildLoop_some sampleEnv glassSection 1 2 3
    (fun _ _ hbad => absurd hbad.2.2 (by simp [glassSection, glassBlock]))
  exact ⟨st, hst, buildLoop_records_tile sampleEnv glassSection 1 2 3 st hst⟩

/-! ## The seed of a section -/

theorem lor_neg_one (z : Int) : Int.lor (-1) z = -1 := by
  have h1 : (-1 : Int) = Int.negSucc 0 := rfl
  rw [h1]
  cases z with
  | ofNat n =>
    have h0 : Nat.ldiff 0 n = 0 := by
      apply Nat.eq_of_testBit_eq
      intro i
      rw [Nat.testBit_ldiff]
      simp
    show Int.negSucc (Nat.ldiff 0 n) = Int.negSucc 0
    rw [h0]
  | negSucc n =>
    show Int.negSucc (0 &&& n) = Int.negSucc 0
    rw [Nat.zero_and]

/-- With chunk X equal to -1 the seed is -1 whatever chunk Z is. -/
theorem sectionSeed_neg_one (chunkZ : Int) : sectionSeed (-1) chunkZ = -1 := by
  unfold sectionSeed
  have h : wrap64 (-1) = -1 := by decide
  rw [h, lor_neg_one]

/-- C18, the failing input: the chunks `(X, Z) = (-1, 0)` and `(-1, 1)`, both
with signed 32-bit coordinates, get the same seed: the sign extension of a
negative X fills the upper 32 bits and hides Z. -/
theorem sectionSeed_collision :
    sectionSeed (-1) 0 = sectionSeed (-1) 1 ∧ ((-1 : Int), (0 : Int)) ≠ (-1, 1) ∧
    (-2 ^ 31 ≤ (-1 : Int) ∧ (-1 : Int) < 2 ^ 31) ∧ (-2 ^ 31 ≤ (0 : Int) ∧ (0 : Int) < 2 ^ 31) ∧
    (-2 ^ 31 ≤ (1 : Int) ∧ (1 : Int) < 2 ^ 31) := by
  refine ⟨by rw [sectionSeed_neg_one, sectionSeed_neg_one], by decide, by decide, by decide,
    by decide⟩

/-! ## Determinism -/

/-- Two loops in the option monad whose bodies keep a relation between the
two states end alike. -/
theorem foldlM_same {σ α : Type} (R : σ → σ → Prop) (f g : σ → α → Option σ)
    (hstep : ∀ s t a, R s t → SameOutcome R (f s a) (g t a)) (l : List α) :
    ∀ s t, R s t → SameOutcome R (l.foldlM f s) (l.foldlM g t) := by
  induction l with
  | nil => intro s t h; exact h
  | cons a l ih =>
    intro s t h
    rw [List.foldlM_cons, List.foldlM_cons]
    have h1 := hstep s t a h
    cases hf : f s a with
    | none =>
      cases hg : g t a with
      | none => trivial
      | some t1 => rw [hf, hg] at h1; exact h1.elim
    | some s1 =>
      cases hg : g t a with
      | none => rw [hf, hg] at h1; exact h1.elim
      | some t1 =>
        rw [hf, hg] at h1
        exact ih s1 t1 h1

theorem recordTranslucent_same (bl : Block) (X Y Z X2 Y2 Z2 x y z offset count : Int)
    (t t2 : List ObjectInfo) (h : List.Forall₂ (ObjectInfo.Same X Y Z X2 Y2 Z2) t t2) :
    List.Forall₂ (ObjectInfo.Same X Y Z X2 Y2 Z2)
      (recordTranslucent bl X Y Z x y z offset count t)
      (recordTranslucent bl X2 Y2 Z2 x y z offset count t2) := by
  unfold recordTranslucent
  split
  · refine List.rel_append h (List.Forall₂.cons ?_ List.Forall₂.nil)
    exact ⟨rfl, rfl, fun e => by rw [e], fun e => by rw [e], fun e => by rw [e]⟩
  · exact h

/-- The body of the loop reads the chunk and section coordinates only to fill
the coordinates of a record. -/
theorem voxelStep_same (E : Env) (bs : blocksSnapshot) (X Y Z X2 Y2 Z2 : Int)
    (s t : buildState E) (x y z : Int) (h : buildState.Same X Y Z X2 Y2 Z2 s t) :
    SameOutcome (buildState.Same X Y Z X2 Y2 Z2)
      (voxelStep E bs X Y Z s x y z) (voxelStep E bs X2 Y2 Z2 t x y z) := by
  obtain ⟨hO, hT, hr, hI, hd, htr, hp⟩ := h
  unfold voxelStep
  simp only [← hO, ← hT, ← hr, ← hd, ← htr, ← hp]
  split
  · exact ⟨rfl, rfl, rfl, hI, rfl, rfl, rfl⟩
  · split
    · exact ⟨rfl, rfl, rfl, recordTranslucent_same _ _ _ _ _ _ _ _ _ _ _ _ _ _ hI, rfl, rfl, rfl⟩
    · cases hn : E.rIntn s.r (bs.block x y z).Models.length with
      | none => trivial
      | some ir =>
        obtain ⟨index, r⟩ := ir
        simp only
        cases hsel : selectModel (bs.block x y z).Models index with
        | none => exact ⟨rfl, rfl, rfl, hI, rfl, rfl, rfl⟩
        | some variant =>
          exact ⟨rfl, rfl, rfl, recordTranslucent_same _ _ _ _ _ _ _ _ _ _ _ _ _ _ hI,
            rfl, rfl, rfl⟩

theorem buildLoop_same (E : Env) (bs : blocksSnapshot) (X Y Z X2 Y2 Z2 : Int)
    (s t : buildState E) (h : buildState.Same X Y Z X2 Y2 Z2 s t) :
    SameOutcome (buildState.Same X Y Z X2 Y2 Z2)
      (buildLoop E bs X Y Z s) (buildLoop E bs X2 Y2 Z2 t) := by
  rw [buildLoop_flat, buildLoop_flat]
  exact foldlM_same _ _ _
    (fun s t (p : position) hst => voxelStep_same E bs X Y Z X2 Y2 Z2 s t p.X p.Y p.Z hst)
    voxelOrder s t h

/-- The generator is seeded from `sectionSeed` alone and the buffers and the
records start empty. -/
theorem buildState_init_same (E : Env) (X Y Z X2 Y2 Z2 : Int)
    (hseed : sectionSeed X Z = sectionSeed X2 Z2) :
    buildState.Same X Y Z X2 Y2 Z2 (buildState.init E X Z) (buildState.init E X2 Z2) := by
  unfold buildState.init
  exact ⟨rfl, rfl, by simp only [hseed], List.Forall₂.nil, rfl, rfl, rfl⟩

theorem build_same (E : Env) (bs : blocksSnapshot) (X Y Z X2 Y2 Z2 : Int)
    (hseed : sectionSeed X Z = sectionSeed X2 Z2) :
    SameOutcome (buildResult.Same X Y Z X2 Y2 Z2) (build E bs X Y Z) (build E bs X2 Y2 Z2) := by
  have hl := buildLoop_same E bs X Y Z X2 Y2 Z2 _ _ (buildState_init_same E X Y Z X2 Y2 Z2 hseed)
  unfold build
  cases h1 : buildLoop E bs X Y Z (buildState.init E X Z) with
  | none =>
    cases h2 : buildLoop E bs X2 Y2 Z2 (buildState.init E X2 Z2) with
    | none => trivial
    | some t => rw [h1, h2] at hl; exact hl.elim
  | some s =>
    cases h2 : buildLoop E bs X2 Y2 Z2 (buildState.init E X2 Z2) with
    | none => rw [h1, h2] at hl; exact hl.elim
    | some t =>
      rw [h1, h2] at hl
      obtain ⟨hO, hT, _, hI, _, _, _⟩ := hl
      simp only
      cases buildCullBits bs with
      | none => trivial
      | some cullBits => exact ⟨hO, hT, rfl, hI⟩

/-- Records that cover the same bytes at the same coordinates are equal. -/
theorem records_same_eq (X Y Z : Int) (t t2 : List ObjectInfo)
    (h : List.Forall₂ (ObjectInfo.Same X Y Z X Y Z) t t2) : t = t2 := by
  induction h with
  | nil => rfl
  | @cons a b l l2 hab _ ih =>
    obtain ⟨h1, h2, h3, h4, h5⟩ := hab
    have hab2 : a = b := by
      cases a
      cases b
      simp only [ObjectInfo.mk.injEq]
      exact ⟨h3 rfl, h4 rfl, h5 rfl, h1, h2⟩
    rw [hab2, ih]

/-- Two builds at the same coordinates that end alike have the same result. -/
theorem sameOutcome_eq (X Y Z : Int) (o o2 : Option buildResult)
    (h : SameOutcome (buildResult.Same X Y Z X Y Z) o o2) : o = o2 := by
  cases o with
  | none =>
    cases o2 with
    | none => rfl
    | some b => exact h.elim
  | some a =>
    cases o2 with
    | none => exact h.elim
    | some b =>
      obtain ⟨h1, h2, h3, h4⟩ := h
      have h5 := records_same_eq X Y Z _ _ h4
      cases a
      cases b
      simp only [buildResult.mk.injEq, Option.some.injEq]
      exact ⟨h1, h2, h5, h3⟩

/-- C14: two builds from identical voxel data (snapshots that hold the same
block at every position) and an identical seed end alike: both panic, or both
produce the same bytes in the opaque stream, the same bytes in the
translucent stream, the same visibility bitmask and Translucency Records
with the same `Offset` and `Count`, whose coordinates agree on every axis on
which the chunk and section coordinates of the two builds agree.  The chunk
X and Z enter the bytes through the seed only and the section Y does not
enter them.  Hence two builds of a section (identical chunk X and Z and
section Y) from identical voxel data produce identical results. -/
theorem build_deterministic (E : Env) (bs bs2 : blocksSnapshot) (X Y Z X2 Y2 Z2 : Int)
    (h : ∀ x y z, bs.block x y z = bs2.block x y z)
    (hseed : sectionSeed X Z = sectionSeed X2 Z2) :
    SameOutcome (buildResult.Same X Y Z X2 Y2 Z2) (build E bs X Y Z) (build E bs2 X2 Y2 Z2) ∧
    (X = X2 → Y = Y2 → Z = Z2 → build E bs X Y Z = build E bs2 X2 Y2 Z2) := by
  have hb : bs2 = bs := by
    cases bs
    cases bs2
    congr
    funext x y z
    exact (h x y z).symm
  have key := build_same E bs X Y Z X2 Y2 Z2 hseed
  rw [hb]
  refine ⟨key, ?_⟩
  intro hX hY hZ
  subst hX hY hZ
  exact sameOutcome_eq X Y Z _ _ key

theorem build_deterministic_witness :
    (∀ x y z, glassSection.block x y z = glassSection.block x y z) ∧
    sectionSeed (-1) 0 = sectionSeed (-1) 1 ∧
    (SameOutcome (buildResult.Same (-1) 0 0 (-1) 3 1)
        (build sampleEnv glassSection (-1) 0 0) (build sampleEnv glassSection (-1) 3 1) ∧
      ((-1 : Int) = -1 → (0 : Int) = 3 → (0 : Int) = 1 →
        build sampleEnv glassSection (-1) 0 0 = build sampleEnv glassSection (-1) 3 1)) :=
  ⟨fun _ _ _ => rfl, by rw [sectionSeed_neg_one, sectionSeed_neg_one],
    build_deterministic sampleEnv glassSection glassSection (-1) 0 0 (-1) 3 1
      (fun _ _ _ => rfl) (by rw [sectionSeed_neg_one, sectionSeed_neg_one])⟩

/-! ## The log of the flood fill -/

theorem foldlM_map_sim {σ τ α : Type} (e : σ → τ) (f : σ → α → Option σ)
    (g : τ → α → Option τ) (hfg : ∀ s a, (f s a).map e = g (e s) a) (l : List α) :
    ∀ s, (l.foldlM f s).map e = l.foldlM g (e s) := by
  induction l with
  | nil => intro s; rfl
  | cons a l ih =>
    intro s
    rw [List.foldlM_cons, List.foldlM_cons, ← hfg s a]
    cases f s a with
    | none => rfl
    | some s1 => exact ih s1

/-- Forgetting the log of `floodFillLog` gives `floodFill`. -/
theorem floodFillLog_erase (bs : blocksSnapshot) :
    ∀ (fuel : Nat) (vis : Finset position) (log : List position) (x y z : Int),
      (floodFillLog bs fuel (vis, log) x y z).map eraseLog = floodFill bs fuel vis x y z := by
  intro fuel
  induction fuel with
  | zero => intro vis log x y z; rfl
  | succ fuel ih =>
    intro vis log x y z
    by_cases hc : (⟨x, y, z⟩ : position) ∈ vis ∨ x < 0 ∨ x > 15 ∨ y < 0 ∨ y > 15 ∨
        z < 0 ∨ z > 15
    · simp only [floodFillLog, floodFill, hc, if_true, Option.map_some', eraseLog]
    · by_cases hcull : (bs.block x y z).ShouldCullAgainst = true
      · simp only [floodFillLog, floodFill, hc, if_false, hcull, if_true, Option.map_some',
          eraseLog]
      · simp only [floodFillLog, floodFill, hc, if_false, hcull, Bool.false_eq_true]
        refine foldlM_map_sim eraseLog _ _ ?_ Direction.Values _
        rintro ⟨⟨v, l⟩, t⟩ d
        have := ih v l (x + d.Offset.1) (y + d.Offset.2.1) (z + d.Offset.2.2)
        simp only [eraseLog] at this ⊢
        rw [← this]
        cases floodFillLog bs fuel (v, l) (x + d.Offset.1) (y + d.Offset.2.1)
            (z + d.Offset.2.2) with
        | none => rfl
        | some r => rfl

theorem cullStepLog_erase (bs : blocksSnapshot) (fuel : Nat)
    (st : (Finset position × List position) × Nat) (x y z : Int) :
    (cullStepLog bs fuel st x y z).map eraseLog = cullStep bs fuel (eraseLog st) x y z := by
  obtain ⟨⟨v, l⟩, bits⟩ := st
  by_cases hv : (⟨x, y, z⟩ : position) ∈ v
  · simp only [cullStepLog, cullStep, eraseLog, hv, if_true, Option.map_some']
  · simp only [cullStepLog, cullStep, eraseLog, hv, if_false]
    have := floodFillLog_erase bs fuel v l x y z
    rw [← this]
    cases floodFillLog bs fuel (v, l) x y z with
    | none => rfl
    | some r =>
      obtain ⟨vl, t⟩ := r
      simp only [Option.map_some', eraseLog]
      by_cases ht : t = 0
      · simp only [ht, if_true, Option.map_some']
        rfl
      · simp only [ht, if_false, Option.map_some']
        rfl

theorem cullLoopLog_erase (bs : blocksSnapshot) (fuel : Nat)
    (st : (Finset position × List position) × Nat) :
    (cullLoopLog bs fuel st).map eraseLog = cullLoop bs fuel (eraseLog st) := by
  unfold cullLoopLog cullLoop
  refine foldlM_map_sim eraseLog _ _ ?_ _ st
  intro s1 y
  refine foldlM_map_sim eraseLog _ _ ?_ _ s1
  intro s2 z
  refine foldlM_map_sim eraseLog _ _ ?_ _ s2
  intro s3 x
  exact cullStepLog_erase bs fuel s3 x y z

/-- The fill keeps the log in step with the visited set. -/
theorem floodFillLog_inv (bs : blocksSnapshot) :
    ∀ (fuel : Nat) (vl : Finset position × List position) (x y z : Int)
      (r : (Finset position × List position) × Nat),
      LogInv vl → floodFillLog bs fuel vl x y z = some r → LogInv r.1 := by
  intro fuel
  induction fuel with
  | zero =>
    intro vl x y z r _ h
    exact Option.noConfusion h
  | succ fuel ih =>
    rintro ⟨vis, log⟩ x y z r hinv h
    by_cases hc : (⟨x, y, z⟩ : position) ∈ vis ∨ x < 0 ∨ x > 15 ∨ y < 0 ∨ y > 15 ∨
        z < 0 ∨ z > 15
    · simp only [floodFillLog, hc, if_true, Option.some.injEq] at h
      rw [← h]
      exact hinv
    · have hp : (⟨x, y, z⟩ : position) ∉ vis := fun hm => hc (Or.inl hm)
      have hs : inSection ⟨x, y, z⟩ := by
        simp only [inSection]
        omega
      obtain ⟨h1, h2, h3⟩ := hinv
      have hnew : LogInv (insert (⟨x, y, z⟩ : position) vis, log ++ [⟨x, y, z⟩]) := by
        refine ⟨?_, ?_, ?_⟩
        · refine List.Nodup.append h1 (List.nodup_singleton _) ?_
          intro p hp1 hp2
          rw [List.mem_singleton] at hp2
          subst hp2
          exact hp ((h2 _).mp hp1)
        · intro p
          simp only [List.mem_append, List.mem_singleton, Finset.mem_insert, h2 p]
          tauto
        · intro p hp1
          rcases List.mem_append.mp hp1 with hp1 | hp1
          · exact h3 p hp1
          · rw [List.mem_singleton] at hp1
            subst hp1
            exact hs
      by_cases hcull : (bs.block x y z).ShouldCullAgainst = true
      · simp only [floodFillLog, hc, if_false, hcull, if_true, Option.some.injEq] at h
        rw [← h]
        exact hnew
      · simp only [floodFillLog, hc, if_false, hcull, Bool.false_eq_true] at h
        exact foldlM_prefix_partial _
          (fun _ (s : (Finset position × List position) × Nat) => LogInv s.1)
          Direction.Values
          (by
            intro pre d post _ s s' hP hs'
            cases hrun : floodFillLog bs fuel s.1 (x + d.Offset.1) (y + d.Offset.2.1)
                (z + d.Offset.2.2) with
            | none =>
              rw [hrun] at hs'
              exact Option.noConfusion hs'
            | some r1 =>
              rw [hrun] at hs'
              simp only [Option.some.injEq] at hs'
              rw [← hs']
              exact ih s.1 _ _ _ r1 hP hrun)
          _ _ hnew h

theorem cullStepLog_inv (bs : blocksSnapshot) (fuel : Nat)
    (st st' : (Finset position × List position) × Nat) (x y z : Int)
    (hinv : LogInv st.1) (h : cullStepLog bs fuel st x y z = some st') : LogInv st'.1 := by
  unfold cullStepLog at h
  by_cases hv : (⟨x, y, z⟩ : position) ∈ st.1.1
  · simp only [hv, if_true, Option.some.injEq] at h
    rw [← h]
    exact hinv
  · simp only [hv, if_false] at h
    cases hrun : floodFillLog bs fuel st.1 x y z with
    | none =>
      rw [hrun] at h
      exact Option.noConfusion h
    | some r =>
      rw [hrun] at h
      have hr := floodFillLog_inv bs fuel st.1 x y z r hinv hrun
      obtain ⟨vl, t⟩ := r
      by_cases ht : t = 0
      · simp only [ht, if_true, Option.some.injEq] at h
        rw [← h]
        exact hr
      · simp only [ht, if_false, Option.some.injEq] at h
        rw [← h]
        exact hr

theorem cullLoopLog_inv (bs : blocksSnapshot) (fuel : Nat)
    (st st' : (Finset position × List position) × Nat)
    (hinv : LogInv st.1) (h : cullLoopLog bs fuel st = some st') : LogInv st'.1 := by
  unfold cullLoopLog at h
  refine foldlM_prefix_partial _
    (fun _ (s : (Finset position × List position) × Nat) => LogInv s.1) _ ?_ _ _ hinv h
  intro _ y _ _ s1 s1' hP1 h1
  refine foldlM_prefix_partial _
    (fun _ (s : (Finset position × List position) × Nat) => LogInv s.1) _ ?_ _ _ hP1 h1
  intro _ z _ _ s2 s2' hP2 h2
  refine foldlM_prefix_partial _
    (fun _ (s : (Finset position × List position) × Nat) => LogInv s.1) _ ?_ _ _ hP2 h2
  intro _ x _ _ s3 s3' hP3 h3
  exact cullStepLog_inv bs fuel s3 s3' x y z hP3 h3

theorem card_sectionCells : sectionCells.card = 4096 := by
  unfold sectionCells
  rw [Finset.card_image_of_injective]
  · simp [Finset.card_product]
  · rintro ⟨a, b, c⟩ ⟨a', b', c'⟩ h
    simp only [position.mk.injEq, Nat.cast_inj] at h
    obtain ⟨h1, h2, h3⟩ := h
    subst h1 h2 h3
    rfl

/-- The run of `buildCullBits` with the log: it completes, its bitmask is the
one of `buildCullBits`, and the log holds every voxel of the section once. -/
theorem cullLoopLog_spec (bs : blocksSnapshot) :
    ∃ vis log bits, cullLoopLog bs 4097 ((∅, []), 0) = some ((vis, log), bits) ∧
      buildCullBits bs = some bits ∧ log.Nodup ∧ (∀ p, p ∈ log ↔ inSection p) ∧
      log.length = 4096 := by
  have h0 : CullInv bs (∅, 0) := by
    refine ⟨fun q hq => absurd hq (Finset.not_mem_empty q), ?_⟩
    intro n
    simp
  obtain ⟨⟨vis0, bits⟩, hrun, _, _, hall⟩ := cullLoop_spec bs 4097 (by decide) (∅, 0) h0
  have her := cullLoopLog_erase bs 4097 ((∅, []), 0)
  have he0 : eraseLog ((∅, []), 0) = ((∅ : Finset position), 0) := rfl
  rw [he0, hrun] at her
  cases hlog : cullLoopLog bs 4097 ((∅, []), 0) with
  | none =>
    rw [hlog] at her
    exact Option.noConfusion her
  | some r =>
    rw [hlog] at her
    obtain ⟨⟨vis, log⟩, bits'⟩ := r
    simp only [Option.map_some', eraseLog, Option.some.injEq, Prod.mk.injEq] at her
    obtain ⟨hv, hb⟩ := her
    subst hv hb
    have hinv0 : LogInv ((∅ : Finset position), ([] : List position)) :=
      ⟨List.nodup_nil, fun p => by simp, fun p hp => absurd hp (List.not_mem_nil p)⟩
    obtain ⟨h1, h2, h3⟩ := cullLoopLog_inv bs 4097 ((∅, []), 0) _ hinv0 hlog
    have hmem : ∀ p, p ∈ log ↔ inSection p :=
      fun p => ⟨fun hp => h3 p hp, fun hp => (h2 p).mpr (hall p hp)⟩
    refine ⟨vis, log, bits', rfl, by simp [buildCullBits, hrun], h1, hmem, ?_⟩
    have hfin : log.toFinset = sectionCells := by
      ext p
      rw [List.mem_toFinset, hmem, mem_sectionCells]
    rw [← List.toFinset_card_of_nodup h1, hfin, card_sectionCells]

theorem inSection_inSnapshot {p : position} (h : inSection p) : inSnapshot p := by
  simp only [inSection] at h
  simp only [inSnapshot, inWindow]
  omega

/-- C12: every snapshot read `bs.block(x, y, z)` issued directly by the
per-voxel loop of `build` and by `buildCullBits` / `floodFill` has its three
coordinates in `[0,15]`, hence inside the range `[-2,17]` of the snapshot
(origin -2, size 20 on each axis), for every snapshot content.  The loop of
`build` calls its body exactly at the voxels of `voxelOrder`, and the body
reads the snapshot at its own voxel; `floodFill` reads the snapshot only at
the positions of its log. -/
theorem snapshot_reads_in_range (E : Env) (bs : blocksSnapshot)
    (chunkX sectionY chunkZ : Int) :
    (∀ st : buildState E, buildLoop E bs chunkX sectionY chunkZ st =
      voxelOrder.foldlM (fun st p => voxelStep E bs chunkX sectionY chunkZ st p.X p.Y p.Z) st) ∧
    (∀ p ∈ voxelOrder, inSection p ∧ inSnapshot p) ∧
    (∀ st, buildLoop E bs chunkX sectionY chunkZ (buildState.init E chunkX chunkZ) = some st →
      ∀ p ∈ st.trace, inSection p ∧ inSnapshot p) ∧
    (∀ (fuel : Nat) (vl : Finset position × List position) (x y z : Int)
      (r : (Finset position × List position) × Nat),
      LogInv vl → floodFillLog bs fuel vl x y z = some r →
        ∀ p ∈ r.1.2, inSection p ∧ inSnapshot p) ∧
    ∃ vis log bits, cullLoopLog bs 4097 ((∅, []), 0) = some ((vis, log), bits) ∧
      buildCullBits bs = some bits ∧ ∀ p ∈ log, inSection p ∧ inSnapshot p := by
  refine ⟨buildLoop_flat E bs chunkX sectionY chunkZ, ?_, ?_, ?_, ?_⟩
  · intro p hp
    have hs := (mem_voxelOrder p).mp hp
    exact ⟨hs, inSection_inSnapshot hs⟩
  · intro st hst p hp
    rw [(buildLoop_inv E bs chunkX sectionY chunkZ st hst).trace] at hp
    have hs := (mem_voxelOrder p).mp hp
    exact ⟨hs, inSection_inSnapshot hs⟩
  · intro fuel vl x y z r hinv hrun p hp
    have hs := (floodFillLog_inv bs fuel vl x y z r hinv hrun).2.2 p hp
    exact ⟨hs, inSection_inSnapshot hs⟩
  · obtain ⟨vis, log, bits, hrun, hbits, _, hmem, _⟩ := cullLoopLog_spec bs
    refine ⟨vis, log, bits, hrun, hbits, ?_⟩
    intro p hp
    have hs := (hmem p).mp hp
    exact ⟨hs, inSection_inSnapshot hs⟩

/-- C16: for every block snapshot, every call of `floodFill` returns once the
fuel exceeds the number of unvisited positions of the section, the measure
that decreases along the recursion; `buildCullBits` returns; and, in the run
with the log, each of the 4096 positions of `[0,15]^3` is inserted into the
visited set exactly once across all fills, so that the snapshot is queried
for culling once per voxel. -/
theorem buildCullBits_visits_once (bs : blocksSnapshot) :
    (∀ (fuel : Nat) (vis : Finset position) (x y z : Int),
      (sectionCells \ vis).card < fuel →
        ∃ vis' t, floodFill bs fuel vis x y z = some (vis', t) ∧ vis ⊆ vis' ∧
          (sectionCells \ vis').card ≤ (sectionCells \ vis).card) ∧
    (∀ (fuel : Nat) (vis : Finset position) (log : List position) (x y z : Int),
      (floodFillLog bs fuel (vis, log) x y z).map eraseLog = floodFill bs fuel vis x y z) ∧
    ∃ vis log bits, cullLoopLog bs 4097 ((∅, []), 0) = some ((vis, log), bits) ∧
      buildCullBits bs = some bits ∧ log.Nodup ∧ (∀ p, p ∈ log ↔ inSection p) ∧
      log.length = 4096 ∧ ∀ p, inSection p → log.count p = 1 := by
  refine ⟨?_, floodFillLog_erase bs, ?_⟩
  · intro fuel vis x y z hfuel
    obtain ⟨vis', t, hrun, hpost⟩ := floodFill_spec bs fuel vis x y z hfuel
    exact ⟨vis', t, hrun, hpost.mono, card_unvisited_mono hpost.mono⟩
  · obtain ⟨vis, log, bits, hrun, hbits, hnd, hmem, hlen⟩ := cullLoopLog_spec bs
    exact ⟨vis, log, bits, hrun, hbits, hnd, hmem, hlen,
      fun p hp => List.count_eq_one_of_mem hnd ((hmem p).mpr hp)⟩

/-! ## Entity metadata -/

theorem headerByte_small : ∀ n < 32, ∀ t < 8,
    (n ||| ((t <<< 5) % 256) = n + 32 * t) ∧ ((n + 32 * t) &&& 31 = n) ∧
      ((n + 32 * t) >>> 5 = t) := by
  decide

theorem headerByte_eq (index : Int) (t : Nat) (h0 : 0 ≤ index) (h1 : index ≤ 31) (ht : t < 8) :
    headerByte index t = index.toNat + 32 * t ∧
      (index.toNat + 32 * t) &&& 31 = index.toNat ∧ (index.toNat + 32 * t) >>> 5 = t := by
  have hn : index.toNat < 32 := by omega
  have hm : (index % 256).toNat = index.toNat := by omega
  obtain ⟨a, b, c⟩ := headerByte_small index.toNat hn t ht
  refine ⟨?_, b, c⟩
  unfold headerByte
  rw [hm]
  exact a

theorem metaType_lt {Item : Type} {v : MetaValue Item} {t : Nat} (h : metaType v = some t) :
    t < 8 := by
  cases v <;> simp [metaType] at h <;> omega

theorem of32_be32 (v : Fin 4294967296) :
    of32 (v.val / 16777216 % 256) (v.val / 65536 % 256) (v.val / 256 % 256) (v.val % 256) =
      v := by
  apply Fin.ext
  have hv := v.isLt
  simp only [of32, Fin.ofNat, Fin.val_mk]
  omega

/-- What `writeMetadata` writes for a value of an accepted type,
`readMetadata` reads back. -/
theorem readValue_writeValue (W : Wire) (hW : W.RoundTrips) (v : MetaValue W.ItemStack)
    (t : Nat) (ht : metaType v = some t) :
    ∃ bytes, writeValue W v = some bytes ∧
      ∀ rest, readValue W t (bytes ++ rest) = (some v, none, rest) := by
  cases v with
  | int8 a =>
    simp only [metaType, Option.some.injEq] at ht
    subst ht
    refine ⟨_, rfl, fun rest => ?_⟩
    simp only [readValue, List.singleton_append]
    congr
    apply Fin.ext
    have := a.isLt
    simp only [Fin.ofNat, Fin.val_mk]
    omega
  | int16 a =>
    simp only [metaType, Option.some.injEq] at ht
    subst ht
    refine ⟨_, rfl, fun rest => ?_⟩
    simp only [readValue, be16, List.cons_append, List.nil_append]
    congr
    apply Fin.ext
    have := a.isLt
    simp only [Fin.ofNat, Fin.val_mk]
    omega
  | int32 a =>
    simp only [metaType, Option.some.injEq] at ht
    subst ht
    refine ⟨_, rfl, fun rest => ?_⟩
    simp only [readValue, be32, List.cons_append, List.nil_append, of32_be32]
  | float32 a =>
    simp only [metaType, Option.some.injEq] at ht
    subst ht
    refine ⟨_, rfl, fun rest => ?_⟩
    simp only [readValue, be32, List.cons_append, List.nil_append, of32_be32]
  | string s =>
    simp only [metaType, Option.some.injEq] at ht
    subst ht
    obtain ⟨bytes, hw, hr⟩ := hW.1 s
    refine ⟨bytes, hw, fun rest => ?_⟩
    simp only [readValue, hr rest]
  | itemStack i =>
    simp only [metaType, Option.some.injEq] at ht
    subst ht
    obtain ⟨bytes, hw, hr⟩ := hW.2 i
    refine ⟨bytes, hw, fun rest => ?_⟩
    simp only [readValue, hr rest]
  | int32x3 a b c =>
    simp only [metaType, Option.some.injEq] at ht
    subst ht
    refine ⟨_, rfl, fun rest => ?_⟩
    simp only [readValue, be32, List.cons_append, List.nil_append, of32_be32]
  | float32x3 a b c =>
    simp only [metaType, Option.some.injEq] at ht
    subst ht
    refine ⟨_, rfl, fun rest => ?_⟩
    simp only [readValue, be32, List.cons_append, List.nil_append, of32_be32]
  | int32Slice l => exact Option.noConfusion ht
  | float32Slice l => exact Option.noConfusion ht
  | other => exact Option.noConfusion ht

theorem metadata_loop_roundtrip (W : Wire) (hW : W.RoundTrips) :
    ∀ entries : List (Int × MetaValue W.ItemStack),
      (∀ e ∈ entries, 0 ≤ e.1 ∧ e.1 ≤ 31) →
      (∀ e ∈ entries, (metaType e.2).isSome = true) →
      (∀ e ∈ entries, ¬ (e.1 = 31 ∧ metaType e.2 = some 3)) →
      ∀ w0, ∃ enc, writeMetadataLoop W entries w0 = (w0 ++ enc, none) ∧
        entries.length + 1 ≤ enc.length ∧
        ∀ fuel acc rest, entries.length + 1 ≤ fuel →
          readMetadataLoop W fuel acc (enc ++ rest) =
            some (entries.foldl (fun m e => m.set e.1 e.2) acc, none, rest) := by
  intro entries
  induction entries with
  | nil =>
    intro _ _ _ w0
    refine ⟨[127], rfl, by simp, ?_⟩
    intro fuel acc rest hfuel
    obtain ⟨f, rfl⟩ : ∃ f, fuel = f + 1 := ⟨fuel - 1, by simp at hfuel; omega⟩
    simp [readMetadataLoop]
  | cons e entries ih =>
    intro hrange htypes hclash w0
    obtain ⟨k, v⟩ := e
    have hk := hrange (k, v) (List.mem_cons_self _ _)
    have hty := htypes (k, v) (List.mem_cons_self _ _)
    have hcl := hclash (k, v) (List.mem_cons_self _ _)
    simp only at hk hty hcl
    obtain ⟨t, ht⟩ := Option.isSome_iff_exists.mp hty
    have ht8 := metaType_lt ht
    obtain ⟨hh, hidx, hsh⟩ := headerByte_eq k t hk.1 hk.2 ht8
    obtain ⟨vb, hvb, hread⟩ := readValue_writeValue W hW v t ht
    obtain ⟨enc, hwr, hlen, hrd⟩ := ih
      (fun e he => hrange e (List.mem_cons_of_mem _ he))
      (fun e he => htypes e (List.mem_cons_of_mem _ he))
      (fun e he => hclash e (List.mem_cons_of_mem _ he))
      (w0 ++ [headerByte k t] ++ vb)
    refine ⟨headerByte k t :: (vb ++ enc), ?_, ?_, ?_⟩
    · simp only [writeMetadataLoop, ht, hvb, hwr]
      simp
    · simp only [List.length_cons, List.length_append]
      omega
    · intro fuel acc rest hfuel
      obtain ⟨f, rfl⟩ : ∃ f, fuel = f + 1 := ⟨fuel - 1, by simp at hfuel; omega⟩
      have hne : headerByte k t ≠ 127 := by
        rw [hh]
        intro h127
        apply hcl
        have h3 : t = 3 := by omega
        exact ⟨by omega, by rw [ht, h3]⟩
      have hidx' : (((headerByte k t &&& 31 : Nat) : Int)) = k := by
        rw [hh, hidx]
        omega
      have hsh' : headerByte k t >>> 5 = t := by rw [hh, hsh]
      have hf : entries.length + 1 ≤ f := by
        simp only [List.length_cons] at hfuel
        omega
      simp only [List.cons_append, readMetadataLoop, hne, if_false, hidx', hsh',
        List.append_assoc, hread, List.foldl_cons]
      exact hrd f (acc.set k v) rest hf

theorem foldl_set_get (W : Wire) :
    ∀ (entries : List (Int × MetaValue W.ItemStack)) (acc : Metadata W),
      (entries.map Prod.fst).Nodup →
      (∀ e ∈ entries, (entries.foldl (fun m e => m.set e.1 e.2) acc) e.1 = some e.2) ∧
      ∀ k, (∀ e ∈ entries, e.1 ≠ k) →
        (entries.foldl (fun m e => m.set e.1 e.2) acc) k = acc k := by
  intro entries
  induction entries with
  | nil =>
    intro acc _
    exact ⟨fun e he => absurd he (List.not_mem_nil e), fun k _ => rfl⟩
  | cons e entries ih =>
    intro acc hnd
    rw [List.map_cons, List.nodup_cons] at hnd
    obtain ⟨hfirst, hrest⟩ := ih (acc.set e.1 e.2) hnd.2
    have hnot : ∀ e' ∈ entries, e'.1 ≠ e.1 := by
      intro e' he' heq
      exact hnd.1 (heq ▸ List.mem_map_of_mem Prod.fst he')
    constructor
    · intro e' he'
      rw [List.foldl_cons]
      rcases List.mem_cons.mp he' with rfl | he'
      · rw [hrest e'.1 hnot]
        simp [Metadata.set]
      · exact hfirst e' he'
    · intro k hk
      rw [List.foldl_cons, hrest k (fun e' he' => hk e' (List.mem_cons_of_mem _ he'))]
      have hne : k ≠ e.1 := fun h => hk e (List.mem_cons_self _ _) h.symm
      simp [Metadata.set, hne]

theorem sampleWire_roundTrips : sampleWire.RoundTrips := by
  constructor
  · intro s
    refine ⟨s.length :: s, rfl, fun rest => ?_⟩
    simp [sampleWire]
  · intro i
    exact ⟨[i], rfl, fun rest => rfl⟩

/-- C15, the failing input: a map with one entry of type `[]int32`, a type
that the doc comment of `Metadata` lists as supported, and one with an entry
of type `[]float32`.  `writeMetadata` writes nothing and returns the error
`invalid metadata type`; the array type `[3]int32`, which the doc comment
does not list, is accepted. -/
theorem writeMetadata_rejects_slices :
    writeMetadata sampleWire [(0, MetaValue.int32Slice [1, 2, 3])] =
      ([], some MetaError.invalidType) ∧
    writeMetadata sampleWire [(0, MetaValue.float32Slice [1, 2, 3])] =
      ([], some MetaError.invalidType) ∧
    writeMetadata sampleWire [(0, MetaValue.int32x3 1 2 3)] =
      ([192, 0, 0, 0, 1, 0, 0, 0, 2, 0, 0, 0, 3, 127], none) := by
  refine ⟨rfl, rfl, ?_⟩
  decide

/-- C19, as stated, fails: the entry with key 31 and a `float32` value gets
the header byte `31 | 3<<5 = 0x7F`, which `readMetadata` takes for the end of
the metadata: it returns the empty map and leaves the value unread. -/
theorem readMetadata_float_at_31 :
    writeMetadata sampleWire [(31, MetaValue.float32 0)] = ([127, 0, 0, 0, 0, 127], none) ∧
    readMetadata sampleWire [127, 0, 0, 0, 0, 127] =
      some (Metadata.empty sampleWire, none, [0, 0, 0, 0, 127]) ∧
    Metadata.empty sampleWire 31 = none := by
  refine ⟨by decide, rfl, rfl⟩

/-- C19, amended: for every `Metadata` map whose keys are in `[0,31]`, whose
values are of the types `writeMetadata` accepts and which has no `float32`
value at key 31, and for helpers of strings and item stacks that round trip,
`writeMetadata` succeeds and `readMetadata` applied to the bytes it wrote,
followed by any further input, returns the same map with no error and leaves
exactly the further input, for every order in which the entries are
written. -/
theorem metadata_roundtrip (W : Wire) (hW : W.RoundTrips)
    (entries : List (Int × MetaValue W.ItemStack))
    (hkeys : (entries.map Prod.fst).Nodup)
    (hrange : ∀ e ∈ entries, 0 ≤ e.1 ∧ e.1 ≤ 31)
    (htypes : ∀ e ∈ entries, (metaType e.2).isSome = true)
    (hclash : ∀ e ∈ entries, ¬ (e.1 = 31 ∧ metaType e.2 = some 3)) :
    ∃ bytes, writeMetadata W entries = (bytes, none) ∧
      ∀ rest, ∃ m, readMetadata W (bytes ++ rest) = some (m, none, rest) ∧
        (∀ e ∈ entries, m e.1 = some e.2) ∧
        ∀ k, (∀ e ∈ entries, e.1 ≠ k) → m k = none := by
  obtain ⟨enc, hwr, hlen, hrd⟩ := metadata_loop_roundtrip W hW entries hrange htypes hclash []
  refine ⟨enc, by simpa [writeMetadata] using hwr, ?_⟩
  intro rest
  obtain ⟨h1, h2⟩ := foldl_set_get W entries (Metadata.empty W) hkeys
  refine ⟨_, ?_, h1, fun k hk => by rw [h2 k hk]; rfl⟩
  unfold readMetadata
  exact hrd _ _ rest (by simp only [List.length_append]; omega)

theorem metadata_roundtrip_witness :
    sampleWire.RoundTrips ∧
    (([(0, MetaValue.int8 5), (3, MetaValue.string [104, 105]), (31, MetaValue.int32 7)] :
      List (Int × MetaValue sampleWire.ItemStack)).map Prod.fst).Nodup ∧
    ∃ bytes,
      writeMetadata sampleWire
        [(0, MetaValue.int8 5), (3, MetaValue.string [104, 105]), (31, MetaValue.int32 7)] =
        (bytes, none) ∧
      ∀ rest, ∃ m, readMetadata sampleWire (bytes ++ rest) = some (m, none, rest) ∧
        (∀ e ∈ ([(0, MetaValue.int8 5), (3, MetaValue.string [104, 105]),
            (31, MetaValue.int32 7)] : List (Int × MetaValue sampleWire.ItemStack)),
          m e.1 = some e.2) ∧
        ∀ k, (∀ e ∈ ([(0, MetaValue.int8 5), (3, MetaValue.string [104, 105]),
            (31, MetaValue.int32 7)] : List (Int × MetaValue sampleWire.ItemStack)),
          e.1 ≠ k) → m k = none :=
  ⟨sampleWire_roundTrips, by decide,
    metadata_roundtrip sampleWire sampleWire_roundTrips
      [(0, MetaValue.int8 5), (3, MetaValue.string [104, 105]), (31, MetaValue.int32 7)]
      (by decide) (by decide) (by decide) (by decide)⟩

/-! ## NBT -/

theorem small_of_suffix {inp pre rest : List Nat} (h : inp = pre ++ rest)
    (hs : ∀ b ∈ inp, b < 128) : ∀ b ∈ rest, b < 128 := by
  intro b hb
  exact hs b (by rw [h]; exact List.mem_append.mpr (Or.inr hb))

theorem sound_error {α : Type} (inp : List Nat) : (NbtOut.error : NbtOut α).Sound inp :=
  ⟨fun _ _ h => NbtOut.noConfusion h, fun _ h => NbtOut.noConfusion h⟩

theorem sound_ok {α : Type} {inp : List Nat} (v : α) (pre rest : List Nat)
    (h : inp = pre ++ rest) : (NbtOut.ok v rest).Sound inp := by
  refine ⟨?_, fun _ h => NbtOut.noConfusion h⟩
  intro v' rest' he
  simp only [NbtOut.ok.injEq] at he
  exact ⟨pre, by rw [← he.2]; exact h⟩

theorem readByte_sound (inp : List Nat) : (readByte inp).Sound inp := by
  cases inp with
  | nil => exact sound_error _
  | cons b rest => exact sound_ok b [b] rest rfl

theorem readInt16_sound (inp : List Nat) : (readInt16 inp).Sound inp := by
  match inp with
  | [] => exact sound_error _
  | [_] => exact sound_error _
  | a :: b :: rest => exact sound_ok _ [a, b] rest rfl

theorem readInt32_sound (inp : List Nat) : (readInt32 inp).Sound inp := by
  match inp with
  | [] => exact sound_error _
  | [_] => exact sound_error _
  | [_, _] => exact sound_error _
  | [_, _, _] => exact sound_error _
  | a :: b :: c :: d :: rest => exact sound_ok _ [a, b, c, d] rest rfl

theorem readFull_sound (n : Nat) (inp : List Nat) : (readFull n inp).Sound inp := by
  unfold readFull
  split
  · exact sound_error _
  · exact sound_ok _ (inp.take n) (inp.drop n) (List.take_append_drop n inp).symm

theorem int16Of_nonneg (a b : Nat) (ha : a < 128) : 0 ≤ int16Of a b := by
  unfold int16Of
  have hb : b % 256 < 256 := Nat.mod_lt _ (by decide)
  have ha' : a % 256 = a := Nat.mod_eq_of_lt (by omega)
  rw [ha']
  split
  · exact Int.natCast_nonneg _
  · omega

theorem int32Of_nonneg (a b c d : Nat) (ha : a < 128) : 0 ≤ int32Of a b c d := by
  unfold int32Of bits32
  have hb : b % 256 < 256 := Nat.mod_lt _ (by decide)
  have hc : c % 256 < 256 := Nat.mod_lt _ (by decide)
  have hd : d % 256 < 256 := Nat.mod_lt _ (by decide)
  have ha' : a % 256 = a := Nat.mod_eq_of_lt (by omega)
  rw [ha']
  split
  · exact Int.natCast_nonneg _
  · omega

/-- A length below zero cannot come from bytes below 128. -/
theorem readInt16_nonneg {inp : List Nat} {l : Int} {rest : List Nat}
    (h : readInt16 inp = NbtOut.ok l rest) (hs : ∀ b ∈ inp, b < 128) : 0 ≤ l := by
  match inp, h with
  | a :: b :: r, h =>
    simp only [readInt16, NbtOut.ok.injEq] at h
    rw [← h.1]
    exact int16Of_nonneg a b (hs a (List.mem_cons_self _ _))

theorem readInt32_nonneg {inp : List Nat} {l : Int} {rest : List Nat}
    (h : readInt32 inp = NbtOut.ok l rest) (hs : ∀ b ∈ inp, b < 128) : 0 ≤ l := by
  match inp, h with
  | a :: b :: c :: d :: r, h =>
    simp only [readInt32, NbtOut.ok.injEq] at h
    rw [← h.1]
    exact int32Of_nonneg a b c d (hs a (List.mem_cons_self _ _))

theorem sound_trans {α : Type} {inp mid : List Nat} {out : NbtOut α} (pre : List Nat)
    (hmid : inp = pre ++ mid) (h : out.Sound mid) : out.Sound inp := by
  refine ⟨?_, fun hs => h.2 (small_of_suffix hmid hs)⟩
  intro v rest he
  obtain ⟨pre', hp⟩ := h.1 v rest he
  exact ⟨pre ++ pre', by rw [hmid, hp, List.append_assoc]⟩

theorem readString_sound (inp : List Nat) : (readString inp).Sound inp := by
  unfold readString
  cases hl : readInt16 inp with
  | error => exact sound_ok _ inp [] (List.append_nil inp).symm
  | panic =>
    exact absurd hl (by
      intro h
      have := (readInt16_sound inp)
      match inp, h with
      | [], h => exact NbtOut.noConfusion h
      | [_], h => exact NbtOut.noConfusion h
      | _ :: _ :: _, h => exact NbtOut.noConfusion h)
  | ok l rest =>
    obtain ⟨pre, hpre⟩ := (readInt16_sound inp).1 l rest hl
    simp only
    split
    · rename_i hneg
      refine ⟨fun _ _ h => NbtOut.noConfusion h, ?_⟩
      intro hs
      have := readInt16_nonneg hl hs
      omega
    · exact sound_trans pre hpre (readFull_sound _ rest)

theorem sound_panic {α β : Type} {inp : List Nat}
    (h : (NbtOut.panic : NbtOut α).Sound inp) : (NbtOut.panic : NbtOut β).Sound inp :=
  ⟨fun _ _ he => NbtOut.noConfusion he, fun hs => absurd rfl (h.2 hs)⟩

theorem sound_suffix_length {α : Type} {inp : List Nat} {v : α} {rest : List Nat}
    (h : (NbtOut.ok v rest).Sound inp) : rest.length ≤ inp.length := by
  obtain ⟨pre, hp⟩ := h.1 v rest rfl
  rw [hp, List.length_append]
  omega

theorem readElems_sound (f : List Nat → Option (NbtOut NbtValue)) (L : Nat)
    (hf : ∀ inp, inp.length ≤ L → ∃ out, f inp = some out ∧ out.Sound inp) :
    ∀ (n : Nat) (acc : List NbtValue) (inp : List Nat), inp.length ≤ L →
      ∃ out, readElems f n acc inp = some out ∧ out.Sound inp := by
  intro n
  induction n with
  | zero =>
    intro acc inp _
    exact ⟨_, rfl, sound_ok acc [] inp rfl⟩
  | succ n ih =>
    intro acc inp hlen
    obtain ⟨out, hout, hs⟩ := hf inp hlen
    cases out with
    | ok v rest =>
      obtain ⟨pre, hp⟩ := hs.1 v rest rfl
      have hl := sound_suffix_length hs
      obtain ⟨out', hout', hs'⟩ := ih (acc ++ [v]) rest (by omega)
      refine ⟨out', ?_, sound_trans pre hp hs'⟩
      simp only [readElems, hout]
      exact hout'
    | error => exact ⟨NbtOut.error, by simp only [readElems, hout], sound_error _⟩
    | panic => exact ⟨NbtOut.panic, by simp only [readElems, hout], sound_panic hs⟩

theorem ended_sound {α β : Type} {inp : List Nat} {out : NbtOut α} (h : out.Ended inp)
    (g : α → β) :
    (match out with
      | NbtOut.ok v rest => NbtOut.ok (g v) rest
      | NbtOut.error => NbtOut.error
      | NbtOut.panic => NbtOut.panic : NbtOut β).Sound inp := by
  cases out with
  | ok v rest =>
    obtain ⟨pre, hp⟩ := h.1 v rest rfl
    exact sound_ok _ (pre ++ [0]) rest (by rw [hp]; simp)
  | error => exact sound_error _
  | panic => exact ⟨fun _ _ he => NbtOut.noConfusion he, fun hs => absurd rfl (h.2 hs)⟩

theorem ended_trans {α : Type} {inp mid : List Nat} {out : NbtOut α} (pre : List Nat)
    (hmid : inp = pre ++ mid) (h : out.Ended mid) : out.Ended inp := by
  refine ⟨?_, fun hs => h.2 (small_of_suffix hmid hs)⟩
  intro v rest he
  obtain ⟨pre', hp⟩ := h.1 v rest he
  exact ⟨pre ++ pre', by rw [hmid, hp, List.append_assoc]⟩

theorem readByte_ok_length {inp : List Nat} {b : Nat} {rest : List Nat}
    (h : readByte inp = NbtOut.ok b rest) : inp.length = rest.length + 1 := by
  cases inp with
  | nil => exact NbtOut.noConfusion h
  | cons a r =>
    simp only [readByte, NbtOut.ok.injEq] at h
    rw [← h.2]
    rfl

/-- With fuel above twice the length of the input, `readType` and the loop of
`Compound.deserialize` return, and what they return is sound. -/
theorem nbt_sound : ∀ fuel : Nat,
    (∀ (id : Nat) (inp : List Nat), 2 * inp.length + 2 ≤ fuel →
      ∃ out, readType fuel id inp = some out ∧ out.Sound inp) ∧
    (∀ (items : List (List Nat × NbtValue)) (inp : List Nat), 2 * inp.length + 1 ≤ fuel →
      ∃ out, deserializeLoop fuel items inp = some out ∧ out.Ended inp) := by
  intro fuel
  induction fuel with
  | zero => exact ⟨fun _ _ h => by omega, fun _ _ h => by omega⟩
  | succ f ih =>
    obtain ⟨ihT, ihL⟩ := ih
    constructor
    · intro id inp hfuel
      match id with
      | 0 => exact ⟨_, rfl, sound_error _⟩
      | 1 =>
        have hs := readByte_sound inp
        cases hr : readByte inp with
        | ok b rest =>
          rw [hr] at hs
          obtain ⟨pre, hp⟩ := hs.1 b rest rfl
          exact ⟨_, by simp only [readType, hr]; rfl, sound_ok _ pre rest hp⟩
        | error => exact ⟨_, by simp only [readType, hr], sound_error _⟩
        | panic =>
          rw [hr] at hs
          exact ⟨_, by simp only [readType, hr], sound_panic hs⟩
      | 2 =>
        have hs := readInt16_sound inp
        cases hr : readInt16 inp with
        | ok b rest =>
          rw [hr] at hs
          obtain ⟨pre, hp⟩ := hs.1 b rest rfl
          exact ⟨_, by simp only [readType, hr]; rfl, sound_ok _ pre rest hp⟩
        | error => exact ⟨_, by simp only [readType, hr], sound_error _⟩
        | panic =>
          rw [hr] at hs
          exact ⟨_, by simp only [readType, hr], sound_panic hs⟩
      | 3 =>
        have hs := readInt32_sound inp
        cases hr : readInt32 inp with
        | ok b rest =>
          rw [hr] at hs
          obtain ⟨pre, hp⟩ := hs.1 b rest rfl
          exact ⟨_, by simp only [readType, hr]; rfl, sound_ok _ pre rest hp⟩
        | error => exact ⟨_, by simp only [readType, hr], sound_error _⟩
        | panic =>
          rw [hr] at hs
          exact ⟨_, by simp only [readType, hr], sound_panic hs⟩
      | 4 =>
        match inp with
        | a :: b :: c :: d :: e :: g :: h :: i :: rest =>
          exact ⟨_, by simp only [readType]; rfl, sound_ok _ [a, b, c, d, e, g, h, i] rest rfl⟩
        | [] => exact ⟨_, by simp only [readType], sound_error _⟩
        | [_] => exact ⟨_, by simp only [readType], sound_error _⟩
        | [_, _] => exact ⟨_, by simp only [readType], sound_error _⟩
        | [_, _, _] => exact ⟨_, by simp only [readType], sound_error _⟩
        | [_, _, _, _] => exact ⟨_, by simp only [readType], sound_error _⟩
        | [_, _, _, _, _] => exact ⟨_, by simp only [readType], sound_error _⟩
        | [_, _, _, _, _, _] => exact ⟨_, by simp only [readType], sound_error _⟩
        | [_, _, _, _, _, _, _] => exact ⟨_, by simp only [readType], sound_error _⟩
      | 5 =>
        match inp with
        | a :: b :: c :: d :: rest =>
          exact ⟨_, by simp only [readType]; rfl, sound_ok _ [a, b, c, d] rest rfl⟩
        | [] => exact ⟨_, by simp only [readType], sound_error _⟩
        | [_] => exact ⟨_, by simp only [readType], sound_error _⟩
        | [_, _] => exact ⟨_, by simp only [readType], sound_error _⟩
        | [_, _, _] => exact ⟨_, by simp only [readType], sound_error _⟩
      | 6 =>
        match inp with
        | a :: b :: c :: d :: e :: g :: h :: i :: rest =>
          exact ⟨_, by simp only [readType]; rfl, sound_ok _ [a, b, c, d, e, g, h, i] rest rfl⟩
        | [] => exact ⟨_, by simp only [readType], sound_error _⟩
        | [_] => exact ⟨_, by simp only [readType], sound_error _⟩
        | [_, _] => exact ⟨_, by simp only [readType], sound_error _⟩
        | [_, _, _] => exact ⟨_, by simp only [readType], sound_error _⟩
        | [_, _, _, _] => exact ⟨_, by simp only [readType], sound_error _⟩
        | [_, _, _, _, _] => exact ⟨_, by simp only [readType], sound_error _⟩
        | [_, _, _, _, _, _] => exact ⟨_, by simp only [readType], sound_error _⟩
        | [_, _, _, _, _, _, _] => exact ⟨_, by simp only [readType], sound_error _⟩
      | 7 =>
        have hs := readInt32_sound inp
        cases hr : readInt32 inp with
        | error => exact ⟨_, by simp only [readType, hr], sound_error _⟩
        | panic =>
          rw [hr] at hs
          exact ⟨_, by simp only [readType, hr], sound_panic hs⟩
        | ok l rest =>
          rw [hr] at hs
          obtain ⟨pre, hp⟩ := hs.1 l rest rfl
          by_cases hneg : l < 0
          · refine ⟨NbtOut.panic, by simp only [readType, hr, hneg, if_true], ?_⟩
            refine ⟨fun _ _ he => NbtOut.noConfusion he, fun hsm => ?_⟩
            have := readInt32_nonneg hr hsm
            omega
          · have hf := readFull_sound l.toNat rest
            cases hrf : readFull l.toNat rest with
            | ok v rest' =>
              rw [hrf] at hf
              obtain ⟨pre', hp'⟩ := hf.1 v rest' rfl
              exact ⟨_, by simp only [readType, hr, hneg, if_false, hrf]; rfl,
                sound_ok _ (pre ++ pre') rest' (by rw [hp, hp', List.append_assoc])⟩
            | error => exact ⟨_, by simp only [readType, hr, hneg, if_false, hrf], sound_error _⟩
            | panic =>
              rw [hrf] at hf
              exact ⟨_, by simp only [readType, hr, hneg, if_false, hrf],
                sound_trans pre hp (sound_panic hf)⟩
      | 8 =>
        have hs := readString_sound inp
        cases hr : readString inp with
        | ok b rest =>
          rw [hr] at hs
          obtain ⟨pre, hp⟩ := hs.1 b rest rfl
          exact ⟨_, by simp only [readType, hr]; rfl, sound_ok _ pre rest hp⟩
        | error => exact ⟨_, by simp only [readType, hr], sound_error _⟩
        | panic =>
          rw [hr] at hs
          exact ⟨_, by simp only [readType, hr], sound_panic hs⟩
      | 9 =>
        have hs := readByte_sound inp
        cases hr : readByte inp with
        | error => exact ⟨_, by simp only [readType, hr], sound_error _⟩
        | panic =>
          rw [hr] at hs
          exact ⟨_, by simp only [readType, hr], sound_panic hs⟩
        | ok t rest =>
          rw [hr] at hs
          obtain ⟨pre, hp⟩ := hs.1 t rest rfl
          have hl1 := readByte_ok_length hr
          have hs2 := readInt32_sound rest
          cases hr2 : readInt32 rest with
          | error => exact ⟨_, by simp only [readType, hr, hr2], sound_error _⟩
          | panic =>
            rw [hr2] at hs2
            exact ⟨_, by simp only [readType, hr, hr2], sound_trans pre hp (sound_panic hs2)⟩
          | ok le rest2 =>
            rw [hr2] at hs2
            obtain ⟨pre2, hp2⟩ := hs2.1 le rest2 rfl
            have hl2 := sound_suffix_length hs2
            by_cases hneg : le < 0
            · refine ⟨NbtOut.panic, by simp only [readType, hr, hr2, hneg, if_true], ?_⟩
              refine ⟨fun _ _ he => NbtOut.noConfusion he, fun hsm => ?_⟩
              have := readInt32_nonneg hr2 (small_of_suffix hp hsm)
              omega
            · obtain ⟨out, hout, hso⟩ := readElems_sound (readType f t) rest2.length
                (fun inp' hlen => ihT t inp' (by omega)) le.toNat [] rest2 (le_refl _)
              have hso' : out.Sound inp :=
                sound_trans pre hp (sound_trans pre2 hp2 hso)
              cases out with
              | ok elements rest3 =>
                obtain ⟨pre3, hp3⟩ := hso'.1 elements rest3 rfl
                exact ⟨_, by simp only [readType, hr, hr2, hneg, if_false, hout]; rfl,
                  sound_ok _ pre3 rest3 hp3⟩
              | error =>
                exact ⟨_, by simp only [readType, hr, hr2, hneg, if_false, hout],
                  sound_error _⟩
              | panic =>
                exact ⟨_, by simp only [readType, hr, hr2, hneg, if_false, hout],
                  sound_panic hso'⟩
      | 10 =>
        obtain ⟨out, hout, hso⟩ := ihL [] inp (by omega)
        have hs' := ended_sound hso NbtValue.compound
        cases out with
        | ok items rest => exact ⟨_, by simp only [readType, hout], hs'⟩
        | error => exact ⟨_, by simp only [readType, hout], hs'⟩
        | panic => exact ⟨_, by simp only [readType, hout], hs'⟩
      | 11 =>
        have hs := readInt32_sound inp
        cases hr : readInt32 inp with
        | error => exact ⟨_, by simp only [readType, hr], sound_error _⟩
        | panic =>
          rw [hr] at hs
          exact ⟨_, by simp only [readType, hr], sound_panic hs⟩
        | ok l rest =>
          rw [hr] at hs
          obtain ⟨pre, hp⟩ := hs.1 l rest rfl
          by_cases hneg : l < 0
          · refine ⟨NbtOut.panic, by simp only [readType, hr, hneg, if_true], ?_⟩
            refine ⟨fun _ _ he => NbtOut.noConfusion he, fun hsm => ?_⟩
            have := readInt32_nonneg hr hsm
            omega
          · have hf := readFull_sound (4 * l.toNat) rest
            cases hrf : readFull (4 * l.toNat) rest with
            | ok v rest' =>
              rw [hrf] at hf
              obtain ⟨pre', hp'⟩ := hf.1 v rest' rfl
              exact ⟨_, by simp only [readType, hr, hneg, if_false, hrf]; rfl,
                sound_ok _ (pre ++ pre') rest' (by rw [hp, hp', List.append_assoc])⟩
            | error => exact ⟨_, by simp only [readType, hr, hneg, if_false, hrf], sound_error _⟩
            | panic =>
              rw [hrf] at hf
              exact ⟨_, by simp only [readType, hr, hneg, if_false, hrf],
                sound_trans pre hp (sound_panic hf)⟩
      | n + 12 => exact ⟨_, by simp only [readType], sound_error _⟩
    · intro items inp hfuel
      have hs := readByte_sound inp
      cases hr : readByte inp with
      | error =>
        exact ⟨NbtOut.error, by simp only [deserializeLoop, hr],
          ⟨fun _ _ he => NbtOut.noConfusion he, fun _ he => NbtOut.noConfusion he⟩⟩
      | panic =>
        rw [hr] at hs
        exact ⟨NbtOut.panic, by simp only [deserializeLoop, hr],
          ⟨fun _ _ he => NbtOut.noConfusion he, fun hsm => absurd rfl (hs.2 hsm)⟩⟩
      | ok id rest =>
        have hinp : inp = id :: rest := by
          cases inp with
          | nil => exact NbtOut.noConfusion hr
          | cons b r =>
            simp only [readByte, NbtOut.ok.injEq] at hr
            rw [hr.1, hr.2]
        by_cases hid : id = 0
        · refine ⟨NbtOut.ok items rest, by simp only [deserializeLoop, hr, hid, if_true], ?_⟩
          refine ⟨?_, fun _ he => NbtOut.noConfusion he⟩
          intro v rest' he
          simp only [NbtOut.ok.injEq] at he
          exact ⟨[], by rw [hinp, hid, ← he.2]; rfl⟩
        · have hlen : inp.length = rest.length + 1 := by rw [hinp]; rfl
          have hs2 := readString_sound rest
          cases hr2 : readString rest with
          | error =>
            exact ⟨NbtOut.error, by simp only [deserializeLoop, hr, hid, if_false, hr2],
              ⟨fun _ _ he => NbtOut.noConfusion he, fun _ he => NbtOut.noConfusion he⟩⟩
          | panic =>
            rw [hr2] at hs2
            refine ⟨NbtOut.panic, by simp only [deserializeLoop, hr, hid, if_false, hr2],
              ⟨fun _ _ he => NbtOut.noConfusion he, fun hsm => ?_⟩⟩
            exact fun _ => hs2.2 (@small_of_suffix inp [id] rest hinp hsm) rfl
          | ok name rest2 =>
            rw [hr2] at hs2
            obtain ⟨pre2, hp2⟩ := hs2.1 name rest2 rfl
            have hl2 := sound_suffix_length hs2
            obtain ⟨out, hout, hso⟩ := ihT id rest2 (by omega)
            cases out with
            | error =>
              exact ⟨NbtOut.error,
                by simp only [deserializeLoop, hr, hid, if_false, hr2, hout],
                ⟨fun _ _ he => NbtOut.noConfusion he, fun _ he => NbtOut.noConfusion he⟩⟩
            | panic =>
              refine ⟨NbtOut.panic,
                by simp only [deserializeLoop, hr, hid, if_false, hr2, hout],
                ⟨fun _ _ he => NbtOut.noConfusion he, fun hsm => ?_⟩⟩
              have h1 := @small_of_suffix inp [id] rest hinp hsm
              exact fun _ => hso.2 (small_of_suffix hp2 h1) rfl
            | ok v rest3 =>
              obtain ⟨pre3, hp3⟩ := hso.1 v rest3 rfl
              have hl3 := sound_suffix_length hso
              obtain ⟨out', hout', hso'⟩ := ihL (items ++ [(name, v)]) rest3 (by omega)
              refine ⟨out', ?_, ?_⟩
              · simp only [deserializeLoop, hr, hid, if_false, hr2, hout]
                exact hout'
              · exact ended_trans ([id] ++ pre2 ++ pre3)
                  (by rw [hinp, hp2, hp3]; simp) hso'

/-- C20, as stated, fails: a negative length field makes `make` panic.  The
four inputs have a negative string length, byte-array length, int-array
length and list length. -/
theorem Deserialize_panics_on_negative_length :
    Deserialize [255, 255] = some NbtOut.panic ∧
    Deserialize [0, 0, 7, 0, 0, 255, 255, 255, 255] = some NbtOut.panic ∧
    Deserialize [0, 0, 11, 0, 0, 255, 255, 255, 255] = some NbtOut.panic ∧
    Deserialize [0, 0, 9, 0, 0, 1, 255, 255, 255, 255] = some NbtOut.panic :=
  ⟨rfl, rfl, rfl, rfl⟩

/-- For every input `Compound.Deserialize` returns: it ends well, with an
error or with a panic.  It ends well only after it has read the End tag
(id 0) of the compound as the last byte it consumed, and it does not panic
when no byte of the input is 128 or more. -/
theorem Deserialize_sound (inp : List Nat) :
    ∃ out, Deserialize inp = some out ∧
      (∀ c rest, out = NbtOut.ok c rest → ∃ pre, inp = pre ++ 0 :: rest) ∧
      ((∀ b ∈ inp, b < 128) → out ≠ NbtOut.panic) := by
  have hs := readString_sound inp
  cases hr : readString inp with
  | error =>
    exact ⟨NbtOut.error, by simp only [Deserialize, hr],
      fun _ _ he => NbtOut.noConfusion he, fun _ he => NbtOut.noConfusion he⟩
  | panic =>
    rw [hr] at hs
    exact ⟨NbtOut.panic, by simp only [Deserialize, hr],
      fun _ _ he => NbtOut.noConfusion he, fun hsm _ => hs.2 hsm rfl⟩
  | ok name rest =>
    rw [hr] at hs
    obtain ⟨pre, hp⟩ := hs.1 name rest rfl
    obtain ⟨out, hout, hso⟩ := (nbt_sound (2 * rest.length + 2)).2 [] rest (by omega)
    have hso' := ended_trans pre hp hso
    cases out with
    | ok items rest' =>
      refine ⟨NbtOut.ok { Name := name, items := items } rest',
        by simp only [Deserialize, hr, hout], ?_, fun _ he => NbtOut.noConfusion he⟩
      intro c rest'' he
      simp only [NbtOut.ok.injEq] at he
      rw [← he.2]
      exact hso'.1 items rest' rfl
    | error =>
      exact ⟨NbtOut.error, by simp only [Deserialize, hr, hout],
        fun _ _ he => NbtOut.noConfusion he, fun _ he => NbtOut.noConfusion he⟩
    | panic =>
      exact ⟨NbtOut.panic, by simp only [Deserialize, hr, hout],
        fun _ _ he => NbtOut.noConfusion he, fun hsm _ => hso'.2 hsm rfl⟩

/-! ## The log of the NBT reader -/

theorem not_negativeLength_nil : ¬ NegativeLength [] := by
  rintro ⟨l, h, _⟩
  exact absurd h (List.not_mem_nil _)

theorem not_negativeLength_exhausted : ¬ NegativeLength [NbtEvent.exhausted] := by
  rintro ⟨l, h, _⟩
  simp only [List.mem_singleton] at h
  exact NbtEvent.noConfusion h

theorem negativeLength_singleton (l : Int) : NegativeLength [NbtEvent.length l] ↔ l < 0 := by
  constructor
  · rintro ⟨k, h, hk⟩
    simp only [List.mem_singleton, NbtEvent.length.injEq] at h
    rw [← h]
    exact hk
  · intro h
    exact ⟨l, List.mem_singleton.mpr rfl, h⟩

theorem negativeLength_append (a b : List NbtEvent) :
    NegativeLength (a ++ b) ↔ NegativeLength a ∨ NegativeLength b := by
  constructor
  · rintro ⟨l, h, hl⟩
    rcases List.mem_append.mp h with h | h
    · exact Or.inl ⟨l, h, hl⟩
    · exact Or.inr ⟨l, h, hl⟩
  · rintro (⟨l, h, hl⟩ | ⟨l, h, hl⟩)
    · exact ⟨l, List.mem_append.mpr (Or.inl h), hl⟩
    · exact ⟨l, List.mem_append.mpr (Or.inr h), hl⟩

/-- A read that went well, followed by a second read of what it left. -/
theorem logOK_seq {α β : Type} {inp rest : List Nat} {v : α} {log log2 : List NbtEvent}
    {out : NbtOut β} (h1 : LogOK inp (NbtOut.ok v rest) log) (h2 : LogOK rest out log2) :
    LogOK inp out (log ++ log2) := by
  have hn : ¬ NegativeLength log := fun h => NbtOut.noConfusion (h1.1.mpr h)
  have hrest : (NbtEvent.exhausted ∈ log ∨ inp = []) → rest = [] := by
    intro h
    rcases h1.2 h with he | ⟨w, he⟩
    · exact NbtOut.noConfusion he
    · simp only [NbtOut.ok.injEq] at he
      exact he.2
  refine ⟨?_, ?_⟩
  · rw [negativeLength_append, h2.1]
    exact ⟨Or.inr, fun h => h.resolve_left hn⟩
  · intro h
    rcases h with h | h
    · rcases List.mem_append.mp h with h | h
      · exact h2.2 (Or.inr (hrest (Or.inl h)))
      · exact h2.2 (Or.inl h)
    · exact h2.2 (Or.inr (hrest (Or.inr h)))

theorem loopOK_seq {α β : Type} {inp rest : List Nat} {v : α} {log log2 : List NbtEvent}
    {out : NbtOut β} (h1 : LogOK inp (NbtOut.ok v rest) log) (h2 : LoopOK rest out log2) :
    LoopOK inp out (log ++ log2) := by
  have hn : ¬ NegativeLength log := fun h => NbtOut.noConfusion (h1.1.mpr h)
  have hrest : (NbtEvent.exhausted ∈ log ∨ inp = []) → rest = [] := by
    intro h
    rcases h1.2 h with he | ⟨w, he⟩
    · exact NbtOut.noConfusion he
    · simp only [NbtOut.ok.injEq] at he
      exact he.2
  refine ⟨?_, ?_⟩
  · rw [negativeLength_append, h2.1]
    exact ⟨Or.inr, fun h => h.resolve_left hn⟩
  · intro h
    rcases h with h | h
    · rcases List.mem_append.mp h with h | h
      · exact h2.2 (Or.inr (hrest (Or.inl h)))
      · exact h2.2 (Or.inl h)
    · exact h2.2 (Or.inr (hrest (Or.inr h)))

theorem logOK_ok {α : Type} {inp : List Nat} (v : α) (rest : List Nat) (hne : inp ≠ []) :
    LogOK inp (NbtOut.ok v rest) [] :=
  ⟨⟨fun h => NbtOut.noConfusion h, fun h => absurd h not_negativeLength_nil⟩,
    fun h => h.elim (fun h => absurd h (List.not_mem_nil _)) (fun h => absurd h hne)⟩

theorem logOK_exhausted {α : Type} (inp : List Nat) :
    LogOK inp (NbtOut.error : NbtOut α) [NbtEvent.exhausted] :=
  ⟨⟨fun h => NbtOut.noConfusion h, fun h => absurd h not_negativeLength_exhausted⟩,
    fun _ => Or.inl rfl⟩

theorem logOK_invalid {α : Type} (inp : List Nat) : LogOK inp (NbtOut.error : NbtOut α) [] :=
  ⟨⟨fun h => NbtOut.noConfusion h, fun h => absurd h not_negativeLength_nil⟩,
    fun _ => Or.inl rfl⟩

theorem logOK_length {inp : List Nat} (l : Int) (rest : List Nat) (hne : inp ≠ [])
    (hl : ¬ l < 0) : LogOK inp (NbtOut.ok l rest) [NbtEvent.length l] := by
  refine ⟨⟨fun h => NbtOut.noConfusion h,
    fun h => absurd ((negativeLength_singleton l).mp h) hl⟩, ?_⟩
  rintro (h | h)
  · simp only [List.mem_singleton] at h
    exact NbtEvent.noConfusion h
  · exact absurd h hne

theorem logOK_negative {α : Type} {inp : List Nat} (l : Int) (hne : inp ≠ []) (hl : l < 0) :
    LogOK inp (NbtOut.panic : NbtOut α) [NbtEvent.length l] := by
  refine ⟨⟨fun _ => (negativeLength_singleton l).mpr hl, fun _ => rfl⟩, ?_⟩
  rintro (h | h)
  · simp only [List.mem_singleton] at h
    exact NbtEvent.noConfusion h
  · exact absurd h hne

theorem logOK_ok_retag {α β : Type} {inp rest : List Nat} {v : α} {log : List NbtEvent}
    (h : LogOK inp (NbtOut.ok v rest) log) (w : β) : LogOK inp (NbtOut.ok w rest) log := by
  refine ⟨⟨fun he => NbtOut.noConfusion he, fun hn => NbtOut.noConfusion (h.1.mpr hn)⟩, ?_⟩
  intro hp
  rcases h.2 hp with he | ⟨u, he⟩
  · exact NbtOut.noConfusion he
  · simp only [NbtOut.ok.injEq] at he
    exact Or.inr ⟨w, by rw [he.2]⟩

theorem logOK_error_retag {α β : Type} {inp : List Nat} {log : List NbtEvent}
    (h : LogOK inp (NbtOut.error : NbtOut α) log) : LoopOK inp (NbtOut.error : NbtOut β) log :=
  ⟨⟨fun he => NbtOut.noConfusion he, fun hn => NbtOut.noConfusion (h.1.mpr hn)⟩, fun _ => rfl⟩

theorem logOK_panic_retag {α β : Type} {inp : List Nat} {log : List NbtEvent}
    (h : LogOK inp (NbtOut.panic : NbtOut α) log) : LoopOK inp (NbtOut.panic : NbtOut β) log := by
  refine ⟨⟨fun _ => h.1.mp rfl, fun _ => rfl⟩, ?_⟩
  intro hp
  rcases h.2 hp with he | ⟨u, he⟩
  · exact NbtOut.noConfusion he
  · exact NbtOut.noConfusion he

theorem loopOK_logOK {α : Type} {inp : List Nat} {out : NbtOut α} {log : List NbtEvent}
    (h : LoopOK inp out log) : LogOK inp out log :=
  ⟨h.1, fun hp => Or.inl (h.2 hp)⟩

/-- A read of the input after its first byte, seen from the whole input. -/
theorem logOK_cons {α : Type} {inp : List Nat} (b : Nat) {rest : List Nat} {out : NbtOut α}
    {log : List NbtEvent} (hinp : inp = b :: rest) (h : LogOK rest out log) :
    LogOK inp out log := by
  have h1 : LogOK inp (NbtOut.ok b rest) [] := logOK_ok b rest (by rw [hinp]; exact List.cons_ne_nil _ _)
  exact logOK_seq h1 h

theorem readByte_cons {inp : List Nat} {b : Nat} {rest : List Nat}
    (h : readByte inp = NbtOut.ok b rest) : inp = b :: rest := by
  cases inp with
  | nil => exact NbtOut.noConfusion h
  | cons a r =>
    simp only [readByte, NbtOut.ok.injEq] at h
    rw [h.1, h.2]

theorem readByte_ne_panic (inp : List Nat) : readByte inp ≠ NbtOut.panic := by
  cases inp with
  | nil => exact fun h => NbtOut.noConfusion h
  | cons a r => exact fun h => NbtOut.noConfusion h

theorem readInt16_ne_panic (inp : List Nat) : readInt16 inp ≠ NbtOut.panic := by
  match inp with
  | [] => exact fun h => NbtOut.noConfusion h
  | [_] => exact fun h => NbtOut.noConfusion h
  | _ :: _ :: _ => exact fun h => NbtOut.noConfusion h

theorem readInt32_ne_panic (inp : List Nat) : readInt32 inp ≠ NbtOut.panic := by
  match inp with
  | [] => exact fun h => NbtOut.noConfusion h
  | [_] => exact fun h => NbtOut.noConfusion h
  | [_, _] => exact fun h => NbtOut.noConfusion h
  | [_, _, _] => exact fun h => NbtOut.noConfusion h
  | _ :: _ :: _ :: _ :: _ => exact fun h => NbtOut.noConfusion h

theorem readInt16_ne_nil {inp : List Nat} {l : Int} {rest : List Nat}
    (h : readInt16 inp = NbtOut.ok l rest) : inp ≠ [] := by
  intro he
  rw [he] at h
  exact NbtOut.noConfusion h

theorem readInt32_ne_nil {inp : List Nat} {l : Int} {rest : List Nat}
    (h : readInt32 inp = NbtOut.ok l rest) : inp ≠ [] := by
  intro he
  rw [he] at h
  exact NbtOut.noConfusion h

theorem readFullLog_fst (n : Nat) (inp : List Nat) : (readFullLog n inp).1 = readFull n inp := by
  unfold readFullLog readFull
  split <;> rfl

theorem logOK_readFull (n : Nat) (inp : List Nat) :
    LogOK inp (readFullLog n inp).1 (readFullLog n inp).2 := by
  unfold readFullLog
  split
  · exact logOK_exhausted inp
  · refine ⟨⟨fun h => NbtOut.noConfusion h, fun h => absurd h not_negativeLength_nil⟩, ?_⟩
    rintro (h | h)
    · exact absurd h (List.not_mem_nil _)
    · subst h
      exact Or.inr ⟨List.take n [], by simp only [List.drop_nil]⟩

theorem readStringLog_fst (inp : List Nat) : (readStringLog inp).1 = readString inp := by
  unfold readStringLog readString
  cases readInt16 inp with
  | error => rfl
  | panic => rfl
  | ok l rest =>
    simp only
    split
    · rfl
    · exact readFullLog_fst _ _

theorem logOK_readString (inp : List Nat) :
    LogOK inp (readStringLog inp).1 (readStringLog inp).2 := by
  unfold readStringLog
  cases hr : readInt16 inp with
  | error =>
    exact ⟨⟨fun h => NbtOut.noConfusion h, fun h => absurd h not_negativeLength_exhausted⟩,
      fun _ => Or.inr ⟨[], rfl⟩⟩
  | panic => exact absurd hr (readInt16_ne_panic inp)
  | ok l rest =>
    have hne := readInt16_ne_nil hr
    simp only
    split
    · rename_i hl
      exact logOK_negative l hne hl
    · rename_i hl
      exact logOK_seq (logOK_length l rest hne hl) (logOK_readFull l.toNat rest)

theorem readElems_log (f : List Nat → Option (NbtOut NbtValue))
    (g : List Nat → Option (NbtOut NbtValue × List NbtEvent))
    (hfg : ∀ inp out, f inp = some out → ∃ log, g inp = some (out, log) ∧ LogOK inp out log) :
    ∀ (n : Nat) (acc : List NbtValue) (inp : List Nat) (out : NbtOut (List NbtValue)),
      readElems f n acc inp = some out →
        ∃ log, readElemsLog g n acc inp = some (out, log) ∧ LogOK inp out log := by
  intro n
  induction n with
  | zero =>
    intro acc inp out h
    simp only [readElems, Option.some.injEq] at h
    subst h
    refine ⟨[], rfl,
      ⟨fun h => NbtOut.noConfusion h, fun h => absurd h not_negativeLength_nil⟩, ?_⟩
    rintro (h | h)
    · exact absurd h (List.not_mem_nil _)
    · exact Or.inr ⟨acc, by rw [h]⟩
  | succ n ih =>
    intro acc inp out h
    cases hf : f inp with
    | none =>
      simp only [readElems, hf] at h
      exact Option.noConfusion h
    | some o =>
      obtain ⟨log, hg, hl⟩ := hfg inp o hf
      cases o with
      | ok v rest =>
        simp only [readElems, hf] at h
        obtain ⟨log2, hg2, hl2⟩ := ih (acc ++ [v]) rest out h
        exact ⟨log ++ log2, by simp only [readElemsLog, hg, hg2, withLog], logOK_seq hl hl2⟩
      | error =>
        simp only [readElems, hf, Option.some.injEq] at h
        subst h
        exact ⟨log, by simp only [readElemsLog, hg], loopOK_logOK (logOK_error_retag hl)⟩
      | panic =>
        simp only [readElems, hf, Option.some.injEq] at h
        subst h
        exact ⟨log, by simp only [readElemsLog, hg], loopOK_logOK (logOK_panic_retag hl)⟩

/-- A length field and the bytes that follow it, read with `io.ReadFull`. -/
theorem logOK_counted {inp : List Nat} (l : Int) (rest : List Nat) (n : Nat)
    (hne : inp ≠ []) (hl : ¬ l < 0) :
    ∃ o lg, readFullLog n rest = (o, lg) ∧ readFull n rest = o ∧
      LogOK inp o (NbtEvent.length l :: lg) := by
  obtain ⟨o, lg, hpair⟩ : ∃ o lg, readFullLog n rest = (o, lg) := ⟨_, _, rfl⟩
  have hfst : readFull n rest = o := by rw [← readFullLog_fst, hpair]
  have hf : LogOK rest o lg := by
    have h := logOK_readFull n rest
    rw [hpair] at h
    exact h
  exact ⟨o, lg, hpair, hfst, logOK_seq (logOK_length l rest hne hl) hf⟩

theorem logOK_string (inp : List Nat) :
    ∃ o lg, readStringLog inp = (o, lg) ∧ readString inp = o ∧ LogOK inp o lg := by
  obtain ⟨o, lg, hpair⟩ : ∃ o lg, readStringLog inp = (o, lg) := ⟨_, _, rfl⟩
  have hfst : readString inp = o := by rw [← readStringLog_fst, hpair]
  have hf : LogOK inp o lg := by
    have h := logOK_readString inp
    rw [hpair] at h
    exact h
  exact ⟨o, lg, hpair, hfst, hf⟩

/-- Whatever `readType` and the loop of `Compound.deserialize` return, the
readers with a log return too, with a log that tells a panic from a negative
length field and an exhausted input from an error. -/
theorem nbt_log : ∀ fuel : Nat,
    (∀ (id : Nat) (inp : List Nat) (out : NbtOut NbtValue), readType fuel id inp = some out →
      ∃ log, readTypeLog fuel id inp = some (out, log) ∧ LogOK inp out log) ∧
    (∀ (items : List (List Nat × NbtValue)) (inp : List Nat)
      (out : NbtOut (List (List Nat × NbtValue))), deserializeLoop fuel items inp = some out →
      ∃ log, deserializeLoopLog fuel items inp = some (out, log) ∧ LoopOK inp out log) := by
  intro fuel
  induction fuel with
  | zero =>
    exact ⟨fun _ _ _ h => Option.noConfusion h, fun _ _ _ h => Option.noConfusion h⟩
  | succ f ih =>
    obtain ⟨ihT, ihL⟩ := ih
    constructor
    · intro id inp out h
      match id with
      | 0 =>
        simp only [readType, Option.some.injEq] at h
        subst h
        exact ⟨[], rfl, logOK_invalid inp⟩
      | 1 =>
        cases hr : readByte inp with
        | ok b rest =>
          have hne : inp ≠ [] := by rw [readByte_cons hr]; exact List.cons_ne_nil _ _
          simp only [readType, hr, Option.some.injEq] at h
          subst h
          exact ⟨[], by simp only [readTypeLog, hr], logOK_ok _ rest hne⟩
        | error =>
          simp only [readType, hr, Option.some.injEq] at h
          subst h
          exact ⟨_, by simp only [readTypeLog, hr], logOK_exhausted inp⟩
        | panic => exact absurd hr (readByte_ne_panic inp)
      | 2 =>
        cases hr : readInt16 inp with
        | ok b rest =>
          have hne := readInt16_ne_nil hr
          simp only [readType, hr, Option.some.injEq] at h
          subst h
          exact ⟨[], by simp only [readTypeLog, hr], logOK_ok _ rest hne⟩
        | error =>
          simp only [readType, hr, Option.some.injEq] at h
          subst h
          exact ⟨_, by simp only [readTypeLog, hr], logOK_exhausted inp⟩
        | panic => exact absurd hr (readInt16_ne_panic inp)
      | 3 =>
        cases hr : readInt32 inp with
        | ok b rest =>
          have hne := readInt32_ne_nil hr
          simp only [readType, hr, Option.some.injEq] at h
          subst h
          exact ⟨[], by simp only [readTypeLog, hr], logOK_ok _ rest hne⟩
        | error =>
          simp only [readType, hr, Option.some.injEq] at h
          subst h
          exact ⟨_, by simp only [readTypeLog, hr], logOK_exhausted inp⟩
        | panic => exact absurd hr (readInt32_ne_panic inp)
      | 4 =>
        match inp, h with
        | a :: b :: c :: d :: e :: g :: k :: i :: rest, h =>
          simp only [readType, Option.some.injEq] at h
          subst h
          exact ⟨[], by simp only [readTypeLog], logOK_ok _ rest (List.cons_ne_nil _ _)⟩
        | [], h | [_], h | [_, _], h | [_, _, _], h | [_, _, _, _], h | [_, _, _, _, _], h
        | [_, _, _, _, _, _], h | [_, _, _, _, _, _, _], h =>
          simp only [readType, Option.some.injEq] at h
          subst h
          exact ⟨_, by simp only [readTypeLog], logOK_exhausted _⟩
      | 5 =>
        match inp, h with
        | a :: b :: c :: d :: rest, h =>
          simp only [readType, Option.some.injEq] at h
          subst h
          exact ⟨[], by simp only [readTypeLog], logOK_ok _ rest (List.cons_ne_nil _ _)⟩
        | [], h | [_], h | [_, _], h | [_, _, _], h =>
          simp only [readType, Option.some.injEq] at h
          subst h
          exact ⟨_, by simp only [readTypeLog], logOK_exhausted _⟩
      | 6 =>
        match inp, h with
        | a :: b :: c :: d :: e :: g :: k :: i :: rest, h =>
          simp only [readType, Option.some.injEq] at h
          subst h
          exact ⟨[], by simp only [readTypeLog], logOK_ok _ rest (List.cons_ne_nil _ _)⟩
        | [], h | [_], h | [_, _], h | [_, _, _], h | [_, _, _, _], h | [_, _, _, _, _], h
        | [_, _, _, _, _, _], h | [_, _, _, _, _, _, _], h =>
          simp only [readType, Option.some.injEq] at h
          subst h
          exact ⟨_, by simp only [readTypeLog], logOK_exhausted _⟩
      | 7 =>
        cases hr : readInt32 inp with
        | error =>
          simp only [readType, hr, Option.some.injEq] at h
          subst h
          exact ⟨_, by simp only [readTypeLog, hr], logOK_exhausted inp⟩
        | panic => exact absurd hr (readInt32_ne_panic inp)
        | ok l rest =>
          have hne := readInt32_ne_nil hr
          by_cases hneg : l < 0
          · simp only [readType, hr, hneg, if_true, Option.some.injEq] at h
            subst h
            exact ⟨_, by simp only [readTypeLog, hr, hneg, if_true], logOK_negative l hne hneg⟩
          · obtain ⟨o, lg, hpair, hfst, hseq⟩ := logOK_counted l rest l.toNat hne hneg
            cases o with
            | ok v rest2 =>
              simp only [readType, hr, hneg, if_false, hfst, Option.some.injEq] at h
              subst h
              exact ⟨_, by simp only [readTypeLog, hr, hneg, if_false, hpair],
                logOK_ok_retag hseq _⟩
            | error =>
              simp only [readType, hr, hneg, if_false, hfst, Option.some.injEq] at h
              subst h
              exact ⟨_, by simp only [readTypeLog, hr, hneg, if_false, hpair],
                loopOK_logOK (logOK_error_retag hseq)⟩
            | panic =>
              simp only [readType, hr, hneg, if_false, hfst, Option.some.injEq] at h
              subst h
              exact ⟨_, by simp only [readTypeLog, hr, hneg, if_false, hpair],
                loopOK_logOK (logOK_panic_retag hseq)⟩
      | 8 =>
        obtain ⟨o, lg, hpair, hfst, hl⟩ := logOK_string inp
        cases o with
        | ok s rest =>
          simp only [readType, hfst, Option.some.injEq] at h
          subst h
          exact ⟨_, by simp only [readTypeLog, hpair], logOK_ok_retag hl _⟩
        | error =>
          simp only [readType, hfst, Option.some.injEq] at h
          subst h
          exact ⟨_, by simp only [readTypeLog, hpair], loopOK_logOK (logOK_error_retag hl)⟩
        | panic =>
          simp only [readType, hfst, Option.some.injEq] at h
          subst h
          exact ⟨_, by simp only [readTypeLog, hpair], loopOK_logOK (logOK_panic_retag hl)⟩
      | 9 =>
        cases hr : readByte inp with
        | error =>
          simp only [readType, hr, Option.some.injEq] at h
          subst h
          exact ⟨_, by simp only [readTypeLog, hr], logOK_exhausted inp⟩
        | panic => exact absurd hr (readByte_ne_panic inp)
        | ok t rest =>
          have hinp := readByte_cons hr
          cases hr2 : readInt32 rest with
          | error =>
            simp only [readType, hr, hr2, Option.some.injEq] at h
            subst h
            exact ⟨_, by simp only [readTypeLog, hr, hr2], logOK_exhausted inp⟩
          | panic => exact absurd hr2 (readInt32_ne_panic rest)
          | ok le rest2 =>
            have hne := readInt32_ne_nil hr2
            by_cases hneg : le < 0
            · simp only [readType, hr, hr2, hneg, if_true, Option.some.injEq] at h
              subst h
              exact ⟨_, by simp only [readTypeLog, hr, hr2, hneg, if_true],
                logOK_cons t hinp (logOK_negative le hne hneg)⟩
            · cases he : readElems (readType f t) le.toNat [] rest2 with
              | none =>
                simp only [readType, hr, hr2, hneg, if_false, he] at h
                exact Option.noConfusion h
              | some o =>
                obtain ⟨lg, hlg, hl⟩ := readElems_log (readType f t) (readTypeLog f t)
                  (ihT t) le.toNat [] rest2 o he
                have hseq := logOK_cons t hinp (logOK_seq (logOK_length le rest2 hne hneg) hl)
                cases o with
                | ok elements rest3 =>
                  simp only [readType, hr, hr2, hneg, if_false, he, Option.some.injEq] at h
                  subst h
                  exact ⟨_, by simp only [readTypeLog, hr, hr2, hneg, if_false, hlg]; rfl,
                    logOK_ok_retag hseq _⟩
                | error =>
                  simp only [readType, hr, hr2, hneg, if_false, he, Option.some.injEq] at h
                  subst h
                  exact ⟨_, by simp only [readTypeLog, hr, hr2, hneg, if_false, hlg]; rfl,
                    loopOK_logOK (logOK_error_retag hseq)⟩
                | panic =>
                  simp only [readType, hr, hr2, hneg, if_false, he, Option.some.injEq] at h
                  subst h
                  exact ⟨_, by simp only [readTypeLog, hr, hr2, hneg, if_false, hlg]; rfl,
                    loopOK_logOK (logOK_panic_retag hseq)⟩
      | 10 =>
        cases he : deserializeLoop f [] inp with
        | none =>
          simp only [readType, he] at h
          exact Option.noConfusion h
        | some o =>
          obtain ⟨lg, hlg, hl⟩ := ihL [] inp o he
          cases o with
          | ok items rest =>
            simp only [readType, he, Option.some.injEq] at h
            subst h
            exact ⟨_, by simp only [readTypeLog, hlg], logOK_ok_retag (loopOK_logOK hl) _⟩
          | error =>
            simp only [readType, he, Option.some.injEq] at h
            subst h
            exact ⟨_, by simp only [readTypeLog, hlg], loopOK_logOK (logOK_error_retag (loopOK_logOK hl))⟩
          | panic =>
            simp only [readType, he, Option.some.injEq] at h
            subst h
            exact ⟨_, by simp only [readTypeLog, hlg], loopOK_logOK (logOK_panic_retag (loopOK_logOK hl))⟩
      | 11 =>
        cases hr : readInt32 inp with
        | error =>
          simp only [readType, hr, Option.some.injEq] at h
          subst h
          exact ⟨_, by simp only [readTypeLog, hr], logOK_exhausted inp⟩
        | panic => exact absurd hr (readInt32_ne_panic inp)
        | ok l rest =>
          have hne := readInt32_ne_nil hr
          by_cases hneg : l < 0
          · simp only [readType, hr, hneg, if_true, Option.some.injEq] at h
            subst h
            exact ⟨_, by simp only [readTypeLog, hr, hneg, if_true], logOK_negative l hne hneg⟩
          · obtain ⟨o, lg, hpair, hfst, hseq⟩ := logOK_counted l rest (4 * l.toNat) hne hneg
            cases o with
            | ok v rest2 =>
              simp only [readType, hr, hneg, if_false, hfst, Option.some.injEq] at h
              subst h
              exact ⟨_, by simp only [readTypeLog, hr, hneg, if_false, hpair],
                logOK_ok_retag hseq _⟩
            | error =>
              simp only [readType, hr, hneg, if_false, hfst, Option.some.injEq] at h
              subst h
              exact ⟨_, by simp only [readTypeLog, hr, hneg, if_false, hpair],
                loopOK_logOK (logOK_error_retag hseq)⟩
            | panic =>
              simp only [readType, hr, hneg, if_false, hfst, Option.some.injEq] at h
              subst h
              exact ⟨_, by simp only [readTypeLog, hr, hneg, if_false, hpair],
                loopOK_logOK (logOK_panic_retag hseq)⟩
      | n + 12 =>
        simp only [readType, Option.some.injEq] at h
        subst h
        exact ⟨[], by simp only [readTypeLog], logOK_invalid inp⟩
    · intro items inp out h
      cases hr : readByte inp with
      | error =>
        simp only [deserializeLoop, hr, Option.some.injEq] at h
        subst h
        exact ⟨_, by simp only [deserializeLoopLog, hr],
          logOK_error_retag (@logOK_exhausted Nat inp)⟩
      | panic => exact absurd hr (readByte_ne_panic inp)
      | ok id rest =>
        have hinp := readByte_cons hr
        have hne : inp ≠ [] := by rw [hinp]; exact List.cons_ne_nil _ _
        by_cases hid : id = 0
        · simp only [deserializeLoop, hr, hid, if_true, Option.some.injEq] at h
          subst h
          refine ⟨[], by simp only [deserializeLoopLog, hr, hid, if_true], ?_⟩
          refine ⟨⟨fun he => NbtOut.noConfusion he, fun hn => absurd hn not_negativeLength_nil⟩,
            ?_⟩
          rintro (hp | hp)
          · exact absurd hp (List.not_mem_nil _)
          · exact absurd hp hne
        · obtain ⟨o, lg, hpair, hfst, hl⟩ := logOK_string rest
          have hl1 := logOK_cons id hinp hl
          cases o with
          | error =>
            simp only [deserializeLoop, hr, hid, if_false, hfst, Option.some.injEq] at h
            subst h
            exact ⟨_, by simp only [deserializeLoopLog, hr, hid, if_false, hpair],
              logOK_error_retag hl1⟩
          | panic =>
            simp only [deserializeLoop, hr, hid, if_false, hfst, Option.some.injEq] at h
            subst h
            exact ⟨_, by simp only [deserializeLoopLog, hr, hid, if_false, hpair],
              logOK_panic_retag hl1⟩
          | ok name rest2 =>
            cases he : readType f id rest2 with
            | none =>
              simp only [deserializeLoop, hr, hid, if_false, hfst, he] at h
              exact Option.noConfusion h
            | some o2 =>
              obtain ⟨lg2, hlg2, hl2⟩ := ihT id rest2 o2 he
              have hseq := logOK_seq hl1 hl2
              cases o2 with
              | error =>
                simp only [deserializeLoop, hr, hid, if_false, hfst, he,
                  Option.some.injEq] at h
                subst h
                exact ⟨_, by simp only [deserializeLoopLog, hr, hid, if_false, hpair, hlg2],
                  logOK_error_retag hseq⟩
              | panic =>
                simp only [deserializeLoop, hr, hid, if_false, hfst, he,
                  Option.some.injEq] at h
                subst h
                exact ⟨_, by simp only [deserializeLoopLog, hr, hid, if_false, hpair, hlg2],
                  logOK_panic_retag hseq⟩
              | ok v rest3 =>
                simp only [deserializeLoop, hr, hid, if_false, hfst, he] at h
                obtain ⟨lg3, hlg3, hl3⟩ := ihL (items ++ [(name, v)]) rest3 out h
                exact ⟨_, by simp only [deserializeLoopLog, hr, hid, if_false, hpair, hlg2,
                  hlg3, withLog], loopOK_seq hseq hl3⟩

theorem Deserialize_log (inp : List Nat) (out : NbtOut Compound)
    (h : Deserialize inp = some out) :
    ∃ log, DeserializeLog inp = some (out, log) ∧ LoopOK inp out log := by
  obtain ⟨o, lg, hpair, hfst, hl⟩ := logOK_string inp
  cases o with
  | error =>
    simp only [Deserialize, hfst, Option.some.injEq] at h
    subst h
    exact ⟨_, by simp only [DeserializeLog, hpair], logOK_error_retag hl⟩
  | panic =>
    simp only [Deserialize, hfst, Option.some.injEq] at h
    subst h
    exact ⟨_, by simp only [DeserializeLog, hpair], logOK_panic_retag hl⟩
  | ok name rest =>
    cases he : deserializeLoop (2 * rest.length + 2) [] rest with
    | none =>
      simp only [Deserialize, hfst, he] at h
      exact Option.noConfusion h
    | some o2 =>
      obtain ⟨lg2, hlg2, hl2⟩ := (nbt_log (2 * rest.length + 2)).2 [] rest o2 he
      have hseq := loopOK_seq hl hl2
      cases o2 with
      | ok items rest2 =>
        simp only [Deserialize, hfst, he, Option.some.injEq] at h
        subst h
        refine ⟨lg ++ lg2, by simp only [DeserializeLog, hpair, hlg2], ?_⟩
        refine ⟨⟨fun e => NbtOut.noConfusion e, fun hn => NbtOut.noConfusion (hseq.1.mpr hn)⟩,
          fun hp => NbtOut.noConfusion (hseq.2 hp)⟩
      | error =>
        simp only [Deserialize, hfst, he, Option.some.injEq] at h
        subst h
        exact ⟨_, by simp only [DeserializeLog, hpair, hlg2], logOK_error_retag (loopOK_logOK hseq)⟩
      | panic =>
        simp only [Deserialize, hfst, he, Option.some.injEq] at h
        subst h
        exact ⟨_, by simp only [DeserializeLog, hpair, hlg2], logOK_panic_retag (loopOK_logOK hseq)⟩

/-- Runs of `Compound.Deserialize` on small inputs: a compound with an empty
name and one byte field of value 200, which has a byte above 127 and no
negative length field and is read well; the same input cut before its End
tag, and cut inside the field, which give an error. -/
theorem Deserialize_examples :
    Deserialize [0, 0, 1, 0, 0, 200, 0] =
      some (NbtOut.ok { Name := [], items := [([], NbtValue.byte 200)] } []) ∧
    Deserialize [0, 0, 1, 0, 0, 200] = some NbtOut.error ∧
    Deserialize [0, 0, 1, 0] = some NbtOut.error ∧
    Deserialize [] = some NbtOut.error ∧
    DeserializeLog [0, 0, 1, 0, 0, 200] =
      some (NbtOut.error, [NbtEvent.length 0, NbtEvent.length 0, NbtEvent.exhausted]) :=
  ⟨rfl, rfl, rfl, rfl, rfl⟩


/-! ## Inputs cut short -/

theorem readByte_append {inp : List Nat} {b : Nat} {rest : List Nat} (suf : List Nat)
    (h : readByte inp = NbtOut.ok b rest) : readByte (inp ++ suf) = NbtOut.ok b (rest ++ suf) := by
  rw [readByte_cons h]
  rfl

theorem readInt16_append {inp : List Nat} {l : Int} {rest : List Nat} (suf : List Nat)
    (h : readInt16 inp = NbtOut.ok l rest) :
    readInt16 (inp ++ suf) = NbtOut.ok l (rest ++ suf) := by
  match inp, h with
  | a :: b :: r, h =>
    simp only [readInt16, NbtOut.ok.injEq] at h
    rw [← h.1, ← h.2]
    rfl

theorem readInt32_append {inp : List Nat} {l : Int} {rest : List Nat} (suf : List Nat)
    (h : readInt32 inp = NbtOut.ok l rest) :
    readInt32 (inp ++ suf) = NbtOut.ok l (rest ++ suf) := by
  match inp, h with
  | a :: b :: c :: d :: r, h =>
    simp only [readInt32, NbtOut.ok.injEq] at h
    rw [← h.1, ← h.2]
    rfl

theorem not_exhausted_cons {e : NbtEvent} {log : List NbtEvent}
    (h : NbtEvent.exhausted ∉ e :: log) : NbtEvent.exhausted ∉ log :=
  fun hm => h (List.mem_cons_of_mem _ hm)

theorem not_exhausted_append {a b : List NbtEvent} (h : NbtEvent.exhausted ∉ a ++ b) :
    NbtEvent.exhausted ∉ a ∧ NbtEvent.exhausted ∉ b :=
  ⟨fun hm => h (List.mem_append.mpr (Or.inl hm)), fun hm => h (List.mem_append.mpr (Or.inr hm))⟩

theorem exhausted_mem_singleton : NbtEvent.exhausted ∈ [NbtEvent.exhausted] :=
  List.mem_singleton.mpr rfl

theorem readFullLog_append (n : Nat) (inp suf : List Nat)
    (hex : NbtEvent.exhausted ∉ (readFullLog n inp).2) :
    readFullLog n (inp ++ suf) = ((readFullLog n inp).1.extend suf, (readFullLog n inp).2) := by
  unfold readFullLog at hex ⊢
  by_cases hlt : inp.length < n
  · rw [if_pos hlt] at hex
    exact absurd exhausted_mem_singleton hex
  · have hle : n ≤ inp.length := by omega
    have hlt2 : ¬ (inp ++ suf).length < n := by
      rw [List.length_append]
      omega
    rw [if_neg hlt, if_neg hlt2, List.take_append_of_le_length hle,
      List.drop_append_of_le_length hle]
    rfl

theorem readStringLog_append (inp suf : List Nat)
    (hex : NbtEvent.exhausted ∉ (readStringLog inp).2) :
    readStringLog (inp ++ suf) = ((readStringLog inp).1.extend suf, (readStringLog inp).2) := by
  unfold readStringLog at hex ⊢
  cases hr : readInt16 inp with
  | error =>
    rw [hr] at hex
    exact absurd exhausted_mem_singleton hex
  | panic => exact absurd hr (readInt16_ne_panic inp)
  | ok l rest =>
    rw [hr] at hex
    rw [readInt16_append suf hr]
    simp only at hex ⊢
    by_cases hneg : l < 0
    · simp only [hneg, if_true]
      rfl
    · simp only [hneg, if_false] at hex ⊢
      rw [readFullLog_append l.toNat rest suf (not_exhausted_cons hex)]

theorem readElemsLog_extend (g g2 : List Nat → Option (NbtOut NbtValue × List NbtEvent))
    (suf : List Nat)
    (hg : ∀ inp out log, g inp = some (out, log) → NbtEvent.exhausted ∉ log →
      g2 (inp ++ suf) = some (out.extend suf, log)) :
    ∀ (n : Nat) (acc : List NbtValue) (inp : List Nat) (out : NbtOut (List NbtValue))
      (log : List NbtEvent), readElemsLog g n acc inp = some (out, log) →
      NbtEvent.exhausted ∉ log →
      readElemsLog g2 n acc (inp ++ suf) = some (out.extend suf, log) := by
  intro n
  induction n with
  | zero =>
    intro acc inp out log h _
    simp only [readElemsLog, Option.some.injEq, Prod.mk.injEq] at h
    obtain ⟨rfl, rfl⟩ := h
    rfl
  | succ n ih =>
    intro acc inp out log h hex
    cases hf : g inp with
    | none =>
      simp only [readElemsLog, hf] at h
      exact Option.noConfusion h
    | some r =>
      obtain ⟨o, lg⟩ := r
      cases o with
      | ok v rest =>
        simp only [readElemsLog, hf] at h
        cases hrec : readElemsLog g n (acc ++ [v]) rest with
        | none =>
          rw [hrec] at h
          exact Option.noConfusion h
        | some r2 =>
          obtain ⟨o2, lg2⟩ := r2
          rw [hrec] at h
          simp only [withLog, Option.some.injEq, Prod.mk.injEq] at h
          obtain ⟨rfl, rfl⟩ := h
          obtain ⟨hex1, hex2⟩ := not_exhausted_append hex
          have h1 := hg inp _ lg hf hex1
          have h2 := ih (acc ++ [v]) rest o2 lg2 hrec hex2
          simp only [NbtOut.extend] at h1
          simp only [readElemsLog, h1, h2, withLog]
      | error =>
        simp only [readElemsLog, hf, Option.some.injEq, Prod.mk.injEq] at h
        obtain ⟨rfl, rfl⟩ := h
        have h1 := hg inp _ lg hf hex
        simp only [NbtOut.extend] at h1
        simp only [readElemsLog, h1, NbtOut.extend]
      | panic =>
        simp only [readElemsLog, hf, Option.some.injEq, Prod.mk.injEq] at h
        obtain ⟨rfl, rfl⟩ := h
        have h1 := hg inp _ lg hf hex
        simp only [NbtOut.extend] at h1
        simp only [readElemsLog, h1, NbtOut.extend]

theorem readFullLog_append_pair {n : Nat} {inp : List Nat} (suf : List Nat)
    {o : NbtOut (List Nat)} {lg : List NbtEvent} (h : readFullLog n inp = (o, lg))
    (hex : NbtEvent.exhausted ∉ lg) : readFullLog n (inp ++ suf) = (o.extend suf, lg) := by
  have h1 := readFullLog_append n inp suf (by rw [h]; exact hex)
  rw [h] at h1
  exact h1

theorem readStringLog_append_pair {inp : List Nat} (suf : List Nat)
    {o : NbtOut (List Nat)} {lg : List NbtEvent} (h : readStringLog inp = (o, lg))
    (hex : NbtEvent.exhausted ∉ lg) : readStringLog (inp ++ suf) = (o.extend suf, lg) := by
  have h1 := readStringLog_append inp suf (by rw [h]; exact hex)
  rw [h] at h1
  exact h1

/-- A read that did not find its input exhausted goes the same way, with the
same log, when more input follows and when it has more fuel. -/
theorem nbt_extend (suf : List Nat) : ∀ f : Nat,
    (∀ (f2 id : Nat) (inp : List Nat) (out : NbtOut NbtValue) (log : List NbtEvent), f ≤ f2 →
      readTypeLog f id inp = some (out, log) → NbtEvent.exhausted ∉ log →
      readTypeLog f2 id (inp ++ suf) = some (out.extend suf, log)) ∧
    (∀ (f2 : Nat) (items : List (List Nat × NbtValue)) (inp : List Nat)
      (out : NbtOut (List (List Nat × NbtValue))) (log : List NbtEvent), f ≤ f2 →
      deserializeLoopLog f items inp = some (out, log) → NbtEvent.exhausted ∉ log →
      deserializeLoopLog f2 items (inp ++ suf) = some (out.extend suf, log)) := by
  intro f
  induction f with
  | zero =>
    exact ⟨fun _ _ _ _ _ _ h _ => Option.noConfusion h,
      fun _ _ _ _ _ _ h _ => Option.noConfusion h⟩
  | succ f ih =>
    obtain ⟨ihT, ihL⟩ := ih
    constructor
    · intro f2 id inp out log hf2 h hex
      obtain ⟨g, rfl⟩ : ∃ g, f2 = g + 1 := ⟨f2 - 1, by omega⟩
      have hfg : f ≤ g := by omega
      match id with
      | 0 =>
        simp only [readTypeLog, Option.some.injEq, Prod.mk.injEq] at h
        obtain ⟨rfl, rfl⟩ := h
        rfl
      | 1 =>
        cases hr : readByte inp with
        | ok b rest =>
          simp only [readTypeLog, hr, Option.some.injEq, Prod.mk.injEq] at h
          obtain ⟨rfl, rfl⟩ := h
          simp only [readTypeLog, readByte_append suf hr, NbtOut.extend]
        | error =>
          simp only [readTypeLog, hr, Option.some.injEq, Prod.mk.injEq] at h
          obtain ⟨rfl, rfl⟩ := h
          exact absurd exhausted_mem_singleton hex
        | panic => exact absurd hr (readByte_ne_panic inp)
      | 2 =>
        cases hr : readInt16 inp with
        | ok b rest =>
          simp only [readTypeLog, hr, Option.some.injEq, Prod.mk.injEq] at h
          obtain ⟨rfl, rfl⟩ := h
          simp only [readTypeLog, readInt16_append suf hr, NbtOut.extend]
        | error =>
          simp only [readTypeLog, hr, Option.some.injEq, Prod.mk.injEq] at h
          obtain ⟨rfl, rfl⟩ := h
          exact absurd exhausted_mem_singleton hex
        | panic => exact absurd hr (readInt16_ne_panic inp)
      | 3 =>
        cases hr : readInt32 inp with
        | ok b rest =>
          simp only [readTypeLog, hr, Option.some.injEq, Prod.mk.injEq] at h
          obtain ⟨rfl, rfl⟩ := h
          simp only [readTypeLog, readInt32_append suf hr, NbtOut.extend]
        | error =>
          simp only [readTypeLog, hr, Option.some.injEq, Prod.mk.injEq] at h
          obtain ⟨rfl, rfl⟩ := h
          exact absurd exhausted_mem_singleton hex
        | panic => exact absurd hr (readInt32_ne_panic inp)
      | 4 =>
        match inp, h with
        | a :: b :: c :: d :: e :: k :: m :: i :: rest, h =>
          simp only [readTypeLog, Option.some.injEq, Prod.mk.injEq] at h
          obtain ⟨rfl, rfl⟩ := h
          simp only [List.cons_append, readTypeLog, NbtOut.extend]
        | [], h | [_], h | [_, _], h | [_, _, _], h | [_, _, _, _], h | [_, _, _, _, _], h
        | [_, _, _, _, _, _], h | [_, _, _, _, _, _, _], h =>
          simp only [readTypeLog, Option.some.injEq, Prod.mk.injEq] at h
          obtain ⟨rfl, rfl⟩ := h
          exact absurd exhausted_mem_singleton hex
      | 5 =>
        match inp, h with
        | a :: b :: c :: d :: rest, h =>
          simp only [readTypeLog, Option.some.injEq, Prod.mk.injEq] at h
          obtain ⟨rfl, rfl⟩ := h
          simp only [List.cons_append, readTypeLog, NbtOut.extend]
        | [], h | [_], h | [_, _], h | [_, _, _], h =>
          simp only [readTypeLog, Option.some.injEq, Prod.mk.injEq] at h
          obtain ⟨rfl, rfl⟩ := h
          exact absurd exhausted_mem_singleton hex
      | 6 =>
        match inp, h with
        | a :: b :: c :: d :: e :: k :: m :: i :: rest, h =>
          simp only [readTypeLog, Option.some.injEq, Prod.mk.injEq] at h
          obtain ⟨rfl, rfl⟩ := h
          simp only [List.cons_append, readTypeLog, NbtOut.extend]
        | [], h | [_], h | [_, _], h | [_, _, _], h | [_, _, _, _], h | [_, _, _, _, _], h
        | [_, _, _, _, _, _], h | [_, _, _, _, _, _, _], h =>
          simp only [readTypeLog, Option.some.injEq, Prod.mk.injEq] at h
          obtain ⟨rfl, rfl⟩ := h
          exact absurd exhausted_mem_singleton hex
      | 7 =>
        cases hr : readInt32 inp with
        | error =>
          simp only [readTypeLog, hr, Option.some.injEq, Prod.mk.injEq] at h
          obtain ⟨rfl, rfl⟩ := h
          exact absurd exhausted_mem_singleton hex
        | panic => exact absurd hr (readInt32_ne_panic inp)
        | ok l rest =>
          by_cases hneg : l < 0
          · simp only [readTypeLog, hr, hneg, if_true, Option.some.injEq, Prod.mk.injEq] at h
            obtain ⟨rfl, rfl⟩ := h
            simp only [readTypeLog, readInt32_append suf hr, hneg, if_true, NbtOut.extend]
          · obtain ⟨o, lg, hpair⟩ : ∃ o lg, readFullLog l.toNat rest = (o, lg) := ⟨_, _, rfl⟩
            cases o with
            | ok v rest2 =>
              simp only [readTypeLog, hr, hneg, if_false, hpair, Option.some.injEq,
                Prod.mk.injEq] at h
              obtain ⟨rfl, rfl⟩ := h
              have h2 := readFullLog_append_pair suf hpair (not_exhausted_cons hex)
              simp only [NbtOut.extend] at h2
              simp only [readTypeLog, readInt32_append suf hr, hneg, if_false, h2,
                NbtOut.extend]
            | error =>
              simp only [readTypeLog, hr, hneg, if_false, hpair, Option.some.injEq,
                Prod.mk.injEq] at h
              obtain ⟨rfl, rfl⟩ := h
              have h2 := readFullLog_append_pair suf hpair (not_exhausted_cons hex)
              simp only [NbtOut.extend] at h2
              simp only [readTypeLog, readInt32_append suf hr, hneg, if_false, h2,
                NbtOut.extend]
            | panic =>
              simp only [readTypeLog, hr, hneg, if_false, hpair, Option.some.injEq,
                Prod.mk.injEq] at h
              obtain ⟨rfl, rfl⟩ := h
              have h2 := readFullLog_append_pair suf hpair (not_exhausted_cons hex)
              simp only [NbtOut.extend] at h2
              simp only [readTypeLog, readInt32_append suf hr, hneg, if_false, h2,
                NbtOut.extend]
      | 8 =>
        obtain ⟨o, lg, hpair⟩ : ∃ o lg, readStringLog inp = (o, lg) := ⟨_, _, rfl⟩
        cases o with
        | ok s rest =>
          simp only [readTypeLog, hpair, Option.some.injEq, Prod.mk.injEq] at h
          obtain ⟨rfl, rfl⟩ := h
          have h2 := readStringLog_append_pair suf hpair hex
          simp only [NbtOut.extend] at h2
          simp only [readTypeLog, h2, NbtOut.extend]
        | error =>
          simp only [readTypeLog, hpair, Option.some.injEq, Prod.mk.injEq] at h
          obtain ⟨rfl, rfl⟩ := h
          have h2 := readStringLog_append_pair suf hpair hex
          simp only [NbtOut.extend] at h2
          simp only [readTypeLog, h2, NbtOut.extend]
        | panic =>
          simp only [readTypeLog, hpair, Option.some.injEq, Prod.mk.injEq] at h
          obtain ⟨rfl, rfl⟩ := h
          have h2 := readStringLog_append_pair suf hpair hex
          simp only [NbtOut.extend] at h2
          simp only [readTypeLog, h2, NbtOut.extend]
      | 9 =>
        cases hr : readByte inp with
        | error =>
          simp only [readTypeLog, hr, Option.some.injEq, Prod.mk.injEq] at h
          obtain ⟨rfl, rfl⟩ := h
          exact absurd exhausted_mem_singleton hex
        | panic => exact absurd hr (readByte_ne_panic inp)
        | ok t rest =>
          cases hr2 : readInt32 rest with
          | error =>
            simp only [readTypeLog, hr, hr2, Option.some.injEq, Prod.mk.injEq] at h
            obtain ⟨rfl, rfl⟩ := h
            exact absurd exhausted_mem_singleton hex
          | panic => exact absurd hr2 (readInt32_ne_panic rest)
          | ok le rest2 =>
            by_cases hneg : le < 0
            · simp only [readTypeLog, hr, hr2, hneg, if_true, Option.some.injEq,
                Prod.mk.injEq] at h
              obtain ⟨rfl, rfl⟩ := h
              simp only [readTypeLog, readByte_append suf hr, readInt32_append suf hr2, hneg,
                if_true, NbtOut.extend]
            · cases he : readElemsLog (readTypeLog f t) le.toNat [] rest2 with
              | none =>
                simp only [readTypeLog, hr, hr2, hneg, if_false, he] at h
                exact Option.noConfusion h
              | some r =>
                obtain ⟨o, lg⟩ := r
                have hext := readElemsLog_extend (readTypeLog f t) (readTypeLog g t) suf
                  (fun inp2 out2 log2 h2 hex2 => ihT g t inp2 out2 log2 hfg h2 hex2)
                  le.toNat [] rest2 o lg he
                cases o with
                | ok elements rest3 =>
                  simp only [readTypeLog, hr, hr2, hneg, if_false, he, Option.some.injEq,
                    Prod.mk.injEq] at h
                  obtain ⟨rfl, rfl⟩ := h
                  have h2 := hext (not_exhausted_cons hex)
                  simp only [NbtOut.extend] at h2
                  simp only [readTypeLog, readByte_append suf hr, readInt32_append suf hr2,
                    hneg, if_false, h2, NbtOut.extend]
                | error =>
                  simp only [readTypeLog, hr, hr2, hneg, if_false, he, Option.some.injEq,
                    Prod.mk.injEq] at h
                  obtain ⟨rfl, rfl⟩ := h
                  have h2 := hext (not_exhausted_cons hex)
                  simp only [NbtOut.extend] at h2
                  simp only [readTypeLog, readByte_append suf hr, readInt32_append suf hr2,
                    hneg, if_false, h2, NbtOut.extend]
                | panic =>
                  simp only [readTypeLog, hr, hr2, hneg, if_false, he, Option.some.injEq,
                    Prod.mk.injEq] at h
                  obtain ⟨rfl, rfl⟩ := h
                  have h2 := hext (not_exhausted_cons hex)
                  simp only [NbtOut.extend] at h2
                  simp only [readTypeLog, readByte_append suf hr, readInt32_append suf hr2,
                    hneg, if_false, h2, NbtOut.extend]
      | 10 =>
        cases he : deserializeLoopLog f [] inp with
        | none =>
          simp only [readTypeLog, he] at h
          exact Option.noConfusion h
        | some r =>
          obtain ⟨o, lg⟩ := r
          have hext := ihL g [] inp o lg hfg he
          cases o with
          | ok items rest =>
            simp only [readTypeLog, he, Option.some.injEq, Prod.mk.injEq] at h
            obtain ⟨rfl, rfl⟩ := h
            have h2 := hext hex
            simp only [NbtOut.extend] at h2
            simp only [readTypeLog, h2, NbtOut.extend]
          | error =>
            simp only [readTypeLog, he, Option.some.injEq, Prod.mk.injEq] at h
            obtain ⟨rfl, rfl⟩ := h
            have h2 := hext hex
            simp only [NbtOut.extend] at h2
            simp only [readTypeLog, h2, NbtOut.extend]
          | panic =>
            simp only [readTypeLog, he, Option.some.injEq, Prod.mk.injEq] at h
            obtain ⟨rfl, rfl⟩ := h
            have h2 := hext hex
            simp only [NbtOut.extend] at h2
            simp only [readTypeLog, h2, NbtOut.extend]
      | 11 =>
        cases hr : readInt32 inp with
        | error =>
          simp only [readTypeLog, hr, Option.some.injEq, Prod.mk.injEq] at h
          obtain ⟨rfl, rfl⟩ := h
          exact absurd exhausted_mem_singleton hex
        | panic => exact absurd hr (readInt32_ne_panic inp)
        | ok l rest =>
          by_cases hneg : l < 0
          · simp only [readTypeLog, hr, hneg, if_true, Option.some.injEq, Prod.mk.injEq] at h
            obtain ⟨rfl, rfl⟩ := h
            simp only [readTypeLog, readInt32_append suf hr, hneg, if_true, NbtOut.extend]
          · obtain ⟨o, lg, hpair⟩ : ∃ o lg, readFullLog (4 * l.toNat) rest = (o, lg) :=
              ⟨_, _, rfl⟩
            cases o with
            | ok v rest2 =>
              simp only [readTypeLog, hr, hneg, if_false, hpair, Option.some.injEq,
                Prod.mk.injEq] at h
              obtain ⟨rfl, rfl⟩ := h
              have h2 := readFullLog_append_pair suf hpair (not_exhausted_cons hex)
              simp only [NbtOut.extend] at h2
              simp only [readTypeLog, readInt32_append suf hr, hneg, if_false, h2,
                NbtOut.extend]
            | error =>
              simp only [readTypeLog, hr, hneg, if_false, hpair, Option.some.injEq,
                Prod.mk.injEq] at h
              obtain ⟨rfl, rfl⟩ := h
              have h2 := readFullLog_append_pair suf hpair (not_exhausted_cons hex)
              simp only [NbtOut.extend] at h2
              simp only [readTypeLog, readInt32_append suf hr, hneg, if_false, h2,
                NbtOut.extend]
            | panic =>
              simp only [readTypeLog, hr, hneg, if_false, hpair, Option.some.injEq,
                Prod.mk.injEq] at h
              obtain ⟨rfl, rfl⟩ := h
              have h2 := readFullLog_append_pair suf hpair (not_exhausted_cons hex)
              simp only [NbtOut.extend] at h2
              simp only [readTypeLog, readInt32_append suf hr, hneg, if_false, h2,
                NbtOut.extend]
      | n + 12 =>
        simp only [readTypeLog, Option.some.injEq, Prod.mk.injEq] at h
        obtain ⟨rfl, rfl⟩ := h
        simp only [readTypeLog, NbtOut.extend]
    · intro f2 items inp out log hf2 h hex
      obtain ⟨g, rfl⟩ : ∃ g, f2 = g + 1 := ⟨f2 - 1, by omega⟩
      have hfg : f ≤ g := by omega
      cases hr : readByte inp with
      | error =>
        simp only [deserializeLoopLog, hr, Option.some.injEq, Prod.mk.injEq] at h
        obtain ⟨rfl, rfl⟩ := h
        exact absurd exhausted_mem_singleton hex
      | panic => exact absurd hr (readByte_ne_panic inp)
      | ok id rest =>
        by_cases hid : id = 0
        · simp only [deserializeLoopLog, hr, hid, if_true, Option.some.injEq,
            Prod.mk.injEq] at h
          obtain ⟨rfl, rfl⟩ := h
          simp only [deserializeLoopLog, readByte_append suf hr, hid, if_true, NbtOut.extend]
        · obtain ⟨o, lg, hpair⟩ : ∃ o lg, readStringLog rest = (o, lg) := ⟨_, _, rfl⟩
          cases o with
          | error =>
            simp only [deserializeLoopLog, hr, hid, if_false, hpair, Option.some.injEq,
              Prod.mk.injEq] at h
            obtain ⟨rfl, rfl⟩ := h
            have h2 := readStringLog_append_pair suf hpair hex
            simp only [NbtOut.extend] at h2
            simp only [deserializeLoopLog, readByte_append suf hr, hid, if_false, h2,
              NbtOut.extend]
          | panic =>
            simp only [deserializeLoopLog, hr, hid, if_false, hpair, Option.some.injEq,
              Prod.mk.injEq] at h
            obtain ⟨rfl, rfl⟩ := h
            have h2 := readStringLog_append_pair suf hpair hex
            simp only [NbtOut.extend] at h2
            simp only [deserializeLoopLog, readByte_append suf hr, hid, if_false, h2,
              NbtOut.extend]
          | ok name rest2 =>
            cases he : readTypeLog f id rest2 with
            | none =>
              simp only [deserializeLoopLog, hr, hid, if_false, hpair, he] at h
              exact Option.noConfusion h
            | some r =>
              obtain ⟨o2, lg2⟩ := r
              have hext := ihT g id rest2 o2 lg2 hfg he
              cases o2 with
              | error =>
                simp only [deserializeLoopLog, hr, hid, if_false, hpair, he,
                  Option.some.injEq, Prod.mk.injEq] at h
                obtain ⟨rfl, rfl⟩ := h
                obtain ⟨hex1, hex2⟩ := not_exhausted_append hex
                have h1 := readStringLog_append_pair suf hpair hex1
                have h2 := hext hex2
                simp only [NbtOut.extend] at h1 h2
                simp only [deserializeLoopLog, readByte_append suf hr, hid, if_false, h1, h2,
                  NbtOut.extend]
              | panic =>
                simp only [deserializeLoopLog, hr, hid, if_false, hpair, he,
                  Option.some.injEq, Prod.mk.injEq] at h
                obtain ⟨rfl, rfl⟩ := h
                obtain ⟨hex1, hex2⟩ := not_exhausted_append hex
                have h1 := readStringLog_append_pair suf hpair hex1
                have h2 := hext hex2
                simp only [NbtOut.extend] at h1 h2
                simp only [deserializeLoopLog, readByte_append suf hr, hid, if_false, h1, h2,
                  NbtOut.extend]
              | ok v rest3 =>
                simp only [deserializeLoopLog, hr, hid, if_false, hpair, he] at h
                cases hrec : deserializeLoopLog f (items ++ [(name, v)]) rest3 with
                | none =>
                  rw [hrec] at h
                  exact Option.noConfusion h
                | some r3 =>
                  obtain ⟨o3, lg3⟩ := r3
                  rw [hrec] at h
                  simp only [withLog, Option.some.injEq, Prod.mk.injEq] at h
                  obtain ⟨rfl, rfl⟩ := h
                  obtain ⟨hex12, hex3⟩ := not_exhausted_append hex
                  obtain ⟨hex1, hex2⟩ := not_exhausted_append hex12
                  have h1 := readStringLog_append_pair suf hpair hex1
                  have h2 := hext hex2
                  have h3 := ihL g (items ++ [(name, v)]) rest3 o3 lg3 hfg hrec hex3
                  simp only [NbtOut.extend] at h1 h2
                  simp only [deserializeLoopLog, readByte_append suf hr, hid, if_false, h1, h2,
                    h3, withLog]

theorem DeserializeLog_extend (inp suf : List Nat) (out : NbtOut Compound)
    (log : List NbtEvent) (h : DeserializeLog inp = some (out, log))
    (hex : NbtEvent.exhausted ∉ log) :
    DeserializeLog (inp ++ suf) = some (out.extend suf, log) := by
  obtain ⟨o, lg, hpair⟩ : ∃ o lg, readStringLog inp = (o, lg) := ⟨_, _, rfl⟩
  cases o with
  | error =>
    simp only [DeserializeLog, hpair, Option.some.injEq, Prod.mk.injEq] at h
    obtain ⟨rfl, rfl⟩ := h
    have h2 := readStringLog_append_pair suf hpair hex
    simp only [NbtOut.extend] at h2
    simp only [DeserializeLog, h2, NbtOut.extend]
  | panic =>
    simp only [DeserializeLog, hpair, Option.some.injEq, Prod.mk.injEq] at h
    obtain ⟨rfl, rfl⟩ := h
    have h2 := readStringLog_append_pair suf hpair hex
    simp only [NbtOut.extend] at h2
    simp only [DeserializeLog, h2, NbtOut.extend]
  | ok name rest =>
    cases he : deserializeLoopLog (2 * rest.length + 2) [] rest with
    | none =>
      simp only [DeserializeLog, hpair, he] at h
      exact Option.noConfusion h
    | some r =>
      obtain ⟨o2, lg2⟩ := r
      have hfuel : 2 * rest.length + 2 ≤ 2 * (rest ++ suf).length + 2 := by
        rw [List.length_append]
        omega
      have hext := (nbt_extend suf (2 * rest.length + 2)).2 (2 * (rest ++ suf).length + 2) []
        rest o2 lg2 hfuel he
      cases o2 with
      | ok items rest2 =>
        simp only [DeserializeLog, hpair, he, Option.some.injEq, Prod.mk.injEq] at h
        obtain ⟨rfl, rfl⟩ := h
        obtain ⟨hex1, hex2⟩ := not_exhausted_append hex
        have h1 := readStringLog_append_pair suf hpair hex1
        have h2 := hext hex2
        simp only [NbtOut.extend] at h1 h2
        simp only [DeserializeLog, h1, h2, NbtOut.extend]
      | error =>
        simp only [DeserializeLog, hpair, he, Option.some.injEq, Prod.mk.injEq] at h
        obtain ⟨rfl, rfl⟩ := h
        obtain ⟨hex1, hex2⟩ := not_exhausted_append hex
        have h1 := readStringLog_append_pair suf hpair hex1
        have h2 := hext hex2
        simp only [NbtOut.extend] at h1 h2
        simp only [DeserializeLog, h1, h2, NbtOut.extend]
      | panic =>
        simp only [DeserializeLog, hpair, he, Option.some.injEq, Prod.mk.injEq] at h
        obtain ⟨rfl, rfl⟩ := h
        obtain ⟨hex1, hex2⟩ := not_exhausted_append hex
        have h1 := readStringLog_append_pair suf hpair hex1
        have h2 := hext hex2
        simp only [NbtOut.extend] at h1 h2
        simp only [DeserializeLog, h1, h2, NbtOut.extend]

/-- An input cut short: when `inp` followed by more bytes is read well to its
last byte, the read of `inp` alone ends in an error. -/
theorem Deserialize_cut (inp suf : List Nat) (c : Compound) (hsuf : suf ≠ [])
    (hfull : Deserialize (inp ++ suf) = some (NbtOut.ok c [])) :
    Deserialize inp = some NbtOut.error := by
  obtain ⟨out, hout, _, _⟩ := Deserialize_sound inp
  obtain ⟨log, hlog, hl⟩ := Deserialize_log inp out hout
  by_cases hex : NbtEvent.exhausted ∈ log
  · rw [hout, hl.2 (Or.inl hex)]
  · have hext := DeserializeLog_extend inp suf out log hlog hex
    obtain ⟨log2, hlog2, _⟩ := Deserialize_log (inp ++ suf) _ hfull
    rw [hext] at hlog2
    simp only [Option.some.injEq, Prod.mk.injEq] at hlog2
    cases out with
    | ok c2 rest2 =>
      simp only [NbtOut.extend, NbtOut.ok.injEq] at hlog2
      exact absurd (List.append_eq_nil.mp hlog2.1.2).2 hsuf
    | error => exact hout
    | panic => exact NbtOut.noConfusion hlog2.1

/-- C20, amended: for every finite byte sequence given as input,
`Compound.Deserialize` terminates and returns nil, returns an error or
panics.  It returns nil only after it has read the End tag (id 0) of the
compound as the last byte it consumed.  It panics exactly when a string,
byte-array, int-array or list length field that it has read is negative (so
not when every byte of the input is below 128).  It returns an error whenever
the input ends before the End tag: whenever one of its reads finds the input
exhausted, and so whenever the input is a proper initial part of an input
that is read well to its last byte.  The log is that of `DeserializeLog`, the
same reader with every length field read and every exhausted read written
down. -/
theorem Deserialize_total (inp : List Nat) :
    ∃ out log, Deserialize inp = some out ∧ DeserializeLog inp = some (out, log) ∧
      (∀ c rest, out = NbtOut.ok c rest → ∃ pre, inp = pre ++ 0 :: rest) ∧
      (out = NbtOut.panic ↔ ∃ l : Int, NbtEvent.length l ∈ log ∧ l < 0) ∧
      ((∀ b ∈ inp, b < 128) → out ≠ NbtOut.panic) ∧
      (NbtEvent.exhausted ∈ log → out = NbtOut.error) ∧
      (∀ suf c, suf ≠ [] → Deserialize (inp ++ suf) = some (NbtOut.ok c []) →
        out = NbtOut.error) := by
  obtain ⟨out, hout, hend, hsmall⟩ := Deserialize_sound inp
  obtain ⟨log, hlog, hl⟩ := Deserialize_log inp out hout
  refine ⟨out, log, hout, hlog, hend, hl.1, hsmall, fun h => hl.2 (Or.inl h), ?_⟩
  intro suf c hsuf hfull
  have h := Deserialize_cut inp suf c hsuf hfull
  rw [hout] at h
  exact Option.some.inj h

end Steven
